import Mathlib

/-!
# Blur filters of the render engine

A shallow embedding of the blur filters under `libs/renderengine`:

* `gl/filters/BlurFilter.cpp`: the OpenGL ES filter (`prepare`, `render` and the GLSL
  fragment shaders it compiles);
* `skia/filters/BlurFilter.cpp`, `skia/filters/KawaseBlurFilter.cpp` and
  `skia/filters/GaussianBlurFilter.cpp`: the Skia filters;

and of the enumerant macro of `vulkan/include/vulkan/vk_android_native_buffer.h`.

Conventions of the embedding.

* `uint32_t` and `size_t` values are natural numbers, reduced modulo `2 ^ 32` and
  `2 ^ w` where a conversion or a subtraction can wrap; `int` values are integers.
* `float` and `GLfloat` values computed on the CPU are binary32 values (`Binary32`): a
  finite value (a rational), an infinity or a NaN. Conversions from integers, divisions and
  products round to nearest, ties to even, with overflow to infinity and gradual underflow.
  The sign of zero is not modelled: every zero these functions divide by is the conversion
  of an unsigned integer, a positive zero. A constant of type `float` is given by its value.
* Inside the shaders, colours and coordinates are elements of an arbitrary linearly ordered
  field (exact arithmetic), and the sigma given to an image filter is kept as an exact
  product.
* The constants `kMaxPasses` (a `uint32_t`), `kMaxCrossFadeRadius` and `kInputScale`
  (`float` constants) are declared in the headers `BlurFilter.h`, which are not part of the
  sources at hand; they are parameters.
* GPU commands are not executed: a function that issues draw calls returns the list of the
  calls it issued, with the uniforms and bindings in force at each call.
-/

namespace renderengine

/-! ## C++ conversions and library functions -/

/-- The conversion `(uint32_t) x` of a floating-point value: truncation towards zero, kept
in 32 bits. -/
def toUInt32 (x : ℚ) : ℕ :=
  (if 0 ≤ x then Int.toNat ⌊x⌋ else Int.toNat ⌈x⌉) % 2 ^ 32

/-- The conversion of an `int` to a 32-bit unsigned type: reduction modulo `2 ^ 32`. -/
def intToUInt32 (x : ℤ) : ℕ :=
  Int.toNat (x % 2 ^ 32)

/-- The conversion of a 32-bit unsigned value to `int` (or to `status_t`, which is an
`int32_t`): the value with the same bit pattern in two's complement. -/
def toInt32 (n : ℕ) : ℤ :=
  if n % 2 ^ 32 < 2 ^ 31 then ((n % 2 ^ 32 : ℕ) : ℤ) else ((n % 2 ^ 32 : ℕ) : ℤ) - 2 ^ 32

/-- The result of an operation on `int` whose mathematical value is `x`: the value itself
when it is representable in 32 bits, `none` when the operation overflows (which is undefined
behaviour). -/
def checkedInt32 (x : ℤ) : Option ℤ :=
  if -2 ^ 31 ≤ x ∧ x < 2 ^ 31 then some x else none

/-! ## Binary32 arithmetic -/

/-- A value of the type `float` (IEEE 754 binary32): a finite value, an infinity with its
sign, or a NaN. -/
inductive Binary32 where
  | finite (value : ℚ)
  | inf (negative : Bool)
  | nan
  deriving DecidableEq, Repr

namespace Binary32

/-- Rounding of a rational to the nearest integer, ties to the even one. -/
def roundHalfEven (x : ℚ) : ℤ :=
  if x - ⌊x⌋ < 1 / 2 then ⌊x⌋
  else if 1 / 2 < x - ⌊x⌋ then ⌊x⌋ + 1
  else if ⌊x⌋ % 2 = 0 then ⌊x⌋ else ⌊x⌋ + 1

/-- The binary32 exponent of a rational `q`: the exponent of its leading bit, and `-126`
(the exponent of the subnormal numbers) for zero and for the values below `2 ^ (-126)`. -/
def exponent (q : ℚ) : ℤ :=
  if q = 0 then -126 else max (Int.log 2 |q|) (-126)

/-- The spacing of the binary32 values around `q`: 24 significant bits. -/
def ulp (q : ℚ) : ℚ :=
  2 ^ (exponent q - 23)

/-- The multiple of `ulp q` nearest to `q`, ties to the even multiple. -/
def roundValue (q : ℚ) : ℚ :=
  (roundHalfEven (q / ulp q) : ℚ) * ulp q

/-- Rounding of a rational to binary32: to nearest, ties to even; a result of magnitude
`2 ^ 128` or more is an infinity. -/
def ofRat (q : ℚ) : Binary32 :=
  if 2 ^ 128 ≤ |roundValue q| then .inf (decide (q < 0)) else .finite (roundValue q)

/-- The conversion of an unsigned or non-negative integer to `float`. -/
def ofNat (n : ℕ) : Binary32 :=
  ofRat (n : ℚ)

/-- The division of two `float` values. -/
def div : Binary32 → Binary32 → Binary32
  | .nan, _ => .nan
  | _, .nan => .nan
  | .inf _, .inf _ => .nan
  | .inf s, .finite y => .inf (s != decide (y < 0))
  | .finite _, .inf _ => .finite 0
  | .finite x, .finite y =>
    if y = 0 then (if x = 0 then .nan else .inf (decide (x < 0))) else ofRat (x / y)

/-- The product of two `float` values. -/
def mul : Binary32 → Binary32 → Binary32
  | .nan, _ => .nan
  | _, .nan => .nan
  | .inf s, .inf t => .inf (s != t)
  | .inf s, .finite y => if y = 0 then .nan else .inf (s != decide (y < 0))
  | .finite x, .inf t => if x = 0 then .nan else .inf (decide (x < 0) != t)
  | .finite x, .finite y => ofRat (x * y)

/-- The comparison `x < y` of two `float` values; false when one of them is a NaN. -/
def lt : Binary32 → Binary32 → Bool
  | .finite x, .finite y => decide (x < y)
  | .finite _, .inf t => !t
  | .inf s, .finite _ => s
  | .inf s, .inf t => s && !t
  | .nan, _ => false
  | _, .nan => false

/-- The comparison `x <= y` of two `float` values; false when one of them is a NaN. -/
def le : Binary32 → Binary32 → Bool
  | .finite x, .finite y => decide (x ≤ y)
  | .finite _, .inf t => !t
  | .inf s, .finite _ => s
  | .inf s, .inf t => s || !t
  | .nan, _ => false
  | _, .nan => false

/-- The function `ceil` of `<cmath>`; its result is exact. -/
def ceil : Binary32 → Binary32
  | .finite x => .finite ((⌈x⌉ : ℤ) : ℚ)
  | .inf s => .inf s
  | .nan => .nan

/-- The conversion `(uint32_t) x` of a `float`. The conversion of an infinity or of a NaN is
undefined behaviour; it is given the value 0 here. -/
def toUInt32 : Binary32 → ℕ
  | .finite x => renderengine.toUInt32 x
  | _ => 0

/-- The function `fmin` of `<cmath>`: the smaller argument, and the other argument when
one is a NaN. The arguments here are `float` values, so the `double` result is again a
`float` value. -/
def fmin (x y : Binary32) : Binary32 :=
  match x, y with
  | .nan, _ => y
  | _, .nan => x
  | _, _ => if lt y x then y else x

/-- The value of a finite `float`, and 0 for an infinity or a NaN. -/
def value : Binary32 → ℚ
  | .finite x => x
  | _ => 0

/-- A rational is representable when it is a binary32 value: rounding leaves it
unchanged. -/
def Representable (q : ℚ) : Prop :=
  ofRat q = .finite q

end Binary32

namespace gl

/-! ## `gl::BlurFilter` -/

/-- The frame buffer objects owned by `gl::BlurFilter`. -/
inductive Framebuffer where
  | mCompositionFbo
  | mPingFbo
  | mPongFbo
  | mDitherFbo
  deriving DecidableEq, Repr

/-- The part of the state of `gl::BlurFilter` that `prepare` and `render` read and write:
the radius stored by `setAsDrawTarget`, the size of the composition buffer, and the buffer
that holds the blurred frame. -/
structure BlurFilter where
  mRadius : ℕ
  compositionWidth : ℕ
  compositionHeight : ℕ
  mLastDrawTarget : Framebuffer
  deriving DecidableEq, Repr

/-- One `drawMesh` call made with `mBlurProgram`: the buffer whose texture is bound to
texture unit 0, the bound frame buffer, and the value of the uniform `uOffset`. -/
structure BlurDraw where
  read : Framebuffer
  draw : Framebuffer
  offsetX : Binary32
  offsetY : Binary32
  deriving DecidableEq, Repr

/-- The local `radius` of `prepare`: `mRadius / 6.0f`, the `uint32_t` radius converted to
`float` and divided in `float`. -/
def prepareRadius (mRadius : ℕ) : Binary32 :=
  Binary32.div (Binary32.ofNat mRadius) (.finite 6)

/-- The local `passes` of `prepare`: `min(kMaxPasses, (uint32_t)ceil(radius))`. -/
def preparePasses (kMaxPasses mRadius : ℕ) : ℕ :=
  min kMaxPasses (Binary32.toUInt32 (Binary32.ceil (prepareRadius mRadius)))

/-- The local `radiusByPasses` of `prepare`: `radius / (float)passes`. -/
def prepareRadiusByPasses (kMaxPasses mRadius : ℕ) : Binary32 :=
  Binary32.div (prepareRadius mRadius) (Binary32.ofNat (preparePasses kMaxPasses mRadius))

/-- The variables of the ping-pong loop of `prepare`: the pointers `read` and `draw`, and
the draw calls issued so far. -/
structure PingPong where
  read : Framebuffer
  draw : Framebuffer
  draws : List BlurDraw
  deriving DecidableEq, Repr

/-- The body of the ping-pong loop of `prepare` for the loop counter `i`: bind `draw`,
sample `read` with the offset `(stepX * i, stepY * i)` (the counter converted to `float`,
the products in `float`), draw, and swap the two pointers. -/
def renderPass (stepX stepY : Binary32) (s : PingPong) (i : ℕ) : PingPong :=
  { read := s.draw
    draw := s.read
    draws := s.draws ++ [⟨s.read, s.draw, Binary32.mul stepX (Binary32.ofNat i),
      Binary32.mul stepY (Binary32.ofNat i)⟩] }

/-- The loop `for (auto i = 1; i < passes; i++)` of `prepare`, entered with
`read = &mPingFbo` and `draw = &mPongFbo`: the counter takes the values
`1, ..., passes - 1`. (The counter is an `int` compared with the `uint32_t passes`; as
`passes` is at most `ceil(2 ^ 32 / 6)`, the counter stays below `2 ^ 31`.) -/
def pingPongLoop (passes : ℕ) (stepX stepY : Binary32) : PingPong :=
  (List.range (passes - 1)).foldl (fun s j => renderPass stepX stepY s (j + 1))
    ⟨.mPingFbo, .mPongFbo, []⟩

/-- The function `BlurFilter::prepare`: the state it leaves (`mLastDrawTarget = read`) and
the draw calls it issues, in order. First the composition buffer is downsampled and blurred
into the ping buffer, then the ping-pong loop runs. -/
def prepare (kMaxPasses : ℕ) (f : BlurFilter) : BlurFilter × List BlurDraw :=
  let passes := preparePasses kMaxPasses f.mRadius
  let radiusByPasses := prepareRadiusByPasses kMaxPasses f.mRadius
  let stepX := Binary32.div radiusByPasses (Binary32.ofNat f.compositionWidth)
  let stepY := Binary32.div radiusByPasses (Binary32.ofNat f.compositionHeight)
  let first : BlurDraw := ⟨.mCompositionFbo, .mPingFbo, stepX, stepY⟩
  let loop := pingPongLoop passes stepX stepY
  ({ f with mLastDrawTarget := loop.read }, first :: loop.draws)

/-- The two programs `render` can composite with. -/
inductive MixProgram where
  | mMixProgram
  | mDitherMixProgram
  deriving DecidableEq, Repr

/-- The `drawMesh` call of `render`: the program in use, the buffer whose texture is bound
to texture unit 0 (`uBlurTexture`), and the value given to the uniform `uBlurOpacity`.
Texture unit 1 (`uCompositionTexture`) always holds the composition buffer and texture
unit 2 (`uDitherTexture`) the noise texture. -/
structure MixDraw where
  program : MixProgram
  blurTexture : Framebuffer
  uBlurOpacity : Binary32
  deriving DecidableEq, Repr

/-- The conversion of an `int` to `size_t`, a type of `w` bits. -/
def toSizeT (w : ℕ) (x : ℤ) : ℕ :=
  Int.toNat (x % 2 ^ w)

/-- The local `opacity` of `render` at the draw call:
`fmin(1.0, mRadius / kMaxCrossFadeRadius)`, the `uint32_t` radius converted to `float` and
divided in `float` by the constant, whose value is `kMaxCrossFadeRadius`; it is set to
`1.0f` when it is at least 1 or when more than one blur layer is rendered. -/
def renderOpacity (kMaxCrossFadeRadius : ℚ) (mRadius layers : ℕ) : Binary32 :=
  let opacity := Binary32.fmin (.finite 1)
    (Binary32.div (Binary32.ofNat mRadius) (.finite kMaxCrossFadeRadius))
  if Binary32.le (.finite 1) opacity = true ∨ layers > 1 then .finite 1 else opacity

/-- The function `BlurFilter::render(size_t layers, int currentLayer)`, where `size_t` has
`w` bits: the comparison `currentLayer == layers - 1` is made in `size_t`, and selects the
dithering program. -/
def render (w : ℕ) (kMaxCrossFadeRadius : ℚ) (f : BlurFilter) (layers : ℕ)
    (currentLayer : ℤ) : MixDraw :=
  let opacity := renderOpacity kMaxCrossFadeRadius f.mRadius layers
  if toSizeT w currentLayer = (layers + 2 ^ w - 1) % 2 ^ w then
    ⟨.mDitherMixProgram, f.mLastDrawTarget, opacity⟩
  else
    ⟨.mMixProgram, f.mLastDrawTarget, opacity⟩

end gl

/-! ## Shader values -/

/-- A GLSL `vec2`, an SkSL `float2`. -/
structure Vec2 (F : Type) where
  x : F
  y : F

/-- A GLSL `vec3`. -/
structure Vec3 (F : Type) where
  r : F
  g : F
  b : F

/-- A GLSL `vec4`, an SkSL `half4`. -/
structure Vec4 (F : Type) where
  r : F
  g : F
  b : F
  a : F

/-- Component-wise sum of two `vec2`. -/
def Vec2.add {F : Type} [Add F] (u v : Vec2 F) : Vec2 F :=
  ⟨u.x + v.x, u.y + v.y⟩

/-- Component-wise sum of two `vec3`. -/
def Vec3.add {F : Type} [Add F] (u v : Vec3 F) : Vec3 F :=
  ⟨u.r + v.r, u.g + v.g, u.b + v.b⟩

/-- Product of a `vec3` and a scalar. -/
def Vec3.scale {F : Type} [Mul F] (u : Vec3 F) (c : F) : Vec3 F :=
  ⟨u.r * c, u.g * c, u.b * c⟩

/-- A scalar function applied to each component of a `vec3`. -/
def Vec3.map {F : Type} (h : F → F) (u : Vec3 F) : Vec3 F :=
  ⟨h u.r, h u.g, h u.b⟩

/-- A binary scalar function applied component-wise to two `vec3`. -/
def Vec3.zipWith {F : Type} (h : F → F → F) (u v : Vec3 F) : Vec3 F :=
  ⟨h u.r v.r, h u.g v.g, h u.b v.b⟩

/-- Component-wise sum of two `vec4`. -/
def Vec4.add {F : Type} [Add F] (u v : Vec4 F) : Vec4 F :=
  ⟨u.r + v.r, u.g + v.g, u.b + v.b, u.a + v.a⟩

/-- The swizzle `.rgb`. -/
def Vec4.rgb {F : Type} (u : Vec4 F) : Vec3 F :=
  ⟨u.r, u.g, u.b⟩

/-- The constructor `vec4(rgb, a)`. -/
def Vec4.ofRgb {F : Type} (u : Vec3 F) (a : F) : Vec4 F :=
  ⟨u.r, u.g, u.b, a⟩

/-- A texture bound to a sampler, or a child shader: a colour at every coordinate. -/
abbrev Sampler (F : Type) : Type := Vec2 F → Vec4 F

namespace glsl

/-- The GLSL built-in `mix(x, y, a)`: `x * (1 - a) + y * a`. -/
def mix {F : Type} [LinearOrderedField F] (x y a : F) : F :=
  x * (1 - a) + y * a

end glsl

namespace gl

/-! ## The fragment shaders of `gl::BlurFilter` -/

/-- The function `main` of the shader returned by `getFragmentShader`: the value of
`fragColor` for the texture `uTexture`, the uniform `uOffset` and the varying `vUV`. -/
def getFragmentShader {F : Type} [LinearOrderedField F] (uTexture : Sampler F)
    (uOffset : Vec2 F) (vUV : Vec2 F) : Vec4 F :=
  let sum := (uTexture vUV).rgb
  let sum := sum.add (uTexture (vUV.add ⟨uOffset.x, uOffset.y⟩)).rgb
  let sum := sum.add (uTexture (vUV.add ⟨uOffset.x, -uOffset.y⟩)).rgb
  let sum := sum.add (uTexture (vUV.add ⟨-uOffset.x, uOffset.y⟩)).rgb
  let sum := sum.add (uTexture (vUV.add ⟨-uOffset.x, -uOffset.y⟩)).rgb
  Vec4.ofRgb (sum.scale 0.2) 1

/-- The function `main` of the shader returned by `getMixFragShader`. -/
def getMixFragShader {F : Type} [LinearOrderedField F] (uCompositionTexture : Sampler F)
    (uBlurTexture : Sampler F) (uBlurOpacity : F) (vUV : Vec2 F) : Vec4 F :=
  let blurred := (uBlurTexture vUV).rgb
  let composition := (uCompositionTexture vUV).rgb
  Vec4.ofRgb (Vec3.zipWith (fun c b => glsl.mix c b uBlurOpacity) composition blurred) 1

end gl

namespace skia

/-! ## `skia::BlurFilter` -/

/-- The runtime effects the filters compile. -/
inductive SkRuntimeEffect where
  | mixEffect
  | blurEffect
  deriving DecidableEq, Repr

/-- The function `createMixEffect`: `makeForShader` is what
`SkRuntimeEffect::MakeForShader(SkString(mixString))` yields (`none` for a null effect).
The result is `none` when `LOG_ALWAYS_FATAL` aborts the process. -/
def createMixEffect (makeForShader : Option SkRuntimeEffect) : Option SkRuntimeEffect :=
  match makeForShader with
  | none => none
  | some effect => some effect

/-- The members of `skia::BlurFilter`; `mMixEffect` is `none` for a null pointer. -/
structure BlurFilter where
  mMaxCrossFadeRadius : Binary32
  mMixEffect : Option SkRuntimeEffect
  deriving DecidableEq, Repr

/-- The constructor `BlurFilter::BlurFilter(const float maxCrossFadeRadius)`: the mix effect
is created only for a positive radius. The result is `none` when the process is aborted. -/
def BlurFilter.construct (makeForShader : Option SkRuntimeEffect)
    (maxCrossFadeRadius : Binary32) : Option BlurFilter :=
  if Binary32.lt (.finite 0) maxCrossFadeRadius = true then
    match createMixEffect makeForShader with
    | none => none
    | some effect => some ⟨maxCrossFadeRadius, some effect⟩
  else
    some ⟨maxCrossFadeRadius, none⟩

/-- The constructor `GaussianBlurFilter::GaussianBlurFilter()`:
`BlurFilter(/* maxCrossFadeRadius= */ 0.0f)`. -/
def GaussianBlurFilter.construct (makeForShader : Option SkRuntimeEffect) :
    Option BlurFilter :=
  BlurFilter.construct makeForShader (.finite 0.0)

/-- The shader `drawBlurRegion` sets on its paint: the shader of the blurred image alone, or
the shader built from an effect with the uniform `mixFactor` (and the children
`blurredInput` and `originalInput`). -/
inductive PaintShader where
  | blurShader
  | mixShader (effect : Option SkRuntimeEffect) (mixFactor : Binary32)
  deriving DecidableEq, Repr

/-- The draw call `drawBlurRegion` ends with: the paint's alpha, shader, blend mode
(`kSrc` or the default) and anti-aliasing flag, and whether `drawRect` (rather than
`drawRRect`) was called. -/
structure BlurRegionDraw where
  alpha : ℚ
  shader : PaintShader
  blendModeSrc : Bool
  antiAlias : Bool
  drawRect : Bool
  deriving DecidableEq, Repr

/-- The function `BlurFilter::drawBlurRegion`; `isRect` is `effectRegion.isRect()`. The
comparison `blurRadius < mMaxCrossFadeRadius` and the quotient
`blurRadius / mMaxCrossFadeRadius` are made in `float`, on the converted `uint32_t`. -/
def drawBlurRegion (f : BlurFilter) (isRect : Bool) (blurRadius : ℕ) (blurAlpha : ℚ) :
    BlurRegionDraw :=
  let shader : PaintShader :=
    if Binary32.lt (Binary32.ofNat blurRadius) f.mMaxCrossFadeRadius = true then
      .mixShader f.mMixEffect (Binary32.div (Binary32.ofNat blurRadius) f.mMaxCrossFadeRadius)
    else
      .blurShader
  if isRect then
    ⟨blurAlpha, shader, decide (blurAlpha = 1.0), false, true⟩
  else
    ⟨blurAlpha, shader, false, true, false⟩

/-! ## Skia images, paints and image filters -/

/-- The tile modes of Skia the filters use. -/
inductive SkTileMode where
  | kMirror
  deriving DecidableEq, Repr

/-- The blend modes of Skia the filters use. -/
inductive SkBlendMode where
  | kSrcOver
  | kSrc
  deriving DecidableEq, Repr

/-- The image filters the filters build: `SkImageFilters::Blur(sigmaX, sigmaY, tileMode,
nullptr)` and `SkImageFilters::Compose(outer, inner)`. -/
inductive SkImageFilter where
  | Blur (sigmaX sigmaY : ℚ) (tileMode : SkTileMode)
  | Compose (outer inner : SkImageFilter)
  deriving DecidableEq, Repr

/-- The attributes of an `SkPaint` the filters set in `generate`. -/
structure SkPaint where
  blendMode : SkBlendMode
  imageFilter : Option SkImageFilter
  deriving DecidableEq, Repr

/-- The images `generate` works with: the input image, an image made by
`blurBuilder.makeImage` from a child image with a value of the uniform `in_blurOffset`, and
the snapshot of a surface onto which an image was drawn, with the paint passed to the draw
call (`none` when the call is given no paint). -/
inductive SkImage where
  | input
  | makeImage (child : SkImage) (in_blurOffset : Binary32)
  | snapshot (drawn : SkImage) (paint : Option SkPaint)
  deriving DecidableEq, Repr

/-! ## `skia::KawaseBlurFilter` -/

/-- The function `main` of the runtime shader compiled by the constructor of
`KawaseBlurFilter`, for the child shader `child`, the uniform `in_blurOffset` and the
coordinate `xy`. -/
def kawaseBlurShader {F : Type} [LinearOrderedField F] (child : Sampler F)
    (in_blurOffset : F) (xy : Vec2 F) : Vec4 F :=
  let c := child xy
  let c := c.add (child (xy.add ⟨in_blurOffset, in_blurOffset⟩))
  let c := c.add (child (xy.add ⟨in_blurOffset, -in_blurOffset⟩))
  let c := c.add (child (xy.add ⟨-in_blurOffset, -in_blurOffset⟩))
  let c := c.add (child (xy.add ⟨-in_blurOffset, in_blurOffset⟩))
  Vec4.ofRgb (c.rgb.scale 0.2) 1.0

/-- The local `tmpRadius` of `generate`: `(float)blurRadius / 6.0f`. -/
def tmpRadius (blurRadius : ℕ) : Binary32 :=
  Binary32.div (Binary32.ofNat blurRadius) (.finite 6)

/-- The local `numberOfPasses` of `generate`:
`std::min(kMaxPasses, (uint32_t)ceil(tmpRadius))`, converted to `float` to be stored. -/
def numberOfPasses (kMaxPasses blurRadius : ℕ) : Binary32 :=
  Binary32.ofNat (min kMaxPasses (Binary32.toUInt32 (Binary32.ceil (tmpRadius blurRadius))))

/-- The local `radiusByPasses` of `generate`: `tmpRadius / (float)numberOfPasses`. -/
def radiusByPasses (kMaxPasses blurRadius : ℕ) : Binary32 :=
  Binary32.div (tmpRadius blurRadius) (numberOfPasses kMaxPasses blurRadius)

/-- The values of `in_blurOffset` of the chain of `makeImage` calls that made an image,
the first call first. -/
def SkImage.blurOffsets : SkImage → List Binary32
  | .input => []
  | .makeImage child o => child.blurOffsets ++ [o]
  | .snapshot drawn _ => drawn.blurOffsets

/-- One iteration of the loop of `generate` for the loop counter `i`, on the current
`tmpBlur` (`none` once the function has returned `nullptr`): the next image is made from
`tmpBlur` with the offset `(float) i * radiusByPasses * kInputScale`, both products in
`float`; the function returns `nullptr` when `makeImage` does. `makeImageOk i` tells
whether the call of pass `i` succeeds, and `kInputScale` is the value of the constant. -/
def kawasePass (radiusByPasses : Binary32) (kInputScale : ℚ) (makeImageOk : ℕ → Bool)
    (tmpBlur : Option SkImage) (i : ℕ) : Option SkImage :=
  match tmpBlur with
  | none => none
  | some img =>
    if makeImageOk i then
      some (.makeImage img
        (Binary32.mul (Binary32.mul (Binary32.ofNat i) radiusByPasses) (.finite kInputScale)))
    else none

/-- The loop `for (auto i = 1; i < numberOfPasses; i++)` of `generate`, from the value `i`
of the counter: the counter is converted to `float` to be compared with `numberOfPasses`.
The first argument bounds the number of iterations. -/
def kawaseLoop (numberOfPasses : Binary32) (pass : Option SkImage → ℕ → Option SkImage) :
    ℕ → ℕ → Option SkImage → Option SkImage
  | 0, _, tmpBlur => tmpBlur
  | fuel + 1, i, tmpBlur =>
    if Binary32.lt (Binary32.ofNat i) numberOfPasses = true then
      kawaseLoop numberOfPasses pass fuel (i + 1) (pass tmpBlur i)
    else tmpBlur

/-- The first part of `KawaseBlurFilter::generate`: the first pass on the input image, with
the offset `radiusByPasses * kInputScale`, then the loop. The counter of the loop is an
`int`, so the loop makes fewer than `2 ^ 31` iterations. The result is the value of
`tmpBlur` after the loop, `none` when the function has returned `nullptr`. -/
def kawasePasses (kMaxPasses : ℕ) (kInputScale : ℚ) (blurRadius : ℕ)
    (makeImageOk : ℕ → Bool) : Option SkImage :=
  let radiusByPasses := radiusByPasses kMaxPasses blurRadius
  let tmpBlur : Option SkImage :=
    if makeImageOk 0 then
      some (.makeImage .input (Binary32.mul radiusByPasses (.finite kInputScale)))
    else none
  kawaseLoop (numberOfPasses kMaxPasses blurRadius)
    (kawasePass radiusByPasses kInputScale makeImageOk) (2 ^ 31) 1 tmpBlur

/-- The paint `KawaseBlurFilter::generate` configures after the loop: blend mode `kSrc` and
the image filter `SkImageFilters::Blur(sigmaScale, sigmaScale, SkTileMode::kMirror, nullptr)`
with `sigmaScale = blurRadius * kInputScale * 0.5f`. -/
def kawasePaint (kInputScale : ℚ) (blurRadius : ℕ) : SkPaint :=
  let sigmaScale := (blurRadius : ℚ) * kInputScale * 0.5
  ⟨.kSrc, some (.Blur sigmaScale sigmaScale .kMirror)⟩

/-- The function `KawaseBlurFilter::generate`: after the passes, the last image is drawn on
a new surface by `surface->getCanvas()->drawImage(tmpBlur.get(), 0, 0)`, a call that is
given no paint, and the snapshot of the surface is returned. -/
def KawaseBlurFilter.generate (kMaxPasses : ℕ) (kInputScale : ℚ) (blurRadius : ℕ)
    (makeImageOk : ℕ → Bool) : Option SkImage :=
  match kawasePasses kMaxPasses kInputScale blurRadius makeImageOk with
  | none => none
  | some tmpBlur => some (.snapshot tmpBlur none)

/-! ## `skia::GaussianBlurFilter` -/

/-- The constant `BLUR_SIGMA_SCALE`. -/
def BLUR_SIGMA_SCALE : ℚ := 0.1

/-- The constant `GLASS_BLUR_SCALE`. -/
def GLASS_BLUR_SCALE : ℚ := 2.0

/-- The local `sigmaScale` of `GaussianBlurFilter::generate`:
`blurRadius * kInputScale * BLUR_SIGMA_SCALE`. -/
def GaussianBlurFilter.sigmaScale (kInputScale : ℚ) (blurRadius : ℕ) : ℚ :=
  (blurRadius : ℚ) * kInputScale * BLUR_SIGMA_SCALE

/-- The paint `GaussianBlurFilter::generate` draws with: blend mode `kSrc` and the
composition of the blur filter of sigma `sigmaScale` with the glass blur. -/
def GaussianBlurFilter.paint (kInputScale : ℚ) (blurRadius : ℕ) : SkPaint :=
  let sigmaScale := GaussianBlurFilter.sigmaScale kInputScale blurRadius
  let blurFilter := SkImageFilter.Blur sigmaScale sigmaScale .kMirror
  let glassEffect := SkImageFilter.Blur ((blurRadius : ℚ) * kInputScale * GLASS_BLUR_SCALE)
    ((blurRadius : ℚ) * kInputScale * GLASS_BLUR_SCALE) .kMirror
  ⟨.kSrc, some (.Compose blurFilter glassEffect)⟩

/-- The function `GaussianBlurFilter::generate`: the input is drawn with the paint on a new
surface by `drawImageRect`, and the snapshot of the surface is returned. -/
def GaussianBlurFilter.generate (kInputScale : ℚ) (blurRadius : ℕ) : SkImage :=
  .snapshot .input (some (GaussianBlurFilter.paint kInputScale blurRadius))

end skia

namespace gl

/-! ## `gl::BlurFilter::setAsDrawTarget` -/

/-- The value of `GL_FRAMEBUFFER_COMPLETE` in `<GLES3/gl3.h>`. -/
def GL_FRAMEBUFFER_COMPLETE : ℕ := 0x8CD5

/-- The value of `GL_INVALID_OPERATION` in `<GLES3/gl3.h>`. -/
def GL_INVALID_OPERATION : ℕ := 0x0502

/-- The value of `NO_ERROR` in `<utils/Errors.h>`. -/
def NO_ERROR : ℤ := 0

/-- The members of `gl::BlurFilter` that `setAsDrawTarget` reads and writes, with what it
observes of the objects it owns: the values `getStatus()` returns for the three frame
buffers, the value `mBlurProgram.isValid()` returns, and whether the composition buffer is
the bound draw target. The display size members are `uint32_t`. -/
structure DrawTargetState where
  mRadius : ℕ
  mDisplayX : ℤ
  mDisplayY : ℤ
  mDisplayWidth : ℕ
  mDisplayHeight : ℕ
  compositionStatus : ℕ
  pingStatus : ℕ
  pongStatus : ℕ
  blurProgramValid : Bool
  compositionBound : Bool
  deriving DecidableEq, Repr

/-- What `setAsDrawTarget` reads of `display.physicalDisplay`: the members `left` and `top`
and the values of `width()` and `height()`, all `int32_t`. -/
structure PhysicalDisplay where
  left : ℤ
  top : ℤ
  width : ℤ
  height : ℤ
  deriving DecidableEq, Repr

/-- The outcome of the three `allocateBuffers` calls of one `setAsDrawTarget` call: the
status each frame buffer has afterwards. -/
structure Allocation where
  composition : ℕ
  ping : ℕ
  pong : ℕ
  deriving DecidableEq, Repr

/-- The function `BlurFilter::setAsDrawTarget(display, radius)`: the state it leaves and the
`status_t` it returns. `alloc` is the outcome of the buffer allocations, used only when the
call allocates. The sizes are stored before the buffers are allocated and checked; every
error return leaves the function before the composition buffer is bound. -/
def setAsDrawTarget (s : DrawTargetState) (display : PhysicalDisplay) (radius : ℕ)
    (alloc : Allocation) : DrawTargetState × ℤ :=
  let s := { s with mRadius := radius, mDisplayX := display.left, mDisplayY := display.top }
  if s.mDisplayWidth < intToUInt32 display.width ∨
      s.mDisplayHeight < intToUInt32 display.height then
    let s := { s with
      mDisplayWidth := intToUInt32 display.width
      mDisplayHeight := intToUInt32 display.height
      compositionStatus := alloc.composition
      pingStatus := alloc.ping
      pongStatus := alloc.pong }
    if s.pingStatus ≠ GL_FRAMEBUFFER_COMPLETE then
      (s, toInt32 s.pingStatus)
    else if s.pongStatus ≠ GL_FRAMEBUFFER_COMPLETE then
      (s, toInt32 s.pongStatus)
    else if s.compositionStatus ≠ GL_FRAMEBUFFER_COMPLETE then
      (s, toInt32 s.compositionStatus)
    else if ¬ s.blurProgramValid then
      (s, toInt32 GL_INVALID_OPERATION)
    else
      ({ s with compositionBound := true }, NO_ERROR)
  else
    ({ s with compositionBound := true }, NO_ERROR)

/-- A sequence of `setAsDrawTarget` calls, each with its display, radius and allocation
outcome: the state after the last call and the values returned, in order. -/
def setAsDrawTargetCalls (s : DrawTargetState) :
    List (PhysicalDisplay × ℕ × Allocation) → DrawTargetState × List ℤ
  | [] => (s, [])
  | (display, radius, alloc) :: calls =>
    let r := setAsDrawTarget s display radius alloc
    let rest := setAsDrawTargetCalls r.1 calls
    (rest.1, r.2 :: rest.2)

end gl

end renderengine

namespace vulkan

/-! ## `vk_android_native_buffer.h` -/

/-- The macro `VK_ANDROID_NATIVE_BUFFER_EXTENSION_NUMBER`. -/
def VK_ANDROID_NATIVE_BUFFER_EXTENSION_NUMBER : ℤ := 1024

/-- The macro `VK_ANDROID_NATIVE_BUFFER_ENUM(type, id)`, which expands to
`((type)((int)0xc0000000 - VK_ANDROID_NATIVE_BUFFER_EXTENSION_NUMBER * -1024 + (id)))`:
the product is evaluated first, then the difference, then the sum, all in `int`; the result
is `none` when one of them overflows. The enumeration `type` has 32 bits, so the outer cast
keeps the value. -/
def VK_ANDROID_NATIVE_BUFFER_ENUM (id : ℤ) : Option ℤ :=
  match renderengine.checkedInt32 (VK_ANDROID_NATIVE_BUFFER_EXTENSION_NUMBER * -1024) with
  | none => none
  | some product =>
    match renderengine.checkedInt32 (renderengine.toInt32 0xc0000000 - product) with
    | none => none
    | some difference => renderengine.checkedInt32 (difference + id)

/-- The macro `VK_STRUCTURE_TYPE_NATIVE_BUFFER_ANDROID`:
`VK_ANDROID_NATIVE_BUFFER_ENUM(VkStructureType, 0)`. -/
def VK_STRUCTURE_TYPE_NATIVE_BUFFER_ANDROID : Option ℤ :=
  VK_ANDROID_NATIVE_BUFFER_ENUM 0

end vulkan

namespace renderengine

/-! ## Notions used to state the properties -/

/-- The buffer the ping-pong loop reads in its iteration number `j` (counted from 0), and
draws into in its iteration number `j - 1`. -/
def gl.pingPongBuffer (j : ℕ) : gl.Framebuffer :=
  if j % 2 = 0 then .mPingFbo else .mPongFbo

/-- The offset of the blur draw number `k` of `gl::BlurFilter::prepare` from the offset
`step` of the first one: `step` itself for the first, and the product `step * k` in `float`
for the later ones. -/
def passOffset (step : Binary32) (k : ℕ) : Binary32 :=
  if k = 0 then step else Binary32.mul step (Binary32.ofNat k)

/-- The value of `in_blurOffset` of image number `k` of `skia::KawaseBlurFilter::generate`
for the value `s` of `radiusByPasses`: `s * kInputScale` for the first image, and
`(float) k * s * kInputScale` for the later ones, every product in `float`. -/
def skia.imageOffset (s : Binary32) (kInputScale : ℚ) (k : ℕ) : Binary32 :=
  if k = 0 then Binary32.mul s (.finite kInputScale)
  else Binary32.mul (Binary32.mul (Binary32.ofNat k) s) (.finite kInputScale)

/-- The multiplier of pass number `k`: 1 for the first pass, `k` for the later ones. -/
def offsetMultiplier (k : ℕ) : ℚ :=
  if k = 0 then 1 else (k : ℚ)

/-- The value `x` is the exact value `y` up to `n` roundings to `float`: a rounding in the
normal range changes a value by a factor between `1 - 2 ^ (-24)` and `1 + 2 ^ (-24)`. -/
def Binary32.Near (n : ℕ) (x y : ℚ) : Prop :=
  (1 - 1 / 2 ^ 24) ^ n * y ≤ x ∧ x ≤ (1 + 1 / 2 ^ 24) ^ n * y

/-! ## Theorems -/

namespace Binary32

/-- Rounding leaves an integer unchanged. -/
theorem roundHalfEven_intCast (n : ℤ) : roundHalfEven (n : ℚ) = n := by
  unfold roundHalfEven
  rw [Int.floor_intCast, sub_self, if_pos (by norm_num)]

/-- Rounding to the nearest integer moves a value by at most one half. -/
theorem abs_roundHalfEven_sub_le (x : ℚ) : |(roundHalfEven x : ℚ) - x| ≤ 1 / 2 := by
  have h0 : (0 : ℚ) ≤ x - ⌊x⌋ := sub_nonneg.mpr (Int.floor_le x)
  have h1 : x - ⌊x⌋ < 1 := by
    have := Int.lt_floor_add_one x
    linarith
  unfold roundHalfEven
  rw [abs_le]
  split_ifs with ha hb hc
  · constructor <;> linarith
  · push_cast
    constructor <;> linarith
  · constructor <;> linarith
  · push_cast
    constructor <;> linarith

/-- The rounded value is at least the floor. -/
theorem floor_le_roundHalfEven (x : ℚ) : ⌊x⌋ ≤ roundHalfEven x := by
  unfold roundHalfEven
  split_ifs <;> omega

/-- Rounding does not go below an integer that is below the value. -/
theorem le_roundHalfEven (n : ℤ) (x : ℚ) (h : (n : ℚ) ≤ x) : n ≤ roundHalfEven x :=
  le_trans (Int.le_floor.mpr h) (floor_le_roundHalfEven x)

/-- Rounding does not go above an integer that is above the value. -/
theorem roundHalfEven_le (n : ℤ) (x : ℚ) (h : x ≤ (n : ℚ)) : roundHalfEven x ≤ n := by
  have hf : ⌊x⌋ ≤ n := by
    have := Int.floor_le x
    exact_mod_cast le_trans this h
  by_cases hx : x - ⌊x⌋ < 1 / 2
  · unfold roundHalfEven
    rw [if_pos hx]
    exact hf
  · have hlt : (⌊x⌋ : ℚ) < n := by linarith
    have hlt2 : ⌊x⌋ < n := by exact_mod_cast hlt
    unfold roundHalfEven
    rw [if_neg hx]
    split_ifs <;> omega

/-- A value within less than one half of an integer rounds to that integer. -/
theorem roundHalfEven_eq_of_abs_lt (x : ℚ) (m : ℤ) (h : |x - m| < 1 / 2) :
    roundHalfEven x = m := by
  have h1 := abs_roundHalfEven_sub_le x
  rw [abs_lt] at h
  rw [abs_le] at h1
  have h2 : ((roundHalfEven x - m : ℤ) : ℚ) < 1 := by push_cast; linarith
  have h3 : (-1 : ℚ) < ((roundHalfEven x - m : ℤ) : ℚ) := by push_cast; linarith
  have h4 : roundHalfEven x - m < 1 := by exact_mod_cast h2
  have h5 : -1 < roundHalfEven x - m := by exact_mod_cast h3
  omega

/-- A value half way between two integers rounds to the even one. -/
theorem roundHalfEven_tie (m : ℤ) (x : ℚ) (hx : x = m + 1 / 2) :
    roundHalfEven x = if m % 2 = 0 then m else m + 1 := by
  have hf : ⌊x⌋ = m := by
    rw [Int.floor_eq_iff, hx]
    constructor <;> linarith
  unfold roundHalfEven
  rw [hf, hx]
  have e : (m : ℚ) + 1 / 2 - m = 1 / 2 := by ring
  rw [e, if_neg (lt_irrefl _), if_neg (lt_irrefl _)]

/-- The binary32 exponent is at least `-126`. -/
theorem exponent_ge (q : ℚ) : -126 ≤ exponent q := by
  unfold exponent
  split_ifs
  · exact le_refl _
  · exact le_max_right _ _

/-- The spacing is positive. -/
theorem ulp_pos (q : ℚ) : 0 < ulp q := by
  unfold ulp
  positivity

/-- The binary32 exponent of a value between two consecutive powers of two. -/
theorem exponent_eq (q : ℚ) (e : ℤ) (he : -126 ≤ e) (h1 : (2 : ℚ) ^ e ≤ |q|)
    (h2 : |q| < (2 : ℚ) ^ (e + 1)) : exponent q = e := by
  have hpos : 0 < |q| := lt_of_lt_of_le (by positivity) h1
  have hq : q ≠ 0 := abs_pos.mp hpos
  have hlog : Int.log 2 |q| = e := by
    apply le_antisymm
    · have h := (Int.lt_zpow_iff_log_lt (b := 2) (by norm_num) hpos (x := e + 1)).mp
        (by exact_mod_cast h2)
      omega
    · exact (Int.zpow_le_iff_le_log (b := 2) (by norm_num) hpos).mp (by exact_mod_cast h1)
  unfold exponent
  rw [if_neg hq, hlog, max_eq_left he]

/-- A value is below the power of two that follows its exponent. -/
theorem abs_lt_zpow_exponent_succ (q : ℚ) : |q| < (2 : ℚ) ^ (exponent q + 1) := by
  by_cases hq : q = 0
  · rw [hq, abs_zero]
    positivity
  · have h := Int.lt_zpow_succ_log_self (b := 2) (by norm_num) |q|
    have h2 : exponent q = max (Int.log 2 |q|) (-126) := by
      unfold exponent
      rw [if_neg hq]
    have h3 : Int.log 2 |q| + 1 ≤ exponent q + 1 := by
      rw [h2]
      have := le_max_left (Int.log 2 |q|) (-126)
      omega
    calc |q| < ((2 : ℕ) : ℚ) ^ (Int.log 2 |q| + 1) := h
      _ = (2 : ℚ) ^ (Int.log 2 |q| + 1) := by norm_num
      _ ≤ (2 : ℚ) ^ (exponent q + 1) := zpow_le_zpow_right₀ (by norm_num) h3

/-- A value of magnitude at least `2 ^ (-126)` is at least the power of two of its exponent. -/
theorem zpow_exponent_le (q : ℚ) (h : (2 : ℚ) ^ (-126 : ℤ) ≤ |q|) :
    (2 : ℚ) ^ exponent q ≤ |q| := by
  have hpos : 0 < |q| := lt_of_lt_of_le (by positivity) h
  have hq : q ≠ 0 := abs_pos.mp hpos
  have hlog : -126 ≤ Int.log 2 |q| :=
    (Int.zpow_le_iff_le_log (b := 2) (by norm_num) hpos).mp (by exact_mod_cast h)
  have h2 : exponent q = Int.log 2 |q| := by
    unfold exponent
    rw [if_neg hq, max_eq_left hlog]
  rw [h2]
  have := Int.zpow_log_le_self (b := 2) (by norm_num) hpos
  exact_mod_cast this

/-- The exponent of a value below a power of two. -/
theorem exponent_le_of_lt (q : ℚ) (j : ℤ) (hj : -126 ≤ j) (h : |q| < (2 : ℚ) ^ (j + 1)) :
    exponent q ≤ j := by
  by_cases hq : q = 0
  · unfold exponent
    rw [if_pos hq]
    exact hj
  · have hpos : 0 < |q| := abs_pos.mpr hq
    have hlog := (Int.lt_zpow_iff_log_lt (b := 2) (by norm_num) hpos (x := j + 1)).mp
      (by exact_mod_cast h)
    unfold exponent
    rw [if_neg hq]
    apply max_le
    · omega
    · exact hj

/-- The exponent of a value above a power of two. -/
theorem le_exponent_of_le (q : ℚ) (j : ℤ) (h : (2 : ℚ) ^ j ≤ |q|) : j ≤ exponent q := by
  have hpos : 0 < |q| := lt_of_lt_of_le (by positivity) h
  have hq : q ≠ 0 := abs_pos.mp hpos
  have hlog := (Int.zpow_le_iff_le_log (b := 2) (by norm_num) hpos).mp
    (by exact_mod_cast h : ((2 : ℕ) : ℚ) ^ j ≤ |q|)
  unfold exponent
  rw [if_neg hq]
  exact le_trans hlog (le_max_left _ _)

/-- A multiple of its own spacing is left unchanged by rounding. -/
theorem roundValue_eq_self (q : ℚ) (k : ℤ) (h : q = (k : ℚ) * ulp q) : roundValue q = q := by
  have hu := ulp_pos q
  have hd : q / ulp q = (k : ℚ) := by
    rw [div_eq_iff (ne_of_gt hu)]
    exact h
  unfold roundValue
  rw [hd, roundHalfEven_intCast]
  exact h.symm

/-- Rounding moves a value by at most half the spacing. -/
theorem abs_roundValue_sub_le (q : ℚ) : |roundValue q - q| ≤ ulp q / 2 := by
  have hu := ulp_pos q
  have h := abs_roundHalfEven_sub_le (q / ulp q)
  have e : roundValue q - q = ((roundHalfEven (q / ulp q) : ℚ) - q / ulp q) * ulp q := by
    unfold roundValue
    field_simp
  rw [e, abs_mul, abs_of_pos hu]
  calc |(roundHalfEven (q / ulp q) : ℚ) - q / ulp q| * ulp q ≤ 1 / 2 * ulp q :=
        mul_le_mul_of_nonneg_right h (le_of_lt hu)
    _ = ulp q / 2 := by ring

/-- Rounding does not go above a multiple of the spacing that is above the value. -/
theorem roundValue_le_of_le (q : ℚ) (n : ℤ) (h : q ≤ (n : ℚ) * ulp q) :
    roundValue q ≤ (n : ℚ) * ulp q := by
  have hu := ulp_pos q
  have hd : q / ulp q ≤ (n : ℚ) := by
    rw [div_le_iff₀ hu]
    exact h
  have hr := roundHalfEven_le n (q / ulp q) hd
  unfold roundValue
  apply mul_le_mul_of_nonneg_right _ (le_of_lt hu)
  exact_mod_cast hr

/-- Rounding does not go below a multiple of the spacing that is below the value. -/
theorem le_roundValue_of_le (q : ℚ) (n : ℤ) (h : (n : ℚ) * ulp q ≤ q) :
    (n : ℚ) * ulp q ≤ roundValue q := by
  have hu := ulp_pos q
  have hd : (n : ℚ) ≤ q / ulp q := by
    rw [le_div_iff₀ hu]
    exact h
  have hr := le_roundHalfEven n (q / ulp q) hd
  unfold roundValue
  apply mul_le_mul_of_nonneg_right _ (le_of_lt hu)
  exact_mod_cast hr

/-- A non-negative value rounds to a non-negative value. -/
theorem roundValue_nonneg (q : ℚ) (h : 0 ≤ q) : 0 ≤ roundValue q := by
  have := le_roundValue_of_le q 0 (by simpa using h)
  simpa using this

/-- A product of powers of two. -/
theorem pow_mul_zpow (d : ℕ) (e : ℤ) :
    (((2 : ℤ) ^ d : ℤ) : ℚ) * (2 : ℚ) ^ (e - 23) = (2 : ℚ) ^ ((d : ℤ) + e - 23) := by
  rw [Int.cast_pow, Int.cast_ofNat, ← zpow_natCast, ← zpow_add₀ (by norm_num : (2 : ℚ) ≠ 0)]
  congr 1
  ring

/-- Rounding does not go below a power of two that is below the value. -/
theorem zpow_le_roundValue (q : ℚ) (j : ℤ) (hj : -126 ≤ j) (h : (2 : ℚ) ^ j ≤ q) :
    (2 : ℚ) ^ j ≤ roundValue q := by
  have hq0 : 0 < q := lt_of_lt_of_le (by positivity) h
  have habs : |q| = q := abs_of_pos hq0
  have hje : j ≤ exponent q := le_exponent_of_le q j (by rw [habs]; exact h)
  have h126 : (2 : ℚ) ^ (-126 : ℤ) ≤ |q| := by
    rw [habs]
    exact le_trans (zpow_le_zpow_right₀ (by norm_num) hj) h
  have he : (2 : ℚ) ^ exponent q ≤ q := by
    have := zpow_exponent_le q h126
    rwa [habs] at this
  have hgrid : (((2 : ℤ) ^ 23 : ℤ) : ℚ) * ulp q = (2 : ℚ) ^ exponent q := by
    unfold ulp
    rw [pow_mul_zpow]
    congr 1
    push_cast
    ring
  have := le_roundValue_of_le q ((2 : ℤ) ^ 23) (by rw [hgrid]; exact he)
  rw [hgrid] at this
  exact le_trans (zpow_le_zpow_right₀ (by norm_num) hje) this

/-- Rounding does not go above a power of two that is above the value. -/
theorem roundValue_le_zpow (q : ℚ) (j : ℤ) (hj : -126 ≤ j) (h0 : 0 ≤ q)
    (h : q ≤ (2 : ℚ) ^ j) : roundValue q ≤ (2 : ℚ) ^ j := by
  have habs : |q| = q := abs_of_nonneg h0
  have hlt : |q| < (2 : ℚ) ^ (j + 1) := by
    rw [habs]
    exact lt_of_le_of_lt h (zpow_lt_zpow_right₀ (by norm_num) (by omega))
  have hej : exponent q ≤ j := exponent_le_of_lt q j hj hlt
  obtain ⟨d, hd⟩ : ∃ d : ℕ, (d : ℤ) = j - exponent q + 23 := ⟨Int.toNat (j - exponent q + 23),
    Int.toNat_of_nonneg (by omega)⟩
  have hgrid : (((2 : ℤ) ^ d : ℤ) : ℚ) * ulp q = (2 : ℚ) ^ j := by
    unfold ulp
    rw [pow_mul_zpow, hd]
    congr 1
    ring
  have := roundValue_le_of_le q ((2 : ℤ) ^ d) (by rw [hgrid]; exact h)
  rwa [hgrid] at this

/-- Rounding gives a finite value when the rounded value is below `2 ^ 128`. -/
theorem ofRat_of_lt (q : ℚ) (h : |roundValue q| < 2 ^ 128) :
    ofRat q = .finite (roundValue q) := by
  unfold ofRat
  rw [if_neg (not_le.mpr h)]

/-- Rounding a non-negative value of at most `2 ^ 127` gives a finite value. -/
theorem ofRat_of_nonneg_le (q : ℚ) (h0 : 0 ≤ q) (h : q ≤ (2 : ℚ) ^ (127 : ℤ)) :
    ofRat q = .finite (roundValue q) := by
  apply ofRat_of_lt
  have h1 := roundValue_nonneg q h0
  have h2 := roundValue_le_zpow q 127 (by norm_num) h0 h
  rw [abs_of_nonneg h1]
  calc roundValue q ≤ (2 : ℚ) ^ (127 : ℤ) := h2
    _ < 2 ^ 128 := by norm_num

/-- A value whose exponent is above `-126` is at least the power of two of its exponent. -/
theorem zpow_exponent_le_of_lt (q : ℚ) (h : -126 < exponent q) :
    (2 : ℚ) ^ exponent q ≤ |q| := by
  by_cases hq : q = 0
  · unfold exponent at h
    rw [if_pos hq] at h
    omega
  · have hpos : 0 < |q| := abs_pos.mpr hq
    have he : exponent q = max (Int.log 2 |q|) (-126) := by
      unfold exponent
      rw [if_neg hq]
    have hlog : exponent q = Int.log 2 |q| := by
      rw [he] at h ⊢
      rcases le_total (Int.log 2 |q|) (-126) with h1 | h1
      · rw [max_eq_right h1] at h
        omega
      · exact max_eq_left h1
    rw [hlog]
    have := Int.zpow_log_le_self (b := 2) (by norm_num) hpos
    exact_mod_cast this

/-- The exponent grows with the magnitude. -/
theorem exponent_mono (a b : ℚ) (h : |a| ≤ |b|) : exponent a ≤ exponent b := by
  by_cases ha : a = 0
  · have : exponent a = -126 := by
      unfold exponent
      rw [if_pos ha]
    rw [this]
    exact exponent_ge b
  · have hpa : 0 < |a| := abs_pos.mpr ha
    have hb : b ≠ 0 := abs_pos.mp (lt_of_lt_of_le hpa h)
    unfold exponent
    rw [if_neg ha, if_neg hb]
    exact max_le_max (Int.log_mono_right hpa h) (le_refl _)

/-- The integers up to `2 ^ 24` are binary32 values. -/
theorem roundValue_natCast (n : ℕ) (h : n ≤ 2 ^ 24) : roundValue (n : ℚ) = (n : ℚ) := by
  by_cases hn : n = 0
  · subst hn
    exact roundValue_eq_self _ 0 (by simp)
  · have hpos : (1 : ℚ) ≤ (n : ℚ) := by exact_mod_cast Nat.one_le_iff_ne_zero.mpr hn
    have habs : |(n : ℚ)| = (n : ℚ) := abs_of_nonneg (by positivity)
    have h24 : (n : ℚ) ≤ 2 ^ 24 := by exact_mod_cast h
    have he0 : 0 ≤ exponent (n : ℚ) :=
      le_exponent_of_le _ 0 (by rw [habs]; simpa using hpos)
    have he24 : exponent (n : ℚ) ≤ 24 :=
      exponent_le_of_lt _ 24 (by norm_num) (by
        rw [habs]
        calc (n : ℚ) ≤ 2 ^ 24 := h24
          _ < (2 : ℚ) ^ ((24 : ℤ) + 1) := by norm_num)
    by_cases he : exponent (n : ℚ) ≤ 23
    · obtain ⟨d, hd⟩ : ∃ d : ℕ, (d : ℤ) = 23 - exponent (n : ℚ) :=
        ⟨Int.toNat (23 - exponent (n : ℚ)), Int.toNat_of_nonneg (by omega)⟩
      apply roundValue_eq_self _ ((n : ℤ) * (2 : ℤ) ^ d)
      have hg := pow_mul_zpow d (exponent (n : ℚ))
      have e0 : (d : ℤ) + exponent (n : ℚ) - 23 = 0 := by omega
      rw [e0, zpow_zero] at hg
      unfold ulp
      rw [Int.cast_mul, mul_assoc, hg]
      simp
    · have he2 : exponent (n : ℚ) = 24 := by omega
      have hlow := zpow_exponent_le_of_lt (n : ℚ) (by omega)
      rw [habs, he2] at hlow
      have hlow2 : (2 : ℚ) ^ 24 ≤ (n : ℚ) := by
        have e24 : (2 : ℚ) ^ (24 : ℤ) = (2 : ℚ) ^ 24 := by norm_num
        rw [← e24]
        exact hlow
      have hn24 : (n : ℚ) = 2 ^ 24 := le_antisymm h24 hlow2
      apply roundValue_eq_self _ ((2 : ℤ) ^ 23)
      unfold ulp
      rw [pow_mul_zpow, he2, hn24]
      norm_num

/-- The conversion to `float` of an integer up to `2 ^ 24` is exact. -/
theorem ofNat_of_le (n : ℕ) (h : n ≤ 2 ^ 24) : ofNat n = .finite (n : ℚ) := by
  unfold ofNat
  rw [ofRat_of_lt]
  · rw [roundValue_natCast n h]
  · rw [roundValue_natCast n h, abs_of_nonneg (by positivity)]
    calc (n : ℚ) ≤ 2 ^ 24 := by exact_mod_cast h
      _ < 2 ^ 128 := by norm_num

/-- The conversion to `float` of a 32-bit unsigned integer is finite. -/
theorem ofNat_of_lt (n : ℕ) (h : n < 2 ^ 32) : ofNat n = .finite (roundValue (n : ℚ)) := by
  unfold ofNat
  apply ofRat_of_nonneg_le _ (by positivity)
  calc (n : ℚ) ≤ 2 ^ 32 := by exact_mod_cast le_of_lt h
    _ ≤ (2 : ℚ) ^ (127 : ℤ) := by norm_num

/-- Evaluation of the rounded value of a positive rational with known exponent. -/
theorem roundValue_eq (q : ℚ) (e m : ℤ) (he : -126 ≤ e) (h1 : (2 : ℚ) ^ e ≤ q)
    (h2 : q < (2 : ℚ) ^ (e + 1)) (hm : roundHalfEven (q / (2 : ℚ) ^ (e - 23)) = m) :
    roundValue q = (m : ℚ) * (2 : ℚ) ^ (e - 23) := by
  have hq0 : 0 < q := lt_of_lt_of_le (by positivity) h1
  have habs : |q| = q := abs_of_pos hq0
  have hexp : exponent q = e := exponent_eq q e he (by rw [habs]; exact h1)
    (by rw [habs]; exact h2)
  unfold roundValue ulp
  rw [hexp, hm]

/-- Evaluation of the rounding at a positive value with known exponent. -/
theorem ofRat_eq (q : ℚ) (e m : ℤ) (he : -126 ≤ e) (h1 : (2 : ℚ) ^ e ≤ q)
    (h2 : q < (2 : ℚ) ^ (e + 1)) (hm : roundHalfEven (q / (2 : ℚ) ^ (e - 23)) = m)
    (hv : (m : ℚ) * (2 : ℚ) ^ (e - 23) < 2 ^ 128) :
    ofRat q = .finite ((m : ℚ) * (2 : ℚ) ^ (e - 23)) := by
  have hq0 : 0 < q := lt_of_lt_of_le (by positivity) h1
  have habs : |q| = q := abs_of_pos hq0
  have hexp : exponent q = e := exponent_eq q e he (by rw [habs]; exact h1)
    (by rw [habs]; exact h2)
  have hrv : roundValue q = (m : ℚ) * (2 : ℚ) ^ (e - 23) := by
    unfold roundValue ulp
    rw [hexp, hm]
  have hnn := roundValue_nonneg q (le_of_lt hq0)
  rw [ofRat_of_lt q (by rw [abs_of_nonneg hnn, hrv]; exact hv), hrv]

/-- Rounding leaves a representable value unchanged. -/
theorem roundValue_of_representable {q : ℚ} (h : Representable q) : roundValue q = q := by
  unfold Representable ofRat at h
  split_ifs at h
  exact Binary32.finite.inj h

/-- A value below `2 ^ 128` that rounding leaves unchanged is representable. -/
theorem representable_of_roundValue_eq (q : ℚ) (h : roundValue q = q) (hq : |q| < 2 ^ 128) :
    Representable q := by
  unfold Representable
  rw [ofRat_of_lt q (by rw [h]; exact hq), h]

/-- Rounding does not go below a positive binary32 value that is below the value. -/
theorem le_roundValue_of_representable (q k : ℚ) (hk : Representable k) (h0 : 0 < k)
    (h : k ≤ q) : k ≤ roundValue q := by
  have hq0 : 0 < q := lt_of_lt_of_le h0 h
  have hmono : exponent k ≤ exponent q :=
    exponent_mono k q (by rw [abs_of_pos h0, abs_of_pos hq0]; exact h)
  have hkv := roundValue_of_representable hk
  rcases eq_or_lt_of_le hmono with heq | hlt
  · have hu : ulp q = ulp k := by
      unfold ulp
      rw [heq]
    have hgrid : k = (roundHalfEven (k / ulp k) : ℚ) * ulp q := by
      rw [hu]
      exact hkv.symm
    have := le_roundValue_of_le q (roundHalfEven (k / ulp k)) (by rw [← hgrid]; exact h)
    rwa [← hgrid] at this
  · have hlow := zpow_exponent_le_of_lt q (by have := exponent_ge k; omega)
    rw [abs_of_pos hq0] at hlow
    have h1 := zpow_le_roundValue q (exponent q) (exponent_ge q) hlow
    have h2 := abs_lt_zpow_exponent_succ k
    rw [abs_of_pos h0] at h2
    have h3 : (2 : ℚ) ^ (exponent k + 1) ≤ (2 : ℚ) ^ exponent q :=
      zpow_le_zpow_right₀ (by norm_num) (by omega)
    linarith

/-- Rounding does not go above a binary32 value that is above the value. -/
theorem roundValue_le_of_representable (q k : ℚ) (hk : Representable k) (h0 : 0 ≤ q)
    (h : q ≤ k) : roundValue q ≤ k := by
  have hk0 : 0 ≤ k := le_trans h0 h
  have hmono : exponent q ≤ exponent k :=
    exponent_mono q k (by rw [abs_of_nonneg h0, abs_of_nonneg hk0]; exact h)
  have hkv := roundValue_of_representable hk
  obtain ⟨d, hd⟩ : ∃ d : ℕ, (d : ℤ) = exponent k - exponent q :=
    ⟨Int.toNat (exponent k - exponent q), Int.toNat_of_nonneg (by omega)⟩
  have hu : ulp k = (((2 : ℤ) ^ d : ℤ) : ℚ) * ulp q := by
    unfold ulp
    rw [pow_mul_zpow, hd]
    congr 1
    ring
  have hgrid : k = ((roundHalfEven (k / ulp k) * (2 : ℤ) ^ d : ℤ) : ℚ) * ulp q := by
    rw [Int.cast_mul, mul_assoc, ← hu]
    exact hkv.symm
  have := roundValue_le_of_le q (roundHalfEven (k / ulp k) * (2 : ℤ) ^ d)
    (by rw [← hgrid]; exact h)
  rwa [← hgrid] at this

/-- The rounding of a non-negative value is a binary32 value. -/
theorem representable_roundValue (q : ℚ) (h0 : 0 ≤ q) (hfin : roundValue q < 2 ^ 128) :
    Representable (roundValue q) := by
  have hv0 := roundValue_nonneg q h0
  apply representable_of_roundValue_eq _ _ (by rw [abs_of_nonneg hv0]; exact hfin)
  have hq1 := abs_lt_zpow_exponent_succ q
  rw [abs_of_nonneg h0] at hq1
  have hvle : roundValue q ≤ (2 : ℚ) ^ (exponent q + 1) :=
    roundValue_le_zpow q (exponent q + 1) (by have := exponent_ge q; omega) h0 (le_of_lt hq1)
  have hev : exponent (roundValue q) ≤ exponent q + 1 :=
    exponent_le_of_lt _ _ (by have := exponent_ge q; omega) (by
      rw [abs_of_nonneg hv0]
      exact lt_of_le_of_lt hvle (zpow_lt_zpow_right₀ (by norm_num) (by omega)))
  by_cases hcase : exponent (roundValue q) ≤ exponent q
  · obtain ⟨d, hd⟩ : ∃ d : ℕ, (d : ℤ) = exponent q - exponent (roundValue q) :=
      ⟨Int.toNat (exponent q - exponent (roundValue q)), Int.toNat_of_nonneg (by omega)⟩
    have hu : ulp q = (((2 : ℤ) ^ d : ℤ) : ℚ) * ulp (roundValue q) := by
      unfold ulp
      rw [pow_mul_zpow, hd]
      congr 1
      ring
    apply roundValue_eq_self _ (roundHalfEven (q / ulp q) * (2 : ℤ) ^ d)
    rw [Int.cast_mul, mul_assoc, ← hu]
    rfl
  · have he : exponent (roundValue q) = exponent q + 1 := by omega
    have hlow := zpow_exponent_le_of_lt (roundValue q) (by have := exponent_ge q; omega)
    rw [abs_of_nonneg hv0, he] at hlow
    have hveq : roundValue q = (2 : ℚ) ^ (exponent q + 1) := le_antisymm hvle hlow
    apply roundValue_eq_self _ ((2 : ℤ) ^ 23)
    unfold ulp
    rw [pow_mul_zpow, he]
    rw [hveq]
    congr 1
    push_cast
    ring

/-- Between two representable values `0 ≤ a < b` there is a relative gap of `2 ^ (-24)`. -/
theorem le_of_representable_lt (a b : ℚ) (ha : Representable a) (hb : Representable b)
    (h0 : 0 ≤ a) (h : a < b) : a ≤ (1 - 1 / 2 ^ 24) * b := by
  have hb0 : 0 < b := lt_of_le_of_lt h0 h
  rcases eq_or_lt_of_le h0 with hz | hpos
  · rw [← hz]
    have : (0 : ℚ) ≤ (1 - 1 / 2 ^ 24) := by norm_num
    exact mul_nonneg this (le_of_lt hb0)
  have hmono : exponent a ≤ exponent b :=
    exponent_mono a b (by rw [abs_of_pos hpos, abs_of_pos hb0]; exact le_of_lt h)
  have hua := ulp_pos a
  have hav := roundValue_of_representable ha
  have hbv := roundValue_of_representable hb
  have ha1 := abs_lt_zpow_exponent_succ a
  rw [abs_of_pos hpos] at ha1
  have hb1 := abs_lt_zpow_exponent_succ b
  rw [abs_of_pos hb0] at hb1
  have hcast : (((2 : ℤ) ^ 24 : ℤ) : ℚ) = (2 : ℚ) ^ 24 := by
    rw [Int.cast_pow, Int.cast_ofNat]
  have htop : ∀ x : ℚ, (2 : ℚ) ^ (exponent x + 1) = (2 : ℚ) ^ 24 * ulp x := by
    intro x
    unfold ulp
    rw [← hcast, pow_mul_zpow]
    congr 1
    push_cast
    ring
  rcases eq_or_lt_of_le hmono with heq | hlt
  · have hu : ulp a = ulp b := by
      unfold ulp
      rw [heq]
    have hma : a = (roundHalfEven (a / ulp a) : ℚ) * ulp b := by
      rw [← hu]
      exact hav.symm
    have hmb : b = (roundHalfEven (b / ulp b) : ℚ) * ulp b := hbv.symm
    have hub := ulp_pos b
    have hlt2 : (roundHalfEven (a / ulp a) : ℚ) < (roundHalfEven (b / ulp b) : ℚ) := by
      by_contra hcon
      have := mul_le_mul_of_nonneg_right (not_lt.mp hcon) (le_of_lt hub)
      rw [← hma, ← hmb] at this
      linarith
    have hlt3 : roundHalfEven (a / ulp a) + 1 ≤ roundHalfEven (b / ulp b) := by
      have : roundHalfEven (a / ulp a) < roundHalfEven (b / ulp b) := by exact_mod_cast hlt2
      omega
    have hstep : a + ulp b ≤ b := by
      have h3 : ((roundHalfEven (a / ulp a) + 1 : ℤ) : ℚ) ≤ (roundHalfEven (b / ulp b) : ℚ) := by
        exact_mod_cast hlt3
      have := mul_le_mul_of_nonneg_right h3 (le_of_lt hub)
      rw [← hmb, Int.cast_add, Int.cast_one, add_mul, one_mul, ← hma] at this
      exact this
    have hbu : b < 2 ^ 24 * ulp b := by
      rw [← htop b]
      exact hb1
    linarith
  · have hma : a = (roundHalfEven (a / ulp a) : ℚ) * ulp a := hav.symm
    have hlt2 : (roundHalfEven (a / ulp a) : ℚ) < (((2 : ℤ) ^ 24 : ℤ) : ℚ) := by
      by_contra hcon
      have := mul_le_mul_of_nonneg_right (not_lt.mp hcon) (le_of_lt hua)
      rw [← hma, hcast, ← htop a] at this
      linarith
    have hlt3 : roundHalfEven (a / ulp a) + 1 ≤ (2 : ℤ) ^ 24 := by
      have : roundHalfEven (a / ulp a) < (2 : ℤ) ^ 24 := by exact_mod_cast hlt2
      omega
    have hstep : a + ulp a ≤ (2 : ℚ) ^ (exponent a + 1) := by
      have h3 : ((roundHalfEven (a / ulp a) + 1 : ℤ) : ℚ) ≤ (((2 : ℤ) ^ 24 : ℤ) : ℚ) := by
        exact_mod_cast hlt3
      have := mul_le_mul_of_nonneg_right h3 (le_of_lt hua)
      rw [hcast, ← htop a, Int.cast_add, Int.cast_one, add_mul, one_mul, ← hma] at this
      exact this
    have hblow := zpow_exponent_le_of_lt b (by have := exponent_ge a; omega)
    rw [abs_of_pos hb0] at hblow
    have hpow : (2 : ℚ) ^ (exponent a + 1) ≤ (2 : ℚ) ^ exponent b :=
      zpow_le_zpow_right₀ (by norm_num) (by omega)
    have hua2 : (2 : ℚ) ^ (exponent a + 1) = 2 ^ 24 * ulp a := htop a
    have hP : (2 : ℚ) ^ (exponent a + 1) ≤ b := le_trans hpow hblow
    have : a ≤ (1 - 1 / 2 ^ 24) * (2 : ℚ) ^ (exponent a + 1) := by
      rw [hua2] at hstep ⊢
      linarith
    calc a ≤ (1 - 1 / 2 ^ 24) * (2 : ℚ) ^ (exponent a + 1) := this
      _ ≤ (1 - 1 / 2 ^ 24) * b := mul_le_mul_of_nonneg_left hP (by norm_num)

/-- The integers up to `2 ^ 24` are representable. -/
theorem representable_natCast (n : ℕ) (h : n ≤ 2 ^ 24) : Representable (n : ℚ) :=
  ofNat_of_le n h

end Binary32

/-- The conversion to `uint32_t` of the ceiling of a non-negative value below `2 ^ 32` is
the natural-number ceiling of that value. -/
theorem toUInt32_ceil_eq (x : ℚ) (h0 : 0 ≤ x) (hx : ⌈x⌉₊ < 2 ^ 32) :
    Binary32.toUInt32 (Binary32.ceil (.finite x)) = ⌈x⌉₊ := by
  have hc : (0 : ℚ) ≤ ((⌈x⌉ : ℤ) : ℚ) := by
    exact_mod_cast Int.ceil_nonneg h0
  unfold Binary32.toUInt32 Binary32.ceil toUInt32
  simp only
  rw [if_pos hc, Int.floor_intCast, Int.ceil_toNat]
  exact Nat.mod_eq_of_lt hx

/-- The ceiling of `r / 6` is at most `r`. -/
theorem ceil_div_six_le (r : ℕ) : ⌈(r : ℚ) / 6⌉₊ ≤ r := by
  apply Nat.ceil_le.mpr
  have h : (0 : ℚ) ≤ (r : ℚ) := Nat.cast_nonneg r
  linarith

/-- The ceiling of `r / 6` is the integer quotient `(r + 5) / 6`. -/
theorem ceil_div_six_eq (r : ℕ) : ⌈(r : ℚ) / 6⌉₊ = (r + 5) / 6 := by
  apply le_antisymm
  · apply Nat.ceil_le.mpr
    rw [div_le_iff₀ (by norm_num : (0 : ℚ) < 6)]
    have h : r ≤ (r + 5) / 6 * 6 := by omega
    exact_mod_cast h
  · have h1 : ((⌈(r : ℚ) / 6⌉₊ : ℕ) : ℚ) * 6 ≥ r := by
      have := Nat.le_ceil ((r : ℚ) / 6)
      linarith
    have h2 : r ≤ ⌈(r : ℚ) / 6⌉₊ * 6 := by exact_mod_cast h1
    omega

/-- The rounding of a 32-bit unsigned integer lies between 0 and `2 ^ 32`. -/
theorem roundValue_uint32_bounds (r : ℕ) (hr : r < 2 ^ 32) :
    0 ≤ Binary32.roundValue (r : ℚ) ∧ Binary32.roundValue (r : ℚ) ≤ 2 ^ 32 := by
  constructor
  · exact Binary32.roundValue_nonneg _ (by positivity)
  · have h := Binary32.roundValue_le_zpow (r : ℚ) 32 (by norm_num) (by positivity)
      (by
        have : (r : ℚ) ≤ 2 ^ 32 := by exact_mod_cast le_of_lt hr
        calc (r : ℚ) ≤ 2 ^ 32 := this
          _ = (2 : ℚ) ^ (32 : ℤ) := by norm_num)
    calc Binary32.roundValue (r : ℚ) ≤ (2 : ℚ) ^ (32 : ℤ) := h
      _ = 2 ^ 32 := by norm_num

/-- The quotient `r / 6.0f` of a 32-bit unsigned radius, computed in `float`, is the finite
value obtained by rounding `r`, dividing by 6 and rounding again. -/
theorem radius_div_six (r : ℕ) (hr : r < 2 ^ 32) :
    Binary32.div (Binary32.ofNat r) (.finite 6)
      = .finite (Binary32.roundValue (Binary32.roundValue (r : ℚ) / 6)) := by
  obtain ⟨h0, h32⟩ := roundValue_uint32_bounds r hr
  rw [Binary32.ofNat_of_lt r hr]
  unfold Binary32.div
  simp only
  rw [if_neg (by norm_num : ¬ (6 : ℚ) = 0)]
  apply Binary32.ofRat_of_nonneg_le _ (by positivity)
  calc Binary32.roundValue (r : ℚ) / 6 ≤ 2 ^ 32 / 6 := by linarith
    _ ≤ (2 : ℚ) ^ (127 : ℤ) := by norm_num

/-- The binary32 quotient of a 32-bit unsigned radius by 6 lies between 0 and `2 ^ 30`. -/
theorem quotient_six_bounds (r : ℕ) (hr : r < 2 ^ 32) :
    0 ≤ Binary32.roundValue (Binary32.roundValue (r : ℚ) / 6) ∧
    Binary32.roundValue (Binary32.roundValue (r : ℚ) / 6) ≤ 2 ^ 30 := by
  obtain ⟨h0, h32⟩ := roundValue_uint32_bounds r hr
  constructor
  · exact Binary32.roundValue_nonneg _ (by positivity)
  · have h := Binary32.roundValue_le_zpow (Binary32.roundValue (r : ℚ) / 6) 30 (by norm_num)
      (by positivity)
      (by
        calc Binary32.roundValue (r : ℚ) / 6 ≤ 2 ^ 32 / 6 := by linarith
          _ ≤ (2 : ℚ) ^ (30 : ℤ) := by norm_num)
    calc Binary32.roundValue (Binary32.roundValue (r : ℚ) / 6) ≤ (2 : ℚ) ^ (30 : ℤ) := h
      _ = 2 ^ 30 := by norm_num

/-- The pass count of `gl::BlurFilter::prepare`: the ceiling of the binary32 quotient of
the radius by 6, capped by `kMaxPasses`. -/
theorem gl.preparePasses_eq (kMaxPasses r : ℕ) (hr : r < 2 ^ 32) :
    gl.preparePasses kMaxPasses r
      = min kMaxPasses ⌈Binary32.roundValue (Binary32.roundValue (r : ℚ) / 6)⌉₊ := by
  obtain ⟨h0, h30⟩ := quotient_six_bounds r hr
  unfold gl.preparePasses gl.prepareRadius
  rw [radius_div_six r hr, toUInt32_ceil_eq _ h0]
  have : ⌈Binary32.roundValue (Binary32.roundValue (r : ℚ) / 6)⌉₊ ≤ 2 ^ 30 := by
    apply Nat.ceil_le.mpr
    exact_mod_cast h30
  omega

/-- The pass count of `skia::KawaseBlurFilter::generate` is the conversion to `float` of
the pass count of `gl::BlurFilter::prepare`. -/
theorem skia.numberOfPasses_eq (kMaxPasses r : ℕ) :
    skia.numberOfPasses kMaxPasses r = Binary32.ofNat (gl.preparePasses kMaxPasses r) := rfl

/-- The binary32 quotient of a radius `r ≥ 1` by 6 is positive. -/
theorem quotient_six_pos (r : ℕ) (hr1 : 1 ≤ r) :
    0 < Binary32.roundValue (Binary32.roundValue (r : ℚ) / 6) := by
  have h1 : (1 : ℚ) ≤ Binary32.roundValue (r : ℚ) := by
    have := Binary32.zpow_le_roundValue (r : ℚ) 0 (by norm_num)
      (by simpa using (by exact_mod_cast hr1 : (1 : ℚ) ≤ (r : ℚ)))
    simpa using this
  have h2 := Binary32.zpow_le_roundValue (Binary32.roundValue (r : ℚ) / 6) (-3) (by norm_num)
    (by
      calc (2 : ℚ) ^ (-3 : ℤ) ≤ 1 / 6 := by norm_num
        _ ≤ Binary32.roundValue (r : ℚ) / 6 := by linarith)
  exact lt_of_lt_of_le (by positivity) h2

/-- For a radius up to `2 ^ 24` the rounding does not change the ceiling of the quotient
by 6. -/
theorem ceil_quotient_six_of_le (r : ℕ) (hr : r ≤ 2 ^ 24) :
    ⌈Binary32.roundValue (Binary32.roundValue (r : ℚ) / 6)⌉₊ = ⌈(r : ℚ) / 6⌉₊ := by
  rw [Binary32.roundValue_natCast r hr, ceil_div_six_eq]
  have hrq : (r : ℚ) ≤ 2 ^ 24 := by exact_mod_cast hr
  by_cases hdiv : r % 6 = 0
  · obtain ⟨n, hn⟩ : ∃ n, r = 6 * n := ⟨r / 6, by omega⟩
    have hq : (r : ℚ) / 6 = ((n : ℕ) : ℚ) := by
      rw [hn]
      push_cast
      ring
    rw [hq, Binary32.roundValue_natCast n (by omega), Nat.ceil_natCast]
    omega
  · have herr := Binary32.abs_roundValue_sub_le ((r : ℚ) / 6)
    have hexp : Binary32.exponent ((r : ℚ) / 6) ≤ 21 :=
      Binary32.exponent_le_of_lt _ 21 (by norm_num) (by
        rw [abs_of_nonneg (by positivity)]
        calc (r : ℚ) / 6 ≤ 2 ^ 24 / 6 := by linarith
          _ < (2 : ℚ) ^ ((21 : ℤ) + 1) := by norm_num)
    have hulp : Binary32.ulp ((r : ℚ) / 6) ≤ 1 / 4 := by
      unfold Binary32.ulp
      calc (2 : ℚ) ^ (Binary32.exponent ((r : ℚ) / 6) - 23) ≤ (2 : ℚ) ^ (-2 : ℤ) :=
            zpow_le_zpow_right₀ (by norm_num) (by omega)
        _ = 1 / 4 := by norm_num
    rw [abs_le] at herr
    have hN : 1 ≤ (r + 5) / 6 := by omega
    have hlow : (((r + 5) / 6 - 1 : ℕ) : ℚ) + 1 / 6 ≤ (r : ℚ) / 6 := by
      have h1 : 6 * ((r + 5) / 6 - 1) + 1 ≤ r := by omega
      have h2 : (6 : ℚ) * (((r + 5) / 6 - 1 : ℕ) : ℚ) + 1 ≤ (r : ℚ) := by exact_mod_cast h1
      linarith
    have hhigh : (r : ℚ) / 6 ≤ (((r + 5) / 6 : ℕ) : ℚ) - 1 / 6 := by
      have h1 : r + 1 ≤ 6 * ((r + 5) / 6) := by omega
      have h2 : (r : ℚ) + 1 ≤ 6 * (((r + 5) / 6 : ℕ) : ℚ) := by exact_mod_cast h1
      linarith
    rw [Nat.ceil_eq_iff (by omega)]
    constructor
    · linarith
    · linarith

/-- For a radius of at least `2 ^ 24` the ceiling of the binary32 quotient by 6 is at least
2796203, as is the ceiling of the exact quotient. -/
theorem ceil_quotient_six_of_ge (r : ℕ) (hr : 2 ^ 24 ≤ r) :
    2796203 ≤ ⌈Binary32.roundValue (Binary32.roundValue (r : ℚ) / 6)⌉₊ ∧
    2796203 ≤ ⌈(r : ℚ) / 6⌉₊ := by
  have hrq : (2 : ℚ) ^ 24 ≤ (r : ℚ) := by exact_mod_cast hr
  constructor
  · have h1 : (2 : ℚ) ^ 24 ≤ Binary32.roundValue (r : ℚ) := by
      have := Binary32.zpow_le_roundValue (r : ℚ) 24 (by norm_num)
        (by
          calc (2 : ℚ) ^ (24 : ℤ) = 2 ^ 24 := by norm_num
            _ ≤ (r : ℚ) := hrq)
      calc (2 : ℚ) ^ 24 = (2 : ℚ) ^ (24 : ℤ) := by norm_num
        _ ≤ Binary32.roundValue (r : ℚ) := this
    have hrep : Binary32.Representable (5592405 / 2 : ℚ) := by
      have hexp : Binary32.exponent (5592405 / 2 : ℚ) = 21 :=
        Binary32.exponent_eq _ 21 (by norm_num)
          (by rw [abs_of_pos (by norm_num)]; norm_num)
          (by rw [abs_of_pos (by norm_num)]; norm_num)
      apply Binary32.representable_of_roundValue_eq
      · apply Binary32.roundValue_eq_self _ 11184810
        unfold Binary32.ulp
        rw [hexp]
        norm_num
      · rw [abs_of_pos (by norm_num)]
        norm_num
    have h2 := Binary32.le_roundValue_of_representable (Binary32.roundValue (r : ℚ) / 6)
      (5592405 / 2) hrep (by norm_num) (by
        have : (5592405 / 2 : ℚ) ≤ 2 ^ 24 / 6 := by norm_num
        linarith)
    have h3 : ((2796202 : ℕ) : ℚ) < Binary32.roundValue (Binary32.roundValue (r : ℚ) / 6) := by
      have : ((2796202 : ℕ) : ℚ) < (5592405 / 2 : ℚ) := by norm_num
      linarith
    have := Nat.lt_ceil.mpr h3
    omega
  · rw [ceil_div_six_eq]
    have : (2 : ℕ) ^ 24 = 16777216 := by norm_num
    omega

/-- C1 (amended): for every 32-bit radius `r` and every `kMaxPasses ≥ 1`, the pass count
computed by `gl::BlurFilter::prepare` is `min(kMaxPasses, ceil(q))` where `q` is the
quotient `r / 6.0f` computed in `float`, and `skia::KawaseBlurFilter::generate` stores the
conversion to `float` of the same count. The count is `min(kMaxPasses, ceil(r / 6))`
whenever `r ≤ 2 ^ 24` or `kMaxPasses ≤ 2796203`. It never exceeds `kMaxPasses`, and when
`r ≥ 1` it is at least 1, so the divisor of `radiusByPasses` is a finite value of at least
1. -/
theorem C1_pass_count (kMaxPasses r : ℕ) (hr : r < 2 ^ 32) (hk : 1 ≤ kMaxPasses) :
    gl.prepareRadius r
      = .finite (Binary32.roundValue (Binary32.roundValue (r : ℚ) / 6)) ∧
    skia.tmpRadius r = gl.prepareRadius r ∧
    gl.preparePasses kMaxPasses r
      = min kMaxPasses ⌈Binary32.roundValue (Binary32.roundValue (r : ℚ) / 6)⌉₊ ∧
    skia.numberOfPasses kMaxPasses r = Binary32.ofNat (gl.preparePasses kMaxPasses r) ∧
    (r ≤ 2 ^ 24 ∨ kMaxPasses ≤ 2796203 →
      gl.preparePasses kMaxPasses r = min kMaxPasses ⌈(r : ℚ) / 6⌉₊ ∧
      skia.numberOfPasses kMaxPasses r
        = .finite ((min kMaxPasses ⌈(r : ℚ) / 6⌉₊ : ℕ) : ℚ)) ∧
    ⌈(r : ℚ) / 6⌉₊ = (r + 5) / 6 ∧
    gl.preparePasses kMaxPasses r ≤ kMaxPasses ∧
    (1 ≤ r →
      1 ≤ gl.preparePasses kMaxPasses r ∧
      ∃ d : ℚ, 1 ≤ d ∧
        Binary32.ofNat (gl.preparePasses kMaxPasses r) = .finite d ∧
        skia.numberOfPasses kMaxPasses r = .finite d) := by
  have hg := gl.preparePasses_eq kMaxPasses r hr
  obtain ⟨hq0, hq30⟩ := quotient_six_bounds r hr
  have hc30 : ⌈Binary32.roundValue (Binary32.roundValue (r : ℚ) / 6)⌉₊ ≤ 2 ^ 30 := by
    apply Nat.ceil_le.mpr
    exact_mod_cast hq30
  refine ⟨radius_div_six r hr, rfl, hg, rfl, ?_, ceil_div_six_eq r, ?_, ?_⟩
  · intro hcase
    have heq : gl.preparePasses kMaxPasses r = min kMaxPasses ⌈(r : ℚ) / 6⌉₊ := by
      rw [hg]
      by_cases h24 : r ≤ 2 ^ 24
      · rw [ceil_quotient_six_of_le r h24]
      · have hk2 : kMaxPasses ≤ 2796203 := by
          rcases hcase with h | h
          · exact absurd h h24
          · exact h
        obtain ⟨h1, h2⟩ := ceil_quotient_six_of_ge r (by omega)
        rw [min_eq_left (le_trans hk2 h1), min_eq_left (le_trans hk2 h2)]
    refine ⟨heq, ?_⟩
    rw [skia.numberOfPasses_eq, heq]
    apply Binary32.ofNat_of_le
    rcases hcase with h | h
    · exact le_trans (min_le_right _ _) (le_trans (ceil_div_six_le r) h)
    · exact le_trans (min_le_left _ _) (le_trans h (by norm_num))
  · rw [hg]
    exact min_le_left _ _
  · intro hr1
    have hpos := quotient_six_pos r hr1
    have hc1 : 1 ≤ ⌈Binary32.roundValue (Binary32.roundValue (r : ℚ) / 6)⌉₊ :=
      Nat.one_le_iff_ne_zero.mpr (fun h0 => by
        have := Nat.ceil_eq_zero.mp h0
        linarith)
    have hp1 : 1 ≤ gl.preparePasses kMaxPasses r := by
      rw [hg]
      exact le_min hk hc1
    have hp32 : gl.preparePasses kMaxPasses r < 2 ^ 32 := by
      rw [hg]
      exact lt_of_le_of_lt (min_le_right _ _) (lt_of_le_of_lt hc30 (by norm_num))
    refine ⟨hp1, Binary32.roundValue ((gl.preparePasses kMaxPasses r : ℕ) : ℚ), ?_,
      Binary32.ofNat_of_lt _ hp32, ?_⟩
    · have := Binary32.zpow_le_roundValue ((gl.preparePasses kMaxPasses r : ℕ) : ℚ) 0
        (by norm_num) (by simpa using (by exact_mod_cast hp1 :
          (1 : ℚ) ≤ ((gl.preparePasses kMaxPasses r : ℕ) : ℚ)))
      simpa using this
    · rw [skia.numberOfPasses_eq]
      exact Binary32.ofNat_of_lt _ hp32

/-- C1 (amended) at `kMaxPasses = 4` and the radius 13. -/
theorem C1_pass_count_witness :
    gl.prepareRadius 13
      = .finite (Binary32.roundValue (Binary32.roundValue ((13 : ℕ) : ℚ) / 6)) ∧
    skia.tmpRadius 13 = gl.prepareRadius 13 ∧
    gl.preparePasses 4 13
      = min 4 ⌈Binary32.roundValue (Binary32.roundValue ((13 : ℕ) : ℚ) / 6)⌉₊ ∧
    skia.numberOfPasses 4 13 = Binary32.ofNat (gl.preparePasses 4 13) ∧
    (13 ≤ 2 ^ 24 ∨ 4 ≤ 2796203 →
      gl.preparePasses 4 13 = min 4 ⌈((13 : ℕ) : ℚ) / 6⌉₊ ∧
      skia.numberOfPasses 4 13 = .finite ((min 4 ⌈((13 : ℕ) : ℚ) / 6⌉₊ : ℕ) : ℚ)) ∧
    ⌈((13 : ℕ) : ℚ) / 6⌉₊ = (13 + 5) / 6 ∧
    gl.preparePasses 4 13 ≤ 4 ∧
    (1 ≤ 13 →
      1 ≤ gl.preparePasses 4 13 ∧
      ∃ d : ℚ, 1 ≤ d ∧
        Binary32.ofNat (gl.preparePasses 4 13) = .finite d ∧
        skia.numberOfPasses 4 13 = .finite d) :=
  C1_pass_count 4 13 (by norm_num) (by norm_num)

/-- C1 as stated fails at the radius 16777225 with `kMaxPasses = 4294967295`: the
conversion of the radius to `float` gives 16777224, whose quotient by 6 is exactly
2796204, so the code computes 2796204 passes, while `min(kMaxPasses, ceil(r / 6))` is
2796205. -/
theorem C1_pass_count_counterexample :
    Binary32.ofNat 16777225 = .finite 16777224 ∧
    gl.preparePasses 4294967295 16777225 = 2796204 ∧
    min 4294967295 ⌈((16777225 : ℕ) : ℚ) / 6⌉₊ = 2796205 ∧
    gl.preparePasses 4294967295 16777225 ≠ min 4294967295 ⌈((16777225 : ℕ) : ℚ) / 6⌉₊ := by
  have hrv : Binary32.roundValue ((16777225 : ℕ) : ℚ) = 16777224 := by
    have h := Binary32.roundValue_eq ((16777225 : ℕ) : ℚ) 24 8388612 (by norm_num)
      (by norm_num) (by norm_num)
      (by rw [Binary32.roundHalfEven_tie 8388612 _ (by norm_num)]; norm_num)
    rw [h]
    norm_num
  have hof : Binary32.ofNat 16777225 = .finite 16777224 := by
    rw [Binary32.ofNat_of_lt 16777225 (by norm_num), hrv]
  have hq : Binary32.roundValue (Binary32.roundValue ((16777225 : ℕ) : ℚ) / 6)
      = ((2796204 : ℕ) : ℚ) := by
    rw [hrv]
    have e : (16777224 : ℚ) / 6 = ((2796204 : ℕ) : ℚ) := by norm_num
    rw [e, Binary32.roundValue_natCast 2796204 (by norm_num)]
  have hcode : gl.preparePasses 4294967295 16777225 = 2796204 := by
    rw [gl.preparePasses_eq 4294967295 16777225 (by norm_num), hq, Nat.ceil_natCast]
    norm_num
  have hclaim : min 4294967295 ⌈((16777225 : ℕ) : ℚ) / 6⌉₊ = 2796205 := by
    rw [ceil_div_six_eq]
    norm_num
  refine ⟨hof, hcode, hclaim, ?_⟩
  rw [hcode, hclaim]
  norm_num

/-- The ping-pong loop after `n` iterations, in closed form. -/
theorem gl.pingPong_foldl (stepX stepY : Binary32) (n : ℕ) :
    (List.range n).foldl (fun s j => gl.renderPass stepX stepY s (j + 1))
        ⟨.mPingFbo, .mPongFbo, []⟩
      = ⟨gl.pingPongBuffer n, gl.pingPongBuffer (n + 1),
          (List.range n).map (fun j =>
            ⟨gl.pingPongBuffer j, gl.pingPongBuffer (j + 1),
              Binary32.mul stepX (Binary32.ofNat (j + 1)),
              Binary32.mul stepY (Binary32.ofNat (j + 1))⟩)⟩ := by
  induction n with
  | zero => simp [gl.pingPongBuffer]
  | succ n ih =>
    rw [List.range_succ, List.foldl_append, ih]
    simp only [List.foldl_cons, List.foldl_nil, gl.renderPass, List.map_append,
      List.map_cons, List.map_nil]
    have h : gl.pingPongBuffer (n + 1 + 1) = gl.pingPongBuffer n := by
      unfold gl.pingPongBuffer
      have h2 : (n + 1 + 1) % 2 = n % 2 := by omega
      rw [h2]
    rw [h]

/-- Two consecutive buffers of the ping-pong sequence differ. -/
theorem gl.pingPongBuffer_succ_ne (j : ℕ) :
    gl.pingPongBuffer j ≠ gl.pingPongBuffer (j + 1) := by
  unfold gl.pingPongBuffer
  rcases Nat.mod_two_eq_zero_or_one j with h | h
  · have h1 : (j + 1) % 2 = 1 := by omega
    simp [h, h1]
  · have h1 : (j + 1) % 2 = 0 := by omega
    simp [h, h1]

/-- The last element of a list with a head and a tail enumerated by `List.range`. -/
theorem getLast_cons_map_range {α : Type} (a : α) (g : ℕ → α) (n : ℕ) :
    (a :: (List.range n).map g).getLast? = some (if n = 0 then a else g (n - 1)) := by
  cases n with
  | zero => simp
  | succ m =>
    rw [List.range_succ, List.map_append, ← List.cons_append, List.map_singleton,
      List.getLast?_append]
    simp

/-- The ping-pong loop of `prepare`, in closed form. -/
theorem gl.pingPongLoop_eq (passes : ℕ) (stepX stepY : Binary32) :
    gl.pingPongLoop passes stepX stepY
      = ⟨gl.pingPongBuffer (passes - 1), gl.pingPongBuffer (passes - 1 + 1),
          (List.range (passes - 1)).map (fun j =>
            ⟨gl.pingPongBuffer j, gl.pingPongBuffer (j + 1),
              Binary32.mul stepX (Binary32.ofNat (j + 1)),
              Binary32.mul stepY (Binary32.ofNat (j + 1))⟩)⟩ := by
  unfold gl.pingPongLoop
  exact gl.pingPong_foldl stepX stepY (passes - 1)

/-- The buffer `read` points to after the ping-pong loop. -/
theorem gl.pingPongBuffer_pred (passes : ℕ) :
    gl.pingPongBuffer (passes - 1)
      = if passes ≤ 1 ∨ passes % 2 = 1 then .mPingFbo else .mPongFbo := by
  unfold gl.pingPongBuffer
  by_cases h : passes ≤ 1
  · have h0 : (passes - 1) % 2 = 0 := by omega
    simp [h, h0]
  · by_cases h1 : passes % 2 = 1
    · have h0 : (passes - 1) % 2 = 0 := by omega
      simp [h1, h0]
    · have h0 : ¬ (passes - 1) % 2 = 0 := by omega
      simp [h, h1, h0]

/-- C2: in `gl::BlurFilter::prepare`, for every pass count, every iteration of the ping-pong
loop draws into a buffer different from the one it samples; iteration `j` (counted from 0)
samples the ping buffer and draws into the pong buffer when `j` is even, and the other way
round when `j` is odd, so the roles alternate; and on return `mLastDrawTarget` is the buffer
drawn into last: the ping buffer when the pass count is odd or at most 1, the pong buffer
when it is even and at least 2. The draws of `prepare` after the first are those of the
loop run with its pass count. -/
theorem C2_ping_pong (passes : ℕ) (stepX stepY : Binary32) (kMaxPasses : ℕ)
    (f : gl.BlurFilter) :
    (gl.pingPongLoop passes stepX stepY).draws.length = passes - 1 ∧
    (∀ d ∈ (gl.pingPongLoop passes stepX stepY).draws, d.draw ≠ d.read) ∧
    (∀ j, j < passes - 1 →
      ((gl.pingPongLoop passes stepX stepY).draws[j]?).map (fun d => (d.read, d.draw))
        = some (if j % 2 = 0 then (gl.Framebuffer.mPingFbo, gl.Framebuffer.mPongFbo)
            else (gl.Framebuffer.mPongFbo, gl.Framebuffer.mPingFbo))) ∧
    (gl.pingPongLoop passes stepX stepY).read
      = (if passes ≤ 1 ∨ passes % 2 = 1 then gl.Framebuffer.mPingFbo
          else gl.Framebuffer.mPongFbo) ∧
    (gl.prepare kMaxPasses f).1.mLastDrawTarget
      = (if gl.preparePasses kMaxPasses f.mRadius ≤ 1 ∨
            gl.preparePasses kMaxPasses f.mRadius % 2 = 1
          then gl.Framebuffer.mPingFbo else gl.Framebuffer.mPongFbo) ∧
    ((gl.prepare kMaxPasses f).2.getLast?).map gl.BlurDraw.draw
      = some (gl.prepare kMaxPasses f).1.mLastDrawTarget ∧
    (∀ d ∈ (gl.prepare kMaxPasses f).2, d.draw ≠ d.read) ∧
    (gl.prepare kMaxPasses f).2.tail
      = (gl.pingPongLoop (gl.preparePasses kMaxPasses f.mRadius)
          (Binary32.div (gl.prepareRadiusByPasses kMaxPasses f.mRadius)
            (Binary32.ofNat f.compositionWidth))
          (Binary32.div (gl.prepareRadiusByPasses kMaxPasses f.mRadius)
            (Binary32.ofNat f.compositionHeight))).draws := by
  refine ⟨?_, ?_, ?_, ?_, ?_, ?_, ?_, rfl⟩
  · rw [gl.pingPongLoop_eq]; simp
  · intro d hd
    rw [gl.pingPongLoop_eq] at hd
    simp only [List.mem_map, List.mem_range] at hd
    obtain ⟨j, _, rfl⟩ := hd
    exact fun h => gl.pingPongBuffer_succ_ne j h.symm
  · intro j hj
    rw [gl.pingPongLoop_eq]
    simp only [List.getElem?_map, List.getElem?_range hj, Option.map_some']
    unfold gl.pingPongBuffer
    rcases Nat.mod_two_eq_zero_or_one j with h | h
    · have h1 : ¬ (j + 1) % 2 = 0 := by omega
      simp [h, h1]
    · have h1 : (j + 1) % 2 = 0 := by omega
      simp [h, h1]
  · rw [gl.pingPongLoop_eq]
    exact gl.pingPongBuffer_pred passes
  · unfold gl.prepare
    simp only [gl.pingPongLoop_eq]
    exact gl.pingPongBuffer_pred _
  · unfold gl.prepare
    simp only [gl.pingPongLoop_eq]
    rw [getLast_cons_map_range]
    by_cases h : gl.preparePasses kMaxPasses f.mRadius - 1 = 0
    · simp [h, gl.pingPongBuffer]
    · simp only [h, if_false, Option.map_some']
      have h2 : gl.preparePasses kMaxPasses f.mRadius - 1 - 1 + 1
          = gl.preparePasses kMaxPasses f.mRadius - 1 := by omega
      rw [h2]
  · intro d hd
    unfold gl.prepare at hd
    simp only [gl.pingPongLoop_eq, List.mem_cons, List.mem_map, List.mem_range] at hd
    rcases hd with rfl | ⟨j, _, rfl⟩
    · simp
    · exact fun h => gl.pingPongBuffer_succ_ne j h.symm

/-- The opacity `render` sends to the shader is the local `opacity`, whichever program is
used. -/
theorem gl.render_uBlurOpacity (w : ℕ) (kMaxCrossFadeRadius : ℚ) (f : gl.BlurFilter)
    (layers : ℕ) (currentLayer : ℤ) :
    (gl.render w kMaxCrossFadeRadius f layers currentLayer).uBlurOpacity
      = gl.renderOpacity kMaxCrossFadeRadius f.mRadius layers := by
  unfold gl.render
  split <;> rfl

/-- The value `fmin(1.0, mRadius / kMaxCrossFadeRadius)` for a 32-bit radius and a positive
constant: the smaller of 1 and the quotient computed in `float`, also when the quotient
overflows. -/
theorem gl.fmin_quotient (kMaxCrossFadeRadius : ℚ) (hK : 0 < kMaxCrossFadeRadius)
    (mRadius : ℕ) (hr : mRadius < 2 ^ 32) :
    Binary32.fmin (.finite 1)
        (Binary32.div (Binary32.ofNat mRadius) (.finite kMaxCrossFadeRadius))
      = .finite (min 1 (Binary32.roundValue
          (Binary32.roundValue (mRadius : ℚ) / kMaxCrossFadeRadius))) := by
  obtain ⟨h0, _⟩ := roundValue_uint32_bounds mRadius hr
  have hq0 : 0 ≤ Binary32.roundValue (mRadius : ℚ) / kMaxCrossFadeRadius :=
    div_nonneg h0 (le_of_lt hK)
  have hv0 := Binary32.roundValue_nonneg _ hq0
  rw [Binary32.ofNat_of_lt mRadius hr]
  unfold Binary32.div
  simp only
  rw [if_neg (ne_of_gt hK)]
  unfold Binary32.ofRat
  by_cases hbig : 2 ^ 128 ≤ |Binary32.roundValue
      (Binary32.roundValue (mRadius : ℚ) / kMaxCrossFadeRadius)|
  · rw [if_pos hbig]
    rw [abs_of_nonneg hv0] at hbig
    have h1 : (1 : ℚ) ≤ Binary32.roundValue
        (Binary32.roundValue (mRadius : ℚ) / kMaxCrossFadeRadius) :=
      le_trans (by norm_num) hbig
    rw [min_eq_left h1]
    have hneg : ¬ Binary32.roundValue (mRadius : ℚ) / kMaxCrossFadeRadius < 0 :=
      not_lt.mpr hq0
    simp [Binary32.fmin, Binary32.lt, hneg]
  · rw [if_neg hbig]
    by_cases hlt : Binary32.roundValue
        (Binary32.roundValue (mRadius : ℚ) / kMaxCrossFadeRadius) < 1
    · simp [Binary32.fmin, Binary32.lt, hlt, min_eq_right (le_of_lt hlt)]
    · simp [Binary32.fmin, Binary32.lt, hlt, min_eq_left (not_lt.mp hlt)]

/-- The local `opacity` of `render`, in closed form, for a positive constant: 1 when more
than one layer is rendered, and otherwise the smaller of 1 and the quotient of the radius
by the constant computed in `float`. -/
theorem gl.renderOpacity_eq (kMaxCrossFadeRadius : ℚ) (hK : 0 < kMaxCrossFadeRadius)
    (mRadius layers : ℕ) (hr : mRadius < 2 ^ 32) :
    gl.renderOpacity kMaxCrossFadeRadius mRadius layers
      = .finite (if layers > 1 then 1
          else min 1 (Binary32.roundValue
            (Binary32.roundValue (mRadius : ℚ) / kMaxCrossFadeRadius))) := by
  unfold gl.renderOpacity
  simp only [gl.fmin_quotient kMaxCrossFadeRadius hK mRadius hr]
  by_cases hl : layers > 1
  · simp [hl]
  · by_cases hge : (1 : ℚ) ≤ Binary32.roundValue
        (Binary32.roundValue (mRadius : ℚ) / kMaxCrossFadeRadius)
    · simp [hl, Binary32.le, min_eq_left hge]
    · have hlt := not_le.mp hge
      simp [hl, Binary32.le, min_eq_right (le_of_lt hlt), hge]

/-- The conversion to `size_t` keeps a non-negative `int` below `2 ^ w`. -/
theorem gl.toSizeT_of_nonneg (w : ℕ) (x : ℤ) (h0 : 0 ≤ x) (hx : x < 2 ^ w) :
    gl.toSizeT w x = Int.toNat x := by
  unfold gl.toSizeT
  rw [Int.emod_eq_of_lt h0 hx]

/-- The program `render` selects for a layer index in range: the dithering program on the
last layer only. -/
theorem gl.render_program (w : ℕ) (kMaxCrossFadeRadius : ℚ) (f : gl.BlurFilter)
    (layers : ℕ) (currentLayer : ℤ) (h1 : 1 ≤ layers) (hw : layers < 2 ^ w)
    (h0 : 0 ≤ currentLayer) (hc : currentLayer < (layers : ℤ)) :
    (gl.render w kMaxCrossFadeRadius f layers currentLayer).program
      = if currentLayer = (layers : ℤ) - 1 then gl.MixProgram.mDitherMixProgram
        else gl.MixProgram.mMixProgram := by
  have hx : currentLayer < 2 ^ w := by
    have : ((layers : ℕ) : ℤ) < 2 ^ w := by exact_mod_cast hw
    linarith
  have hsub : (layers + 2 ^ w - 1) % 2 ^ w = layers - 1 := by
    have e : layers + 2 ^ w - 1 = (layers - 1) + 2 ^ w := by omega
    rw [e, Nat.add_mod_right]
    exact Nat.mod_eq_of_lt (by omega)
  unfold gl.render
  rw [gl.toSizeT_of_nonneg w currentLayer h0 hx, hsub]
  have hiff : (Int.toNat currentLayer = layers - 1) ↔ (currentLayer = (layers : ℤ) - 1) := by
    omega
  by_cases h : currentLayer = (layers : ℤ) - 1
  · rw [if_pos (hiff.mpr h), if_pos h]
  · rw [if_neg (fun h2 => h (hiff.mp h2)), if_neg h]

/-- Among the numbers below `n`, only `a` equals `a`. -/
theorem filter_range_eq (n a : ℕ) (h : a < n) :
    (List.range n).filter (fun c => decide (c = a)) = [a] := by
  induction n with
  | zero => omega
  | succ n ih =>
    rw [List.range_succ, List.filter_append]
    by_cases hn : a = n
    · subst hn
      have hnone : (List.range a).filter (fun c => decide (c = a)) = [] := by
        rw [List.filter_eq_nil_iff]
        intro c hc
        have := List.mem_range.mp hc
        simp
        omega
      rw [hnone]
      simp
    · rw [ih (by omega)]
      have : ¬ n = a := fun h2 => hn h2.symm
      simp [this]

/-- C3 (amended): in `gl::BlurFilter::render`, for every 32-bit radius, every layer count
and every positive binary32 constant `kMaxCrossFadeRadius`, the opacity sent to the shader
is 1 when `layers > 1` and `min(1, q)` otherwise, where `q` is the quotient
`radius / kMaxCrossFadeRadius` computed in `float`; it lies in `[0, 1]`; it is below 1 only
when `layers ≤ 1` and `radius < kMaxCrossFadeRadius`; and for a radius up to `2 ^ 24` and
`layers ≤ 1` it is within `2 ^ (-25)` of `min(1, radius / kMaxCrossFadeRadius)`. -/
theorem C3_blur_opacity (w : ℕ) (kMaxCrossFadeRadius : ℚ) (hK : 0 < kMaxCrossFadeRadius)
    (hrep : Binary32.Representable kMaxCrossFadeRadius)
    (f : gl.BlurFilter) (hr : f.mRadius < 2 ^ 32) (layers : ℕ) (currentLayer : ℤ) :
    (gl.render w kMaxCrossFadeRadius f layers currentLayer).uBlurOpacity
      = .finite (if layers > 1 then 1
          else min 1 (Binary32.roundValue
            (Binary32.roundValue (f.mRadius : ℚ) / kMaxCrossFadeRadius))) ∧
    (layers ≤ 1 →
      (gl.render w kMaxCrossFadeRadius f layers currentLayer).uBlurOpacity
        = Binary32.fmin (.finite 1)
            (Binary32.div (Binary32.ofNat f.mRadius) (.finite kMaxCrossFadeRadius))) ∧
    0 ≤ (gl.render w kMaxCrossFadeRadius f layers currentLayer).uBlurOpacity.value ∧
    (gl.render w kMaxCrossFadeRadius f layers currentLayer).uBlurOpacity.value ≤ 1 ∧
    ((gl.render w kMaxCrossFadeRadius f layers currentLayer).uBlurOpacity.value < 1 →
      layers ≤ 1 ∧ (f.mRadius : ℚ) < kMaxCrossFadeRadius) ∧
    (f.mRadius ≤ 2 ^ 24 → layers ≤ 1 →
      |(gl.render w kMaxCrossFadeRadius f layers currentLayer).uBlurOpacity.value
        - min 1 ((f.mRadius : ℚ) / kMaxCrossFadeRadius)| ≤ 1 / 2 ^ 25) := by
  have hop := gl.renderOpacity_eq kMaxCrossFadeRadius hK f.mRadius layers hr
  obtain ⟨h0, _⟩ := roundValue_uint32_bounds f.mRadius hr
  have hq0 : 0 ≤ Binary32.roundValue (f.mRadius : ℚ) / kMaxCrossFadeRadius :=
    div_nonneg h0 (le_of_lt hK)
  have hv0 := Binary32.roundValue_nonneg _ hq0
  rw [gl.render_uBlurOpacity, hop]
  refine ⟨rfl, ?_, ?_, ?_, ?_, ?_⟩
  · intro hl
    have hl2 : ¬ layers > 1 := by omega
    rw [if_neg hl2, gl.fmin_quotient kMaxCrossFadeRadius hK f.mRadius hr]
  · simp only [Binary32.value]
    split_ifs
    · norm_num
    · exact le_min zero_le_one hv0
  · simp only [Binary32.value]
    split_ifs
    · exact le_refl _
    · exact min_le_left _ _
  · simp only [Binary32.value]
    intro hlt
    by_cases hl : layers > 1
    · rw [if_pos hl] at hlt
      exact absurd hlt (lt_irrefl _)
    · rw [if_neg hl] at hlt
      refine ⟨by omega, ?_⟩
      have hv1 : Binary32.roundValue
          (Binary32.roundValue (f.mRadius : ℚ) / kMaxCrossFadeRadius) < 1 := by
        by_contra hcon
        rw [min_eq_left (not_lt.mp hcon)] at hlt
        exact lt_irrefl _ hlt
      have hq1 : Binary32.roundValue (f.mRadius : ℚ) / kMaxCrossFadeRadius < 1 := by
        by_contra hcon
        have := Binary32.zpow_le_roundValue
          (Binary32.roundValue (f.mRadius : ℚ) / kMaxCrossFadeRadius) 0 (by norm_num)
          (by simpa using not_lt.mp hcon)
        simp only [zpow_zero] at this
        linarith
      have ha : Binary32.roundValue (f.mRadius : ℚ) < kMaxCrossFadeRadius :=
        (div_lt_one hK).mp hq1
      by_contra hcon
      have := Binary32.le_roundValue_of_representable (f.mRadius : ℚ) kMaxCrossFadeRadius
        hrep hK (not_lt.mp hcon)
      linarith
  · intro h24 hl
    have hl2 : ¬ layers > 1 := by omega
    simp only [Binary32.value, if_neg hl2]
    rw [Binary32.roundValue_natCast f.mRadius h24]
    have hq0' : 0 ≤ (f.mRadius : ℚ) / kMaxCrossFadeRadius :=
      div_nonneg (Nat.cast_nonneg _) (le_of_lt hK)
    by_cases hq1 : (1 : ℚ) ≤ (f.mRadius : ℚ) / kMaxCrossFadeRadius
    · have := Binary32.zpow_le_roundValue ((f.mRadius : ℚ) / kMaxCrossFadeRadius) 0
        (by norm_num) (by simpa using hq1)
      simp only [zpow_zero] at this
      rw [min_eq_left this, min_eq_left hq1, sub_self, abs_zero]
      positivity
    · have hlt := not_le.mp hq1
      have hle1 := Binary32.roundValue_le_zpow ((f.mRadius : ℚ) / kMaxCrossFadeRadius) 0
        (by norm_num) hq0' (by simpa using le_of_lt hlt)
      simp only [zpow_zero] at hle1
      rw [min_eq_right hle1, min_eq_right (le_of_lt hlt)]
      have herr := Binary32.abs_roundValue_sub_le ((f.mRadius : ℚ) / kMaxCrossFadeRadius)
      have hexp : Binary32.exponent ((f.mRadius : ℚ) / kMaxCrossFadeRadius) ≤ -1 :=
        Binary32.exponent_le_of_lt _ (-1) (by norm_num) (by
          rw [abs_of_nonneg hq0']
          simpa using hlt)
      have hulp : Binary32.ulp ((f.mRadius : ℚ) / kMaxCrossFadeRadius) ≤ 1 / 2 ^ 24 := by
        unfold Binary32.ulp
        calc (2 : ℚ) ^ (Binary32.exponent ((f.mRadius : ℚ) / kMaxCrossFadeRadius) - 23)
            ≤ (2 : ℚ) ^ (-24 : ℤ) := zpow_le_zpow_right₀ (by norm_num) (by omega)
          _ = 1 / 2 ^ 24 := by norm_num
      calc |Binary32.roundValue ((f.mRadius : ℚ) / kMaxCrossFadeRadius)
            - (f.mRadius : ℚ) / kMaxCrossFadeRadius|
          ≤ Binary32.ulp ((f.mRadius : ℚ) / kMaxCrossFadeRadius) / 2 := herr
        _ ≤ 1 / 2 ^ 25 := by
          have : (1 : ℚ) / 2 ^ 24 / 2 = 1 / 2 ^ 25 := by norm_num
          linarith

/-- C3 (amended) for a filter of radius 5 with `kMaxCrossFadeRadius = 10`, one layer,
64-bit `size_t`. -/
theorem C3_blur_opacity_witness :
    (gl.render 64 10 ⟨5, 1080, 1920, .mPingFbo⟩ 1 0).uBlurOpacity
      = .finite (if 1 > 1 then 1
          else min 1 (Binary32.roundValue (Binary32.roundValue ((5 : ℕ) : ℚ) / 10))) ∧
    (1 ≤ 1 →
      (gl.render 64 10 ⟨5, 1080, 1920, .mPingFbo⟩ 1 0).uBlurOpacity
        = Binary32.fmin (.finite 1) (Binary32.div (Binary32.ofNat 5) (.finite 10))) ∧
    0 ≤ (gl.render 64 10 ⟨5, 1080, 1920, .mPingFbo⟩ 1 0).uBlurOpacity.value ∧
    (gl.render 64 10 ⟨5, 1080, 1920, .mPingFbo⟩ 1 0).uBlurOpacity.value ≤ 1 ∧
    ((gl.render 64 10 ⟨5, 1080, 1920, .mPingFbo⟩ 1 0).uBlurOpacity.value < 1 →
      1 ≤ 1 ∧ ((5 : ℕ) : ℚ) < 10) ∧
    (5 ≤ 2 ^ 24 → 1 ≤ 1 →
      |(gl.render 64 10 ⟨5, 1080, 1920, .mPingFbo⟩ 1 0).uBlurOpacity.value
        - min 1 (((5 : ℕ) : ℚ) / 10)| ≤ 1 / 2 ^ 25) :=
  C3_blur_opacity 64 10 (by norm_num)
    (by exact_mod_cast Binary32.representable_natCast 10 (by norm_num))
    ⟨5, 1080, 1920, .mPingFbo⟩ (by norm_num) 1 0

/-- C3 as stated fails for the radius 3 with `kMaxCrossFadeRadius = 10` and one layer: the
opacity sent to the shader is the `float` quotient `5033165 / 2 ^ 24`, not `3 / 10`. It
also fails for the radius `2 ^ 25 - 1` with `kMaxCrossFadeRadius = 2 ^ 25`: the conversion
of the radius to `float` gives `2 ^ 25`, so the opacity is 1, while
`min(1, radius / kMaxCrossFadeRadius)` is below 1. -/
theorem C3_blur_opacity_counterexample :
    (gl.render 64 10 ⟨3, 1080, 1920, .mPingFbo⟩ 1 0).uBlurOpacity
      = .finite (5033165 / 16777216) ∧
    (5033165 / 16777216 : ℚ) ≠ min 1 (((3 : ℕ) : ℚ) / 10) ∧
    (gl.render 64 33554432 ⟨33554431, 1080, 1920, .mPingFbo⟩ 1 0).uBlurOpacity
      = .finite 1 ∧
    (1 : ℚ) ≠ min 1 (((33554431 : ℕ) : ℚ) / 33554432) := by
  refine ⟨?_, ?_, ?_, ?_⟩
  · rw [gl.render_uBlurOpacity, gl.renderOpacity_eq 10 (by norm_num) 3 1 (by norm_num)]
    rw [Binary32.roundValue_natCast 3 (by norm_num)]
    have h := Binary32.roundValue_eq (((3 : ℕ) : ℚ) / 10) (-2) 10066330 (by norm_num)
      (by norm_num) (by norm_num)
      (Binary32.roundHalfEven_eq_of_abs_lt _ _ (by rw [abs_lt]; constructor <;> norm_num))
    rw [h]
    norm_num
  · norm_num
  · rw [gl.render_uBlurOpacity,
      gl.renderOpacity_eq 33554432 (by norm_num) 33554431 1 (by norm_num)]
    have h := Binary32.roundValue_eq ((33554431 : ℕ) : ℚ) 24 16777216 (by norm_num)
      (by norm_num) (by norm_num)
      (by rw [Binary32.roundHalfEven_tie 16777215 _ (by norm_num)]; norm_num)
    rw [h]
    have e : ((16777216 : ℤ) : ℚ) * (2 : ℚ) ^ ((24 : ℤ) - 23) / 33554432 = ((1 : ℕ) : ℚ) := by
      norm_num
    rw [e, Binary32.roundValue_natCast 1 (by norm_num)]
    norm_num
  · norm_num

/-- C4: in `gl::BlurFilter::render`, for every `layers ≥ 1` and every `currentLayer` with
`0 ≤ currentLayer < layers`, the draw uses the dithering program if and only if
`currentLayer = layers - 1`, and the plain mix program otherwise; so among the calls with
`currentLayer = 0, ..., layers - 1` exactly one dithers, the last. -/
theorem C4_dither_last_layer (w : ℕ) (kMaxCrossFadeRadius : ℚ) (f : gl.BlurFilter)
    (layers : ℕ) (currentLayer : ℤ) (h1 : 1 ≤ layers) (hw : layers < 2 ^ w)
    (h0 : 0 ≤ currentLayer) (hc : currentLayer < (layers : ℤ)) :
    ((gl.render w kMaxCrossFadeRadius f layers currentLayer).program
        = gl.MixProgram.mDitherMixProgram ↔ currentLayer = (layers : ℤ) - 1) ∧
    ((gl.render w kMaxCrossFadeRadius f layers currentLayer).program
        = gl.MixProgram.mMixProgram ↔ currentLayer ≠ (layers : ℤ) - 1) ∧
    (List.range layers).filter (fun (c : ℕ) =>
        decide ((gl.render w kMaxCrossFadeRadius f layers (c : ℤ)).program
          = gl.MixProgram.mDitherMixProgram)) = [layers - 1] := by
  refine ⟨?_, ?_, ?_⟩
  · rw [gl.render_program w kMaxCrossFadeRadius f layers currentLayer h1 hw h0 hc]
    by_cases h : currentLayer = (layers : ℤ) - 1 <;> simp [h]
  · rw [gl.render_program w kMaxCrossFadeRadius f layers currentLayer h1 hw h0 hc]
    by_cases h : currentLayer = (layers : ℤ) - 1 <;> simp [h]
  · rw [← filter_range_eq layers (layers - 1) (by omega)]
    apply List.filter_congr
    intro c hc2
    have hc3 := List.mem_range.mp hc2
    rw [gl.render_program w kMaxCrossFadeRadius f layers (c : ℤ) h1 hw
      (by exact_mod_cast Nat.zero_le c) (by exact_mod_cast hc3)]
    have hiff : ((c : ℤ) = (layers : ℤ) - 1) ↔ (c = layers - 1) := by omega
    by_cases h : c = layers - 1
    · rw [if_pos (hiff.mpr h)]
      simp [h]
    · have h2 : ¬ ((c : ℤ) = (layers : ℤ) - 1) := fun h3 => h (hiff.mp h3)
      simp [h, h2]

/-- C4 for three layers and the layer index 2, with 64-bit `size_t`. -/
theorem C4_dither_last_layer_witness :
    ((gl.render 64 10 ⟨5, 1080, 1920, .mPingFbo⟩ 3 2).program
        = gl.MixProgram.mDitherMixProgram ↔ (2 : ℤ) = ((3 : ℕ) : ℤ) - 1) ∧
    ((gl.render 64 10 ⟨5, 1080, 1920, .mPingFbo⟩ 3 2).program
        = gl.MixProgram.mMixProgram ↔ (2 : ℤ) ≠ ((3 : ℕ) : ℤ) - 1) ∧
    (List.range 3).filter (fun (c : ℕ) =>
        decide ((gl.render 64 10 ⟨5, 1080, 1920, .mPingFbo⟩ 3 (c : ℤ)).program
          = gl.MixProgram.mDitherMixProgram)) = [3 - 1] :=
  C4_dither_last_layer 64 10 ⟨5, 1080, 1920, .mPingFbo⟩ 3 2 (by norm_num) (by norm_num)
    (by norm_num) (by norm_num)

/-- A filter that was constructed keeps the radius it was given, and has a mix effect when
that radius is positive. -/
theorem skia.construct_spec (makeForShader : Option skia.SkRuntimeEffect) (m : Binary32)
    (f : skia.BlurFilter) (hf : skia.BlurFilter.construct makeForShader m = some f) :
    f.mMaxCrossFadeRadius = m ∧
    (Binary32.lt (.finite 0) m = true → f.mMixEffect.isSome = true) := by
  unfold skia.BlurFilter.construct at hf
  by_cases hm : Binary32.lt (.finite 0) m = true
  · rw [if_pos hm] at hf
    cases hc : skia.createMixEffect makeForShader with
    | none => rw [hc] at hf; cases hf
    | some e =>
      rw [hc] at hf
      cases hf
      exact ⟨rfl, fun _ => rfl⟩
  · rw [if_neg hm] at hf
    cases hf
    exact ⟨rfl, fun h => absurd h hm⟩

/-- The shader `drawBlurRegion` paints with does not depend on the shape of the region. -/
theorem skia.drawBlurRegion_shader (f : skia.BlurFilter) (isRect : Bool) (blurRadius : ℕ)
    (blurAlpha : ℚ) :
    (skia.drawBlurRegion f isRect blurRadius blurAlpha).shader
      = if Binary32.lt (Binary32.ofNat blurRadius) f.mMaxCrossFadeRadius = true then
          .mixShader f.mMixEffect
            (Binary32.div (Binary32.ofNat blurRadius) f.mMaxCrossFadeRadius)
        else .blurShader := by
  unfold skia.drawBlurRegion
  cases isRect <;> rfl

/-- The largest binary32 value below 1 is `1 - 2 ^ (-24)`. -/
theorem representable_pred_one : Binary32.Representable (1 - 1 / 2 ^ 24 : ℚ) := by
  have hexp : Binary32.exponent (1 - 1 / 2 ^ 24 : ℚ) = -1 :=
    Binary32.exponent_eq _ (-1) (by norm_num)
      (by rw [abs_of_pos (by norm_num)]; norm_num)
      (by rw [abs_of_pos (by norm_num)]; norm_num)
  apply Binary32.representable_of_roundValue_eq
  · apply Binary32.roundValue_eq_self _ 16777215
    unfold Binary32.ulp
    rw [hexp]
    norm_num
  · rw [abs_of_pos (by norm_num)]
    norm_num

/-- The quotient in `float` of a binary32 value `a ≥ 0` by a larger binary32 value is a
finite value in `[0, 1)`. -/
theorem div_lt_one_of_representable (a b : ℚ) (ha : Binary32.Representable a)
    (hb : Binary32.Representable b) (h0 : 0 ≤ a) (h : a < b) :
    Binary32.div (.finite a) (.finite b) = .finite (Binary32.roundValue (a / b)) ∧
    0 ≤ Binary32.roundValue (a / b) ∧ Binary32.roundValue (a / b) < 1 := by
  have hb0 : 0 < b := lt_of_le_of_lt h0 h
  have hq0 : 0 ≤ a / b := div_nonneg h0 (le_of_lt hb0)
  have hgap := Binary32.le_of_representable_lt a b ha hb h0 h
  have hq1 : a / b ≤ 1 - 1 / 2 ^ 24 := by
    rw [div_le_iff₀ hb0]
    exact hgap
  have hv := Binary32.roundValue_le_of_representable (a / b) (1 - 1 / 2 ^ 24)
    representable_pred_one hq0 hq1
  refine ⟨?_, Binary32.roundValue_nonneg _ hq0, lt_of_le_of_lt hv (by norm_num)⟩
  unfold Binary32.div
  simp only
  rw [if_neg (ne_of_gt hb0)]
  apply Binary32.ofRat_of_nonneg_le _ hq0
  calc a / b ≤ 1 - 1 / 2 ^ 24 := hq1
    _ ≤ (2 : ℚ) ^ (127 : ℤ) := by norm_num

/-- The conversion to `float` of a 32-bit unsigned integer is a binary32 value. -/
theorem representable_roundValue_uint32 (r : ℕ) (hr : r < 2 ^ 32) :
    Binary32.Representable (Binary32.roundValue (r : ℚ)) := by
  obtain ⟨_, h32⟩ := roundValue_uint32_bounds r hr
  apply Binary32.representable_roundValue _ (by positivity)
  calc Binary32.roundValue (r : ℚ) ≤ 2 ^ 32 := h32
    _ < 2 ^ 128 := by norm_num

/-- C5 (amended): for every `skia::BlurFilter` constructed with a `float`
`maxCrossFadeRadius = m` and every 32-bit `blurRadius`, `drawBlurRegion` paints with the mix
shader if and only if the conversion of `blurRadius` to `float` is below `m`, and with the
shader of the blurred image alone otherwise. That comparison implies `blurRadius < m`, and
is equivalent to it for `blurRadius ≤ 2 ^ 24`. When the mix shader is used, `m > 0`, the
mix effect is not null, and `mixFactor`, the quotient `blurRadius / m` computed in `float`,
is a finite value in `[0, 1)`. A `GaussianBlurFilter`, constructed with `m = 0`, never
cross-fades. -/
theorem C5_cross_fade (makeForShader : Option skia.SkRuntimeEffect) (m : Binary32)
    (hm : ∀ b, m = .finite b → Binary32.Representable b)
    (f : skia.BlurFilter) (hf : skia.BlurFilter.construct makeForShader m = some f)
    (isRect : Bool) (blurRadius : ℕ) (hr : blurRadius < 2 ^ 32) (blurAlpha : ℚ) :
    ((∃ e x, (skia.drawBlurRegion f isRect blurRadius blurAlpha).shader
        = skia.PaintShader.mixShader e x)
      ↔ Binary32.lt (Binary32.ofNat blurRadius) m = true) ∧
    ((skia.drawBlurRegion f isRect blurRadius blurAlpha).shader = skia.PaintShader.blurShader
      ↔ ¬ Binary32.lt (Binary32.ofNat blurRadius) m = true) ∧
    (Binary32.lt (Binary32.ofNat blurRadius) m = true →
      (skia.drawBlurRegion f isRect blurRadius blurAlpha).shader
        = skia.PaintShader.mixShader f.mMixEffect
            (Binary32.div (Binary32.ofNat blurRadius) m) ∧
      Binary32.lt (.finite 0) m = true ∧ f.mMixEffect.isSome = true ∧
      ∃ x : ℚ, Binary32.div (Binary32.ofNat blurRadius) m = .finite x ∧ 0 ≤ x ∧ x < 1) ∧
    (∀ b, m = .finite b →
      (Binary32.lt (Binary32.ofNat blurRadius) m = true → (blurRadius : ℚ) < b) ∧
      (blurRadius ≤ 2 ^ 24 →
        (Binary32.lt (Binary32.ofNat blurRadius) m = true ↔ (blurRadius : ℚ) < b))) ∧
    (∀ g, skia.GaussianBlurFilter.construct makeForShader = some g →
      (skia.drawBlurRegion g isRect blurRadius blurAlpha).shader
        = skia.PaintShader.blurShader) := by
  obtain ⟨hfm, heff⟩ := skia.construct_spec makeForShader m f hf
  obtain ⟨ha0, _⟩ := roundValue_uint32_bounds blurRadius hr
  have hof := Binary32.ofNat_of_lt blurRadius hr
  have harep := representable_roundValue_uint32 blurRadius hr
  refine ⟨?_, ?_, ?_, ?_, ?_⟩
  · rw [skia.drawBlurRegion_shader, hfm]
    by_cases h : Binary32.lt (Binary32.ofNat blurRadius) m = true
    · simp [h]
    · simp [h]
  · rw [skia.drawBlurRegion_shader, hfm]
    by_cases h : Binary32.lt (Binary32.ofNat blurRadius) m = true
    · simp [h]
    · simp [h]
  · intro h
    have hshader : (skia.drawBlurRegion f isRect blurRadius blurAlpha).shader
        = skia.PaintShader.mixShader f.mMixEffect
            (Binary32.div (Binary32.ofNat blurRadius) m) := by
      rw [skia.drawBlurRegion_shader, hfm, if_pos h]
    cases hmc : m with
    | finite b =>
      rw [hmc, hof] at h
      simp only [Binary32.lt, decide_eq_true_eq] at h
      have hb0 : 0 < b := lt_of_le_of_lt ha0 h
      have hpos : Binary32.lt (.finite 0) (.finite b) = true := by
        simp [Binary32.lt, hb0]
      obtain ⟨hd, hx0, hx1⟩ := div_lt_one_of_representable _ b harep (hm b hmc) ha0 h
      rw [hmc] at hshader heff
      exact ⟨hshader, hpos, heff hpos, _, by rw [hof]; exact hd, hx0, hx1⟩
    | inf s =>
      rw [hmc, hof] at h
      cases s with
      | true => simp [Binary32.lt] at h
      | false =>
        have hpos : Binary32.lt (.finite 0) (.inf false) = true := by
          simp [Binary32.lt]
        rw [hmc] at hshader heff
        refine ⟨hshader, hpos, heff hpos, 0, ?_, le_refl _, by norm_num⟩
        rw [hof]
        rfl
    | nan =>
      rw [hmc, hof] at h
      simp [Binary32.lt] at h
  · intro b hmc
    have hiff : Binary32.lt (Binary32.ofNat blurRadius) m = true
        ↔ Binary32.roundValue (blurRadius : ℚ) < b := by
      rw [hmc, hof]
      simp [Binary32.lt]
    constructor
    · intro h
      have ha := hiff.mp h
      by_contra hcon
      have hge := not_lt.mp hcon
      rcases le_or_lt b 0 with hb | hb
      · linarith
      · have := Binary32.le_roundValue_of_representable (blurRadius : ℚ) b (hm b hmc) hb hge
        linarith
    · intro h24
      rw [hiff, Binary32.roundValue_natCast blurRadius h24]
  · intro g hg
    obtain ⟨hg0, _⟩ := skia.construct_spec makeForShader (.finite 0.0) g hg
    rw [skia.drawBlurRegion_shader, hg0, hof]
    have h : ¬ Binary32.lt (.finite (Binary32.roundValue (blurRadius : ℚ))) (.finite 0.0)
        = true := by
      simp only [Binary32.lt, decide_eq_true_eq, not_lt]
      norm_num
      exact ha0
    rw [if_neg h]

/-- C5 (amended) for a filter constructed with `maxCrossFadeRadius = 10` and the
radius 4. -/
theorem C5_cross_fade_witness :
    ((∃ e x, (skia.drawBlurRegion ⟨.finite 10, some .mixEffect⟩ true 4 1).shader
        = skia.PaintShader.mixShader e x)
      ↔ Binary32.lt (Binary32.ofNat 4) (.finite 10) = true) ∧
    ((skia.drawBlurRegion ⟨.finite 10, some .mixEffect⟩ true 4 1).shader
        = skia.PaintShader.blurShader
      ↔ ¬ Binary32.lt (Binary32.ofNat 4) (.finite 10) = true) ∧
    (Binary32.lt (Binary32.ofNat 4) (.finite 10) = true →
      (skia.drawBlurRegion ⟨.finite 10, some .mixEffect⟩ true 4 1).shader
        = skia.PaintShader.mixShader
            (skia.BlurFilter.mk (.finite 10) (some .mixEffect)).mMixEffect
            (Binary32.div (Binary32.ofNat 4) (.finite 10)) ∧
      Binary32.lt (.finite 0) (.finite 10) = true ∧
      (skia.BlurFilter.mk (.finite 10) (some .mixEffect)).mMixEffect.isSome = true ∧
      ∃ x : ℚ, Binary32.div (Binary32.ofNat 4) (.finite 10) = .finite x ∧ 0 ≤ x ∧ x < 1) ∧
    (∀ b, Binary32.finite 10 = .finite b →
      (Binary32.lt (Binary32.ofNat 4) (.finite 10) = true → ((4 : ℕ) : ℚ) < b) ∧
      (4 ≤ 2 ^ 24 →
        (Binary32.lt (Binary32.ofNat 4) (.finite 10) = true ↔ ((4 : ℕ) : ℚ) < b))) ∧
    (∀ g, skia.GaussianBlurFilter.construct (some .mixEffect) = some g →
      (skia.drawBlurRegion g true 4 1).shader = skia.PaintShader.blurShader) :=
  C5_cross_fade (some .mixEffect) (.finite 10)
    (fun b hb => by
      have h10 : b = ((10 : ℕ) : ℚ) := by
        have := Binary32.finite.inj hb
        rw [← this]
        norm_num
      rw [h10]
      exact Binary32.representable_natCast 10 (by norm_num))
    ⟨.finite 10, some .mixEffect⟩
    (by simp [skia.BlurFilter.construct, skia.createMixEffect, Binary32.lt])
    true 4 (by norm_num) 1

/-- C5 as stated fails for `blurRadius = 16777219` on a filter constructed with
`maxCrossFadeRadius = 16777220`: the conversion of the radius to `float` gives 16777220,
which is not below `m`, so `drawBlurRegion` paints with the shader of the blurred image
alone although `blurRadius < m`. -/
theorem C5_cross_fade_counterexample :
    skia.BlurFilter.construct (some .mixEffect) (.finite 16777220)
      = some ⟨.finite 16777220, some .mixEffect⟩ ∧
    Binary32.ofNat 16777219 = .finite 16777220 ∧
    (skia.drawBlurRegion ⟨.finite 16777220, some .mixEffect⟩ true 16777219 1).shader
      = skia.PaintShader.blurShader ∧
    ((16777219 : ℕ) : ℚ) < 16777220 := by
  have hrv : Binary32.roundValue ((16777219 : ℕ) : ℚ) = 16777220 := by
    have h := Binary32.roundValue_eq ((16777219 : ℕ) : ℚ) 24 8388610 (by norm_num)
      (by norm_num) (by norm_num)
      (by rw [Binary32.roundHalfEven_tie 8388609 _ (by norm_num)]; norm_num)
    rw [h]
    norm_num
  have hof : Binary32.ofNat 16777219 = .finite 16777220 := by
    rw [Binary32.ofNat_of_lt 16777219 (by norm_num), hrv]
  refine ⟨?_, hof, ?_, by norm_num⟩
  · simp [skia.BlurFilter.construct, skia.createMixEffect, Binary32.lt]
  · rw [skia.drawBlurRegion_shader, hof]
    simp [Binary32.lt]

/-- C6: for every texture, coordinate and offset `o`, the GL blur fragment shader with
`uOffset = (o, o)` and the Skia Kawase shader with `in_blurOffset = o` return the same
colour; its rgb is one fifth of the sum of the samples at the centre and at the four
diagonal neighbours `(±o, ±o)`, its alpha is 1; so a uniformly coloured texture keeps its
rgb through a pass. -/
theorem C6_same_kernel {F : Type} [LinearOrderedField F] (tex : Sampler F) (p : Vec2 F)
    (o : F) :
    gl.getFragmentShader tex ⟨o, o⟩ p = skia.kawaseBlurShader tex o p ∧
    (gl.getFragmentShader tex ⟨o, o⟩ p).rgb
      = (((((tex p).rgb.add (tex ⟨p.x + o, p.y + o⟩).rgb).add
            (tex ⟨p.x + o, p.y - o⟩).rgb).add (tex ⟨p.x - o, p.y + o⟩).rgb).add
            (tex ⟨p.x - o, p.y - o⟩).rgb).scale (1 / 5) ∧
    (gl.getFragmentShader tex ⟨o, o⟩ p).a = 1 ∧
    (∀ c : Vec3 F, (∀ q, (tex q).rgb = c) →
      (gl.getFragmentShader tex ⟨o, o⟩ p).rgb = c ∧
      (skia.kawaseBlurShader tex o p).rgb = c) := by
  have h5 : (0.2 : F) = 1 / 5 := by norm_num
  have hsub : ∀ a b : F, a + -b = a - b := fun a b => (sub_eq_add_neg a b).symm
  refine ⟨?_, ?_, ?_, ?_⟩
  · simp only [gl.getFragmentShader, skia.kawaseBlurShader, Vec4.ofRgb, Vec4.rgb, Vec4.add,
      Vec3.add, Vec3.scale, Vec2.add, Vec4.mk.injEq]
    refine ⟨?_, ?_, ?_, ?_⟩ <;> norm_num <;> ring
  · simp only [gl.getFragmentShader, Vec4.ofRgb, Vec4.rgb, Vec3.add, Vec3.scale, Vec2.add,
      h5, hsub]
  · simp only [gl.getFragmentShader, Vec4.ofRgb]
  · intro c hc
    have hc2 : ∀ q, (tex q).r = c.r ∧ (tex q).g = c.g ∧ (tex q).b = c.b := by
      intro q
      have := hc q
      simp only [Vec4.rgb] at this
      rw [← this]
      exact ⟨rfl, rfl, rfl⟩
    constructor
    · simp only [gl.getFragmentShader, Vec4.ofRgb, Vec4.rgb, Vec3.add, Vec3.scale,
        (hc2 _).1, (hc2 _).2.1, (hc2 _).2.2, h5]
      cases c
      simp only [Vec3.mk.injEq]
      refine ⟨?_, ?_, ?_⟩ <;> ring
    · simp only [skia.kawaseBlurShader, Vec4.ofRgb, Vec4.rgb, Vec4.add, Vec3.scale,
        (hc2 _).1, (hc2 _).2.1, (hc2 _).2.2, h5]
      cases c
      simp only [Vec3.mk.injEq]
      refine ⟨?_, ?_, ?_⟩ <;> ring

/-- C6 on a texture of uniform colour, with the offset 3 at the origin: both shaders
return that colour. -/
theorem C6_same_kernel_witness :
    (gl.getFragmentShader (fun _ => (⟨1 / 2, 1 / 3, 1 / 4, 1⟩ : Vec4 ℚ)) ⟨3, 3⟩ ⟨0, 0⟩).rgb
      = ⟨1 / 2, 1 / 3, 1 / 4⟩ ∧
    (skia.kawaseBlurShader (fun _ => (⟨1 / 2, 1 / 3, 1 / 4, 1⟩ : Vec4 ℚ)) 3 ⟨0, 0⟩).rgb
      = ⟨1 / 2, 1 / 3, 1 / 4⟩ :=
  (C6_same_kernel (fun _ => (⟨1 / 2, 1 / 3, 1 / 4, 1⟩ : Vec4 ℚ)) ⟨0, 0⟩ 3).2.2.2
    ⟨1 / 2, 1 / 3, 1 / 4⟩ (fun _ => rfl)

/-- The pass count is at least 1 for a radius of at least 1, and at most `2 ^ 30`. -/
theorem gl.preparePasses_bounds (kMaxPasses r : ℕ) (hr : r < 2 ^ 32) (hk : 1 ≤ kMaxPasses)
    (hr1 : 1 ≤ r) :
    1 ≤ gl.preparePasses kMaxPasses r ∧ gl.preparePasses kMaxPasses r ≤ 2 ^ 30 := by
  rw [gl.preparePasses_eq kMaxPasses r hr]
  obtain ⟨_, hq30⟩ := quotient_six_bounds r hr
  have hpos := quotient_six_pos r hr1
  constructor
  · apply le_min hk
    apply Nat.one_le_iff_ne_zero.mpr
    intro h0
    have := Nat.ceil_eq_zero.mp h0
    linarith
  · apply le_trans (min_le_right _ _)
    apply Nat.ceil_le.mpr
    exact_mod_cast hq30

/-- The value of `radiusByPasses` for a radius of at least 1: three roundings, of the
conversion of the radius, of its quotient by 6, and of the quotient by the pass count. -/
theorem gl.prepareRadiusByPasses_eq (kMaxPasses r : ℕ) (hr : r < 2 ^ 32)
    (hk : 1 ≤ kMaxPasses) (hr1 : 1 ≤ r) :
    gl.prepareRadiusByPasses kMaxPasses r
      = .finite (Binary32.roundValue
          (Binary32.roundValue (Binary32.roundValue (r : ℚ) / 6)
            / Binary32.roundValue ((gl.preparePasses kMaxPasses r : ℕ) : ℚ))) := by
  obtain ⟨hp1, hp30⟩ := gl.preparePasses_bounds kMaxPasses r hr hk hr1
  obtain ⟨hq0, hq30⟩ := quotient_six_bounds r hr
  have hp32 : gl.preparePasses kMaxPasses r < 2 ^ 32 := lt_of_le_of_lt hp30 (by norm_num)
  have hd1 : (1 : ℚ) ≤ Binary32.roundValue ((gl.preparePasses kMaxPasses r : ℕ) : ℚ) := by
    have := Binary32.zpow_le_roundValue ((gl.preparePasses kMaxPasses r : ℕ) : ℚ) 0
      (by norm_num) (by simpa using (by exact_mod_cast hp1 :
        (1 : ℚ) ≤ ((gl.preparePasses kMaxPasses r : ℕ) : ℚ)))
    simpa using this
  unfold gl.prepareRadiusByPasses gl.prepareRadius
  rw [radius_div_six r hr, Binary32.ofNat_of_lt _ hp32]
  unfold Binary32.div
  simp only
  rw [if_neg (by linarith)]
  apply Binary32.ofRat_of_nonneg_le
  · exact div_nonneg hq0 (by linarith)
  · calc Binary32.roundValue (Binary32.roundValue (r : ℚ) / 6)
          / Binary32.roundValue ((gl.preparePasses kMaxPasses r : ℕ) : ℚ)
        ≤ Binary32.roundValue (Binary32.roundValue (r : ℚ) / 6) :=
          div_le_self hq0 hd1
      _ ≤ 2 ^ 30 := hq30
      _ ≤ (2 : ℚ) ^ (127 : ℤ) := by norm_num

/-- The loop of `generate` for a pass count `p ≤ 2 ^ 24`, from the value `i ≤ p` of the
counter and with enough iterations allowed: the counter takes the values `i, ..., p - 1`. -/
theorem skia.kawaseLoop_eq (p : ℕ) (hp : p ≤ 2 ^ 24)
    (pass : Option skia.SkImage → ℕ → Option skia.SkImage) (fuel : ℕ) :
    ∀ (i : ℕ) (t : Option skia.SkImage), i ≤ p → p - i ≤ fuel →
      skia.kawaseLoop (.finite (p : ℚ)) pass fuel i t
        = (List.range (p - i)).foldl (fun t j => pass t (i + j)) t := by
  induction fuel with
  | zero =>
    intro i t hi hfuel
    have h0 : p - i = 0 := by omega
    rw [h0]
    rfl
  | succ fuel ih =>
    intro i t hi hfuel
    unfold skia.kawaseLoop
    rw [Binary32.ofNat_of_le i (le_trans hi hp)]
    by_cases hlt : i < p
    · have hc : Binary32.lt (.finite (i : ℚ)) (.finite (p : ℚ)) = true := by
        simp only [Binary32.lt, decide_eq_true_eq]
        exact_mod_cast hlt
      rw [if_pos hc, ih (i + 1) (pass t i) (by omega) (by omega)]
      obtain ⟨n, hn⟩ : ∃ n, p - i = n + 1 := ⟨p - i - 1, by omega⟩
      have hn2 : p - (i + 1) = n := by omega
      rw [hn, hn2, List.range_succ_eq_map, List.foldl_cons, List.foldl_map]
      refine congrArg₂ (fun g a => List.foldl g a (List.range n)) ?_ rfl
      funext t j
      have e : i + 1 + j = i + Nat.succ j := by omega
      rw [e]
    · have hc : ¬ Binary32.lt (.finite (i : ℚ)) (.finite (p : ℚ)) = true := by
        simp only [Binary32.lt, decide_eq_true_eq, not_lt]
        exact_mod_cast not_lt.mp hlt
      have h0 : p - i = 0 := by omega
      rw [if_neg hc, h0]
      rfl

/-- The iterations `1, ..., n` of the loop of `generate` when no image creation fails: the
image they leave was made by `n` more `makeImage` calls, with the offsets
`(float) (j + 1) * radiusByPasses * kInputScale`. -/
theorem skia.kawase_foldl (rbp : Binary32) (kInputScale : ℚ) (makeImageOk : ℕ → Bool) (n : ℕ)
    (hok : ∀ i, i < n + 1 → makeImageOk i = true) (img0 : skia.SkImage) :
    ∃ img, (List.range n).foldl
        (fun t j => skia.kawasePass rbp kInputScale makeImageOk t (1 + j)) (some img0)
          = some img ∧
      img.blurOffsets = img0.blurOffsets ++
        (List.range n).map (fun j =>
          Binary32.mul (Binary32.mul (Binary32.ofNat (j + 1)) rbp) (.finite kInputScale)) := by
  induction n with
  | zero => exact ⟨img0, rfl, by simp⟩
  | succ n ih =>
    obtain ⟨img, h1, h2⟩ := ih (fun i hi => hok i (by omega))
    refine ⟨.makeImage img
      (Binary32.mul (Binary32.mul (Binary32.ofNat (n + 1)) rbp) (.finite kInputScale)),
      ?_, ?_⟩
    · rw [List.range_succ, List.foldl_append, h1]
      simp only [List.foldl_cons, List.foldl_nil, skia.kawasePass]
      rw [if_pos (hok (1 + n) (by omega)), Nat.add_comm 1 n]
    · simp only [skia.SkImage.blurOffsets]
      rw [h2, List.range_succ, List.map_append, List.append_assoc]
      rfl

/-- The numbers below `n + 1` are 0 and the successors of the numbers below `n`. -/
theorem map_range_succ_eq {α : Type} (g : ℕ → α) (n : ℕ) :
    (List.range (n + 1)).map g = g 0 :: (List.range n).map (fun j => g (j + 1)) := by
  rw [List.range_succ_eq_map, List.map_cons, List.map_map]
  rfl

/-- The passes of `generate` for a radius of at least 1 whose pass count `p` is at most
`2 ^ 24`, when no image creation fails: `tmpBlur` is an image made by `p` calls of
`makeImage`, call `k` with the offset `skia.imageOffset radiusByPasses kInputScale k`. -/
theorem skia.kawasePasses_offsets (kMaxPasses : ℕ) (kInputScale : ℚ) (r : ℕ) (hr1 : 1 ≤ r)
    (hr : r < 2 ^ 32) (hk : 1 ≤ kMaxPasses) (makeImageOk : ℕ → Bool)
    (hok : ∀ i, i < gl.preparePasses kMaxPasses r → makeImageOk i = true)
    (hp24 : gl.preparePasses kMaxPasses r ≤ 2 ^ 24) :
    ∃ img, skia.kawasePasses kMaxPasses kInputScale r makeImageOk = some img ∧
      img.blurOffsets = (List.range (gl.preparePasses kMaxPasses r)).map
        (skia.imageOffset (skia.radiusByPasses kMaxPasses r) kInputScale) := by
  obtain ⟨hp, _⟩ := gl.preparePasses_bounds kMaxPasses r hr hk hr1
  obtain ⟨n, hn⟩ : ∃ n, gl.preparePasses kMaxPasses r = n + 1 :=
    ⟨gl.preparePasses kMaxPasses r - 1, by omega⟩
  have hnum : skia.numberOfPasses kMaxPasses r
      = .finite ((gl.preparePasses kMaxPasses r : ℕ) : ℚ) := by
    rw [skia.numberOfPasses_eq]
    exact Binary32.ofNat_of_le _ hp24
  have hloop := skia.kawaseLoop_eq (gl.preparePasses kMaxPasses r) hp24
    (skia.kawasePass (skia.radiusByPasses kMaxPasses r) kInputScale makeImageOk)
    (2 ^ 31) 1
    (some (.makeImage .input
      (Binary32.mul (skia.radiusByPasses kMaxPasses r) (.finite kInputScale))))
    hp (by
      have : (2 : ℕ) ^ 24 ≤ 2 ^ 31 := by norm_num
      omega)
  obtain ⟨img, h1, h2⟩ := skia.kawase_foldl
    (skia.radiusByPasses kMaxPasses r) kInputScale makeImageOk
    (gl.preparePasses kMaxPasses r - 1) (fun i hi => hok i (by omega))
    (.makeImage .input
      (Binary32.mul (skia.radiusByPasses kMaxPasses r) (.finite kInputScale)))
  refine ⟨img, ?_, ?_⟩
  · unfold skia.kawasePasses
    simp only [hok 0 (by omega), if_true]
    rw [hnum, hloop]
    exact h1
  · rw [h2]
    simp only [skia.SkImage.blurOffsets]
    rw [hn, map_range_succ_eq]
    simp only [List.nil_append, List.singleton_append, Nat.add_sub_cancel, skia.imageOffset]
    refine congrArg₂ List.cons ?_ ?_
    · simp
    · apply List.map_congr_left
      intro j _
      simp only [Nat.succ_ne_zero, if_false]

namespace Binary32

/-- A rounding in the normal range changes a value by a factor between `1 - 2 ^ (-24)` and
`1 + 2 ^ (-24)`. -/
theorem roundValue_rel (q : ℚ) (h : 1 / 2 ^ 126 ≤ q) :
    (1 - 1 / 2 ^ 24) * q ≤ roundValue q ∧ roundValue q ≤ (1 + 1 / 2 ^ 24) * q := by
  have hq : 0 < q := lt_of_lt_of_le (by positivity) h
  have habs := abs_roundValue_sub_le q
  have hz := zpow_exponent_le q (by
    rw [abs_of_pos hq]
    calc (2 : ℚ) ^ (-126 : ℤ) = 1 / 2 ^ 126 := by norm_num
      _ ≤ q := h)
  rw [abs_of_pos hq] at hz
  have hu : ulp q = 2 ^ exponent q / 2 ^ 23 := by
    unfold ulp
    rw [zpow_sub₀ (by norm_num)]
    norm_num
  rw [hu, abs_le] at habs
  obtain ⟨h1, h2⟩ := habs
  constructor <;> linarith

/-- Bounds on the factor of up to four roundings. -/
theorem near_pow_bounds (n : ℕ) (hn : n ≤ 4) :
    (1 / 2 : ℚ) ≤ (1 - 1 / 2 ^ 24) ^ n ∧ (1 + 1 / 2 ^ 24 : ℚ) ^ n ≤ 2 ∧
    (1 - 1 / 2 ^ 21 : ℚ) ≤ (1 - 1 / 2 ^ 24) ^ n ∧
    (1 + 1 / 2 ^ 24 : ℚ) ^ n ≤ 1 + 1 / 2 ^ 21 := by
  interval_cases n <;> norm_num

/-- A value is itself up to no rounding. -/
theorem near_refl (y : ℚ) : Near 0 y y := by
  simp [Near]

/-- Dividing both values by a positive number keeps them near each other. -/
theorem near_div (n : ℕ) (x y c : ℚ) (hc : 0 < c) (h : Near n x y) :
    Near n (x / c) (y / c) := by
  obtain ⟨h1, h2⟩ := h
  constructor
  · rw [← mul_div_assoc]
    exact div_le_div_of_nonneg_right h1 (le_of_lt hc)
  · rw [← mul_div_assoc]
    exact div_le_div_of_nonneg_right h2 (le_of_lt hc)

/-- Multiplying both values by a non-negative number keeps them near each other. -/
theorem near_mul (n : ℕ) (x y c : ℚ) (hc : 0 ≤ c) (h : Near n x y) :
    Near n (x * c) (y * c) := by
  obtain ⟨h1, h2⟩ := h
  constructor
  · rw [← mul_assoc]
    exact mul_le_mul_of_nonneg_right h1 hc
  · rw [← mul_assoc]
    exact mul_le_mul_of_nonneg_right h2 hc

/-- Rounding a value that is near an exact value of the normal range gives a finite value,
near the exact value with one more rounding. -/
theorem near_ofRat (n : ℕ) (x y : ℚ) (hn : n ≤ 3) (h : Near n x y)
    (hy0 : 1 / 2 ^ 120 ≤ y) (hy1 : y ≤ 2 ^ 120) :
    ofRat x = .finite (roundValue x) ∧ Near (n + 1) (roundValue x) y := by
  obtain ⟨hb1, hb2, _, _⟩ := near_pow_bounds n (by omega)
  obtain ⟨h1, h2⟩ := h
  have hy : 0 < y := lt_of_lt_of_le (by positivity) hy0
  have hx0 : 1 / 2 ^ 126 ≤ x := by
    calc (1 / 2 ^ 126 : ℚ) ≤ 1 / 2 * (1 / 2 ^ 120) := by norm_num
      _ ≤ 1 / 2 * y := by linarith
      _ ≤ (1 - 1 / 2 ^ 24) ^ n * y := mul_le_mul_of_nonneg_right hb1 (le_of_lt hy)
      _ ≤ x := h1
  have hx1 : x ≤ (2 : ℚ) ^ (127 : ℤ) := by
    calc x ≤ (1 + 1 / 2 ^ 24) ^ n * y := h2
      _ ≤ 2 * y := mul_le_mul_of_nonneg_right hb2 (le_of_lt hy)
      _ ≤ 2 * 2 ^ 120 := by linarith
      _ ≤ (2 : ℚ) ^ (127 : ℤ) := by norm_num
  have hxpos : 0 ≤ x := le_trans (by positivity) hx0
  obtain ⟨hr1, hr2⟩ := roundValue_rel x hx0
  refine ⟨ofRat_of_nonneg_le x hxpos hx1, ?_, ?_⟩
  · calc (1 - 1 / 2 ^ 24) ^ (n + 1) * y
        = (1 - 1 / 2 ^ 24) * ((1 - 1 / 2 ^ 24) ^ n * y) := by ring
      _ ≤ (1 - 1 / 2 ^ 24) * x := mul_le_mul_of_nonneg_left h1 (by norm_num)
      _ ≤ roundValue x := hr1
  · calc roundValue x ≤ (1 + 1 / 2 ^ 24) * x := hr2
      _ ≤ (1 + 1 / 2 ^ 24) * ((1 + 1 / 2 ^ 24) ^ n * y) :=
        mul_le_mul_of_nonneg_left h2 (by norm_num)
      _ = (1 + 1 / 2 ^ 24) ^ (n + 1) * y := by ring

/-- A value within four roundings of a non-negative exact value differs from it by at most
the fraction `2 ^ (-21)` of it. -/
theorem near_abs (n : ℕ) (x y : ℚ) (hn : n ≤ 4) (hy : 0 ≤ y) (h : Near n x y) :
    |x - y| ≤ y / 2 ^ 21 := by
  obtain ⟨_, _, hb3, hb4⟩ := near_pow_bounds n hn
  obtain ⟨h1, h2⟩ := h
  have h3 := mul_le_mul_of_nonneg_right hb3 hy
  have h4 := mul_le_mul_of_nonneg_right hb4 hy
  rw [abs_le]
  constructor <;> linarith

end Binary32

/-- For a radius `r` with `1 ≤ r ≤ 2 ^ 24` the pass count is `min(kMaxPasses, ceil(r / 6))`,
at most `2 ^ 24`, and `radiusByPasses` is a finite value within two roundings of
`(r / 6) / p`. -/
theorem gl.prepareRadiusByPasses_near (kMaxPasses r : ℕ) (hr1 : 1 ≤ r) (hr24 : r ≤ 2 ^ 24)
    (hk : 1 ≤ kMaxPasses) :
    gl.preparePasses kMaxPasses r = min kMaxPasses ⌈(r : ℚ) / 6⌉₊ ∧
    gl.preparePasses kMaxPasses r ≤ 2 ^ 24 ∧
    1 / 2 ^ 27 ≤ (r : ℚ) / 6 / (gl.preparePasses kMaxPasses r : ℚ) ∧
    (r : ℚ) / 6 / (gl.preparePasses kMaxPasses r : ℚ) ≤ 2 ^ 22 ∧
    ∃ s : ℚ, gl.prepareRadiusByPasses kMaxPasses r = .finite s ∧
      Binary32.Near 2 s ((r : ℚ) / 6 / (gl.preparePasses kMaxPasses r : ℚ)) := by
  have hr : r < 2 ^ 32 := lt_of_le_of_lt hr24 (by norm_num)
  obtain ⟨hp1, _⟩ := gl.preparePasses_bounds kMaxPasses r hr hk hr1
  have hpe : gl.preparePasses kMaxPasses r = min kMaxPasses ⌈(r : ℚ) / 6⌉₊ := by
    rw [gl.preparePasses_eq kMaxPasses r hr, ceil_quotient_six_of_le r hr24]
  have hp24 : gl.preparePasses kMaxPasses r ≤ 2 ^ 24 := by
    rw [hpe]
    exact le_trans (min_le_right _ _) (le_trans (ceil_div_six_le r) hr24)
  have hrq1 : (1 : ℚ) ≤ (r : ℚ) := by exact_mod_cast hr1
  have hrq24 : (r : ℚ) ≤ 2 ^ 24 := by exact_mod_cast hr24
  have hpq1 : (1 : ℚ) ≤ (gl.preparePasses kMaxPasses r : ℚ) := by exact_mod_cast hp1
  have hpq24 : (gl.preparePasses kMaxPasses r : ℚ) ≤ 2 ^ 24 := by exact_mod_cast hp24
  have hppos : (0 : ℚ) < (gl.preparePasses kMaxPasses r : ℚ) := by linarith
  have hlow : 1 / 2 ^ 27 ≤ (r : ℚ) / 6 / (gl.preparePasses kMaxPasses r : ℚ) := by
    rw [le_div_iff₀ hppos]
    calc (1 / 2 ^ 27 : ℚ) * (gl.preparePasses kMaxPasses r : ℚ)
        ≤ 1 / 2 ^ 27 * 2 ^ 24 := mul_le_mul_of_nonneg_left hpq24 (by positivity)
      _ ≤ (r : ℚ) / 6 := by linarith
  have hhigh : (r : ℚ) / 6 / (gl.preparePasses kMaxPasses r : ℚ) ≤ 2 ^ 22 := by
    rw [div_le_iff₀ hppos]
    calc (r : ℚ) / 6 ≤ 2 ^ 22 * 1 := by linarith
      _ ≤ 2 ^ 22 * (gl.preparePasses kMaxPasses r : ℚ) :=
        mul_le_mul_of_nonneg_left hpq1 (by positivity)
  refine ⟨hpe, hp24, hlow, hhigh, _,
    gl.prepareRadiusByPasses_eq kMaxPasses r hr hk hr1, ?_⟩
  rw [Binary32.roundValue_natCast r hr24, Binary32.roundValue_natCast _ hp24]
  obtain ⟨_, hn1⟩ := Binary32.near_ofRat 0 ((r : ℚ) / 6) ((r : ℚ) / 6) (by norm_num)
    (Binary32.near_refl _)
    (by
      calc (1 / 2 ^ 120 : ℚ) ≤ 1 / 6 := by norm_num
        _ ≤ (r : ℚ) / 6 := by linarith)
    (by
      calc (r : ℚ) / 6 ≤ 2 ^ 24 / 6 := by linarith
        _ ≤ 2 ^ 120 := by norm_num)
  have hn2 := Binary32.near_div 1 _ _ _ hppos hn1
  exact (Binary32.near_ofRat 1 _ _ (by norm_num) hn2
    (le_trans (by norm_num) hlow) (le_trans hhigh (by norm_num))).2

/-- The offset of a blur draw of `prepare` is the exact offset up to the rounding of the
`float` operations: when `s` is within two roundings of `sx`, the offset of draw `k` along
an axis of `W` pixels is a finite value that differs from `m * sx / W`, with `m` the
multiplier of the draw, by at most the fraction `2 ^ (-21)` of it. -/
theorem passOffset_near (s sx : ℚ) (hs : Binary32.Near 2 s sx) (h0 : 1 / 2 ^ 27 ≤ sx)
    (h1 : sx ≤ 2 ^ 22) (W k : ℕ) (hW1 : 1 ≤ W) (hW : W ≤ 2 ^ 24) (hk : k ≤ 2 ^ 24) :
    ∃ x : ℚ, passOffset (Binary32.div (.finite s) (Binary32.ofNat W)) k = .finite x ∧
      |x - offsetMultiplier k * sx / (W : ℚ)| ≤ offsetMultiplier k * sx / (W : ℚ) / 2 ^ 21 := by
  have hsx : 0 < sx := lt_of_lt_of_le (by positivity) h0
  have hWq1 : (1 : ℚ) ≤ (W : ℚ) := by exact_mod_cast hW1
  have hWq : (W : ℚ) ≤ 2 ^ 24 := by exact_mod_cast hW
  have hWpos : (0 : ℚ) < (W : ℚ) := by linarith
  have hlow : 1 / 2 ^ 51 ≤ sx / (W : ℚ) := by
    rw [le_div_iff₀ hWpos]
    calc (1 / 2 ^ 51 : ℚ) * (W : ℚ) ≤ 1 / 2 ^ 51 * 2 ^ 24 :=
          mul_le_mul_of_nonneg_left hWq (by positivity)
      _ ≤ sx := by linarith
  have hhigh : sx / (W : ℚ) ≤ 2 ^ 22 := by
    rw [div_le_iff₀ hWpos]
    calc sx ≤ 2 ^ 22 * 1 := by linarith
      _ ≤ 2 ^ 22 * (W : ℚ) := mul_le_mul_of_nonneg_left hWq1 (by positivity)
  have hdiv : Binary32.div (.finite s) (Binary32.ofNat W) = Binary32.ofRat (s / (W : ℚ)) := by
    rw [Binary32.ofNat_of_le W hW]
    unfold Binary32.div
    simp only
    rw [if_neg (ne_of_gt hWpos)]
  obtain ⟨hfin, hn3⟩ := Binary32.near_ofRat 2 _ _ (by norm_num)
    (Binary32.near_div 2 s sx _ hWpos hs)
    (le_trans (by norm_num) hlow) (le_trans hhigh (by norm_num))
  rw [hdiv, hfin]
  unfold passOffset offsetMultiplier
  by_cases hk0 : k = 0
  · rw [if_pos hk0, if_pos hk0, one_mul]
    exact ⟨_, rfl, Binary32.near_abs 3 _ _ (by norm_num) (le_trans (by positivity) hlow) hn3⟩
  · rw [if_neg hk0, if_neg hk0, Binary32.ofNat_of_le k hk]
    have hkq1 : (1 : ℚ) ≤ (k : ℚ) := by
      exact_mod_cast Nat.one_le_iff_ne_zero.mpr hk0
    have hkq : (k : ℚ) ≤ 2 ^ 24 := by exact_mod_cast hk
    have hlow2 : 1 / 2 ^ 51 ≤ sx / (W : ℚ) * (k : ℚ) := by
      calc (1 / 2 ^ 51 : ℚ) ≤ sx / (W : ℚ) := hlow
        _ = sx / (W : ℚ) * 1 := by ring
        _ ≤ sx / (W : ℚ) * (k : ℚ) :=
          mul_le_mul_of_nonneg_left hkq1 (le_trans (by positivity) hlow)
    have hhigh2 : sx / (W : ℚ) * (k : ℚ) ≤ 2 ^ 46 := by
      calc sx / (W : ℚ) * (k : ℚ) ≤ 2 ^ 22 * 2 ^ 24 :=
            mul_le_mul hhigh hkq (by linarith) (by positivity)
        _ = 2 ^ 46 := by norm_num
    obtain ⟨hfin4, hn4⟩ := Binary32.near_ofRat 3 _ _ (by norm_num)
      (Binary32.near_mul 3 _ _ (k : ℚ) (by linarith) hn3)
      (le_trans (by norm_num) hlow2) (le_trans hhigh2 (by norm_num))
    have hmul : Binary32.mul (.finite (Binary32.roundValue (s / (W : ℚ)))) (.finite (k : ℚ))
        = Binary32.ofRat (Binary32.roundValue (s / (W : ℚ)) * (k : ℚ)) := rfl
    rw [hmul, hfin4]
    have e : (k : ℚ) * sx / (W : ℚ) = sx / (W : ℚ) * (k : ℚ) := by ring
    rw [e]
    exact ⟨_, rfl, Binary32.near_abs 4 _ _ (by norm_num) (le_trans (by positivity) hlow2) hn4⟩

/-- The value of `in_blurOffset` of an image of `generate` is the exact offset up to the
rounding of the `float` operations: when `s` is within two roundings of `sx` and
`kInputScale` lies between `2 ^ (-60)` and `2 ^ 60`, the offset of image `k` is a finite
value that differs from `m * sx * kInputScale`, with `m` the multiplier of the image, by at
most the fraction `2 ^ (-21)` of it. -/
theorem skia.imageOffset_near (s sx : ℚ) (hs : Binary32.Near 2 s sx) (h0 : 1 / 2 ^ 27 ≤ sx)
    (h1 : sx ≤ 2 ^ 22) (kInputScale : ℚ) (hc0 : 1 / 2 ^ 60 ≤ kInputScale)
    (hc1 : kInputScale ≤ 2 ^ 60) (k : ℕ) (hk : k ≤ 2 ^ 24) :
    ∃ x : ℚ, skia.imageOffset (.finite s) kInputScale k = .finite x ∧
      |x - offsetMultiplier k * sx * kInputScale|
        ≤ offsetMultiplier k * sx * kInputScale / 2 ^ 21 := by
  have hsx : 0 < sx := lt_of_lt_of_le (by positivity) h0
  have hc : 0 < kInputScale := lt_of_lt_of_le (by positivity) hc0
  unfold skia.imageOffset offsetMultiplier
  by_cases hk0 : k = 0
  · rw [if_pos hk0, if_pos hk0, one_mul]
    have hlow : 1 / 2 ^ 87 ≤ sx * kInputScale := by
      calc (1 / 2 ^ 87 : ℚ) = 1 / 2 ^ 27 * (1 / 2 ^ 60) := by norm_num
        _ ≤ sx * kInputScale := mul_le_mul h0 hc0 (by positivity) (le_of_lt hsx)
    have hhigh : sx * kInputScale ≤ 2 ^ 82 := by
      calc sx * kInputScale ≤ 2 ^ 22 * 2 ^ 60 :=
            mul_le_mul h1 hc1 (le_of_lt hc) (by positivity)
        _ = 2 ^ 82 := by norm_num
    obtain ⟨hfin, hn3⟩ := Binary32.near_ofRat 2 _ _ (by norm_num)
      (Binary32.near_mul 2 s sx kInputScale (le_of_lt hc) hs)
      (le_trans (by norm_num) hlow) (le_trans hhigh (by norm_num))
    have hmul : Binary32.mul (.finite s) (.finite kInputScale)
        = Binary32.ofRat (s * kInputScale) := rfl
    rw [hmul, hfin]
    exact ⟨_, rfl, Binary32.near_abs 3 _ _ (by norm_num) (le_trans (by positivity) hlow) hn3⟩
  · rw [if_neg hk0, if_neg hk0, Binary32.ofNat_of_le k hk]
    have hkq1 : (1 : ℚ) ≤ (k : ℚ) := by
      exact_mod_cast Nat.one_le_iff_ne_zero.mpr hk0
    have hkq : (k : ℚ) ≤ 2 ^ 24 := by exact_mod_cast hk
    have hkpos : (0 : ℚ) ≤ (k : ℚ) := by linarith
    have hlow1 : 1 / 2 ^ 27 ≤ sx * (k : ℚ) := by
      calc (1 / 2 ^ 27 : ℚ) ≤ sx := h0
        _ = sx * 1 := by ring
        _ ≤ sx * (k : ℚ) := mul_le_mul_of_nonneg_left hkq1 (le_of_lt hsx)
    have hhigh1 : sx * (k : ℚ) ≤ 2 ^ 46 := by
      calc sx * (k : ℚ) ≤ 2 ^ 22 * 2 ^ 24 := mul_le_mul h1 hkq hkpos (by positivity)
        _ = 2 ^ 46 := by norm_num
    obtain ⟨hfin3, hn3⟩ := Binary32.near_ofRat 2 _ _ (by norm_num)
      (Binary32.near_mul 2 s sx (k : ℚ) hkpos hs)
      (le_trans (by norm_num) hlow1) (le_trans hhigh1 (by norm_num))
    have hmul1 : Binary32.mul (.finite (k : ℚ)) (.finite s)
        = Binary32.ofRat (s * (k : ℚ)) := by
      rw [mul_comm s]
      rfl
    rw [hmul1, hfin3]
    have hlow2 : 1 / 2 ^ 87 ≤ sx * (k : ℚ) * kInputScale := by
      calc (1 / 2 ^ 87 : ℚ) = 1 / 2 ^ 27 * (1 / 2 ^ 60) := by norm_num
        _ ≤ sx * (k : ℚ) * kInputScale :=
          mul_le_mul hlow1 hc0 (by positivity) (le_trans (by positivity) hlow1)
    have hhigh2 : sx * (k : ℚ) * kInputScale ≤ 2 ^ 106 := by
      calc sx * (k : ℚ) * kInputScale ≤ 2 ^ 46 * 2 ^ 60 :=
            mul_le_mul hhigh1 hc1 (le_of_lt hc) (by positivity)
        _ = 2 ^ 106 := by norm_num
    obtain ⟨hfin4, hn4⟩ := Binary32.near_ofRat 3 _ _ (by norm_num)
      (Binary32.near_mul 3 _ _ kInputScale (le_of_lt hc) hn3)
      (le_trans (by norm_num) hlow2) (le_trans hhigh2 (by norm_num))
    have hmul2 : Binary32.mul (.finite (Binary32.roundValue (s * (k : ℚ))))
        (.finite kInputScale)
        = Binary32.ofRat (Binary32.roundValue (s * (k : ℚ)) * kInputScale) := rfl
    rw [hmul2, hfin4]
    have e : (k : ℚ) * sx * kInputScale = sx * (k : ℚ) * kInputScale := by ring
    rw [e]
    exact ⟨_, rfl, Binary32.near_abs 4 _ _ (by norm_num) (le_trans (by positivity) hlow2) hn4⟩

/-- C7 (amended): for every 32-bit radius `r ≥ 1`, with `p` the pass count and `s` the
`float` value of `radiusByPasses` (the quotient `r / 6.0f` divided by `(float) p`, each
operation rounded to `float`), `gl::BlurFilter::prepare` issues exactly `p` blur draws; the
first uses the offset `(stepX, stepY)` with `stepX = s / (float) W` and
`stepY = s / (float) H` computed in `float`, and draw number `k ≥ 1` uses the `float`
products `(stepX * k, stepY * k)`. `skia::KawaseBlurFilter::generate` divides the same
values, and when `p ≤ 2 ^ 24` and no image creation fails it makes exactly `p` intermediate
images, the first with `in_blurOffset = s * kInputScale` and image `k ≥ 1` with
`(float) k * s * kInputScale`, every product rounded to `float`. For `r ≤ 2 ^ 24`, `p` is
`min(kMaxPasses, ceil(r / 6))` and these offsets are finite and equal the exact values
`m_k * ((r / 6) / p) / W`, `m_k * ((r / 6) / p) / H` and `m_k * ((r / 6) / p) * kInputScale`
(`m_0 = 1`, `m_k = k` for `k ≥ 1`) up to a relative error of `2 ^ (-21)`, for buffer sizes
from 1 to `2 ^ 24` and `kInputScale` from `2 ^ (-60)` to `2 ^ 60`. -/
theorem C7_pass_offsets (kMaxPasses : ℕ) (kInputScale : ℚ) (f : gl.BlurFilter)
    (hr1 : 1 ≤ f.mRadius) (hr : f.mRadius < 2 ^ 32) (hk : 1 ≤ kMaxPasses)
    (makeImageOk : ℕ → Bool)
    (hok : ∀ i, i < gl.preparePasses kMaxPasses f.mRadius → makeImageOk i = true) :
    (gl.prepare kMaxPasses f).2.length = gl.preparePasses kMaxPasses f.mRadius ∧
    (gl.prepare kMaxPasses f).2.map (fun d => (d.offsetX, d.offsetY))
      = (List.range (gl.preparePasses kMaxPasses f.mRadius)).map (fun k =>
          (passOffset (Binary32.div (gl.prepareRadiusByPasses kMaxPasses f.mRadius)
              (Binary32.ofNat f.compositionWidth)) k,
            passOffset (Binary32.div (gl.prepareRadiusByPasses kMaxPasses f.mRadius)
              (Binary32.ofNat f.compositionHeight)) k)) ∧
    gl.prepareRadiusByPasses kMaxPasses f.mRadius
      = .finite (Binary32.roundValue
          (Binary32.roundValue (Binary32.roundValue (f.mRadius : ℚ) / 6)
            / Binary32.roundValue ((gl.preparePasses kMaxPasses f.mRadius : ℕ) : ℚ))) ∧
    skia.radiusByPasses kMaxPasses f.mRadius
      = gl.prepareRadiusByPasses kMaxPasses f.mRadius ∧
    (gl.preparePasses kMaxPasses f.mRadius ≤ 2 ^ 24 →
      ∃ img, skia.kawasePasses kMaxPasses kInputScale f.mRadius makeImageOk = some img ∧
        img.blurOffsets.length = gl.preparePasses kMaxPasses f.mRadius ∧
        img.blurOffsets = (List.range (gl.preparePasses kMaxPasses f.mRadius)).map
          (skia.imageOffset (skia.radiusByPasses kMaxPasses f.mRadius) kInputScale)) ∧
    (f.mRadius ≤ 2 ^ 24 →
      gl.preparePasses kMaxPasses f.mRadius = min kMaxPasses ⌈(f.mRadius : ℚ) / 6⌉₊ ∧
      gl.preparePasses kMaxPasses f.mRadius ≤ 2 ^ 24 ∧
      ∀ k, k < gl.preparePasses kMaxPasses f.mRadius →
        (1 ≤ f.compositionWidth → f.compositionWidth ≤ 2 ^ 24 →
          ∃ x : ℚ,
            passOffset (Binary32.div (gl.prepareRadiusByPasses kMaxPasses f.mRadius)
              (Binary32.ofNat f.compositionWidth)) k = .finite x ∧
            |x - offsetMultiplier k
                * ((f.mRadius : ℚ) / 6 / (gl.preparePasses kMaxPasses f.mRadius : ℚ))
                / (f.compositionWidth : ℚ)|
              ≤ offsetMultiplier k
                * ((f.mRadius : ℚ) / 6 / (gl.preparePasses kMaxPasses f.mRadius : ℚ))
                / (f.compositionWidth : ℚ) / 2 ^ 21) ∧
        (1 ≤ f.compositionHeight → f.compositionHeight ≤ 2 ^ 24 →
          ∃ y : ℚ,
            passOffset (Binary32.div (gl.prepareRadiusByPasses kMaxPasses f.mRadius)
              (Binary32.ofNat f.compositionHeight)) k = .finite y ∧
            |y - offsetMultiplier k
                * ((f.mRadius : ℚ) / 6 / (gl.preparePasses kMaxPasses f.mRadius : ℚ))
                / (f.compositionHeight : ℚ)|
              ≤ offsetMultiplier k
                * ((f.mRadius : ℚ) / 6 / (gl.preparePasses kMaxPasses f.mRadius : ℚ))
                / (f.compositionHeight : ℚ) / 2 ^ 21) ∧
        (1 / 2 ^ 60 ≤ kInputScale → kInputScale ≤ 2 ^ 60 →
          ∃ z : ℚ,
            skia.imageOffset (skia.radiusByPasses kMaxPasses f.mRadius) kInputScale k
              = .finite z ∧
            |z - offsetMultiplier k
                * ((f.mRadius : ℚ) / 6 / (gl.preparePasses kMaxPasses f.mRadius : ℚ))
                * kInputScale|
              ≤ offsetMultiplier k
                * ((f.mRadius : ℚ) / 6 / (gl.preparePasses kMaxPasses f.mRadius : ℚ))
                * kInputScale / 2 ^ 21)) := by
  obtain ⟨hp, _⟩ := gl.preparePasses_bounds kMaxPasses f.mRadius hr hk hr1
  obtain ⟨n, hn⟩ : ∃ n, gl.preparePasses kMaxPasses f.mRadius = n + 1 :=
    ⟨gl.preparePasses kMaxPasses f.mRadius - 1, by omega⟩
  refine ⟨?_, ?_, gl.prepareRadiusByPasses_eq kMaxPasses f.mRadius hr hk hr1, rfl, ?_, ?_⟩
  · unfold gl.prepare
    simp only [gl.pingPongLoop_eq, List.length_cons, List.length_map, List.length_range]
    omega
  · unfold gl.prepare
    simp only [gl.pingPongLoop_eq]
    rw [hn, map_range_succ_eq]
    simp only [List.map_cons, List.map_map, Nat.add_sub_cancel, passOffset]
    refine congrArg₂ List.cons ?_ ?_
    · simp
    · apply List.map_congr_left
      intro j _
      simp only [Function.comp, Nat.succ_ne_zero, if_false]
  · intro hp24
    obtain ⟨img, h1, h2⟩ := skia.kawasePasses_offsets kMaxPasses kInputScale f.mRadius hr1 hr
      hk makeImageOk hok hp24
    refine ⟨img, h1, ?_, h2⟩
    rw [h2, List.length_map, List.length_range]
  · intro hr24
    obtain ⟨hpe, hp24, hlow, hhigh, s, hs, hnear⟩ :=
      gl.prepareRadiusByPasses_near kMaxPasses f.mRadius hr1 hr24 hk
    refine ⟨hpe, hp24, ?_⟩
    intro k hkp
    have hk24 : k ≤ 2 ^ 24 := by omega
    have hsk : skia.radiusByPasses kMaxPasses f.mRadius = .finite s := hs
    rw [hs, hsk]
    exact ⟨fun hW1 hW => passOffset_near s _ hnear hlow hhigh _ k hW1 hW hk24,
      fun hH1 hH => passOffset_near s _ hnear hlow hhigh _ k hH1 hH hk24,
      fun hc0 hc1 => skia.imageOffset_near s _ hnear hlow hhigh kInputScale hc0 hc1 k hk24⟩

/-- C7 (amended) for the radius 13, `kMaxPasses = 4`, `kInputScale = 1/4` and a 1080 by
1920 composition buffer, when every image creation succeeds. -/
theorem C7_pass_offsets_witness :
    (gl.prepare 4 ⟨13, 1080, 1920, .mPingFbo⟩).2.length = gl.preparePasses 4 13 ∧
    (gl.prepare 4 ⟨13, 1080, 1920, .mPingFbo⟩).2.map (fun d => (d.offsetX, d.offsetY))
      = (List.range (gl.preparePasses 4 13)).map (fun k =>
          (passOffset (Binary32.div (gl.prepareRadiusByPasses 4 13) (Binary32.ofNat 1080)) k,
            passOffset (Binary32.div (gl.prepareRadiusByPasses 4 13)
              (Binary32.ofNat 1920)) k)) ∧
    gl.prepareRadiusByPasses 4 13
      = .finite (Binary32.roundValue
          (Binary32.roundValue (Binary32.roundValue ((13 : ℕ) : ℚ) / 6)
            / Binary32.roundValue ((gl.preparePasses 4 13 : ℕ) : ℚ))) ∧
    skia.radiusByPasses 4 13 = gl.prepareRadiusByPasses 4 13 ∧
    (gl.preparePasses 4 13 ≤ 2 ^ 24 →
      ∃ img, skia.kawasePasses 4 (1 / 4) 13 (fun _ => true) = some img ∧
        img.blurOffsets.length = gl.preparePasses 4 13 ∧
        img.blurOffsets = (List.range (gl.preparePasses 4 13)).map
          (skia.imageOffset (skia.radiusByPasses 4 13) (1 / 4))) ∧
    (13 ≤ 2 ^ 24 →
      gl.preparePasses 4 13 = min 4 ⌈((13 : ℕ) : ℚ) / 6⌉₊ ∧
      gl.preparePasses 4 13 ≤ 2 ^ 24 ∧
      ∀ k, k < gl.preparePasses 4 13 →
        (1 ≤ 1080 → 1080 ≤ 2 ^ 24 →
          ∃ x : ℚ,
            passOffset (Binary32.div (gl.prepareRadiusByPasses 4 13) (Binary32.ofNat 1080)) k
              = .finite x ∧
            |x - offsetMultiplier k * (((13 : ℕ) : ℚ) / 6 / (gl.preparePasses 4 13 : ℚ))
                / ((1080 : ℕ) : ℚ)|
              ≤ offsetMultiplier k * (((13 : ℕ) : ℚ) / 6 / (gl.preparePasses 4 13 : ℚ))
                / ((1080 : ℕ) : ℚ) / 2 ^ 21) ∧
        (1 ≤ 1920 → 1920 ≤ 2 ^ 24 →
          ∃ y : ℚ,
            passOffset (Binary32.div (gl.prepareRadiusByPasses 4 13) (Binary32.ofNat 1920)) k
              = .finite y ∧
            |y - offsetMultiplier k * (((13 : ℕ) : ℚ) / 6 / (gl.preparePasses 4 13 : ℚ))
                / ((1920 : ℕ) : ℚ)|
              ≤ offsetMultiplier k * (((13 : ℕ) : ℚ) / 6 / (gl.preparePasses 4 13 : ℚ))
                / ((1920 : ℕ) : ℚ) / 2 ^ 21) ∧
        ((1 : ℚ) / 2 ^ 60 ≤ 1 / 4 → (1 / 4 : ℚ) ≤ 2 ^ 60 →
          ∃ z : ℚ,
            skia.imageOffset (skia.radiusByPasses 4 13) (1 / 4) k = .finite z ∧
            |z - offsetMultiplier k * (((13 : ℕ) : ℚ) / 6 / (gl.preparePasses 4 13 : ℚ))
                * (1 / 4)|
              ≤ offsetMultiplier k * (((13 : ℕ) : ℚ) / 6 / (gl.preparePasses 4 13 : ℚ))
                * (1 / 4) / 2 ^ 21)) :=
  C7_pass_offsets 4 (1 / 4) ⟨13, 1080, 1920, .mPingFbo⟩ (by norm_num) (by norm_num)
    (by norm_num) (fun _ => true) (fun _ _ => rfl)

/-- C7 as stated fails for the radius 13 with `kMaxPasses = 4`, `kInputScale = 1/4` and a
1080 by 1920 composition buffer: the pass count is 3, the first blur draw of `prepare` uses
the horizontal offset `2872149 / 2 ^ 32`, the result of the `float` divisions, not
`(13 / 6 / 3) / 1080`, and the first image of `generate` is made with
`in_blurOffset = 12116879 / 2 ^ 26`, not `(13 / 6 / 3) * (1 / 4)`. -/
theorem C7_pass_offsets_counterexample :
    gl.preparePasses 4 13 = 3 ∧
    (gl.prepare 4 ⟨13, 1080, 1920, .mPingFbo⟩).2.head?.map (fun d => d.offsetX)
      = some (.finite (2872149 / 4294967296)) ∧
    (2872149 / 4294967296 : ℚ)
      ≠ offsetMultiplier 0 * (((13 : ℕ) : ℚ) / 6 / ((3 : ℕ) : ℚ)) / ((1080 : ℕ) : ℚ) ∧
    (∃ img, skia.kawasePasses 4 (1 / 4) 13 (fun _ => true) = some img ∧
      img.blurOffsets.head? = some (.finite (12116879 / 67108864))) ∧
    (12116879 / 67108864 : ℚ)
      ≠ offsetMultiplier 0 * (((13 : ℕ) : ℚ) / 6 / ((3 : ℕ) : ℚ)) * (1 / 4) := by
  have hp3 : gl.preparePasses 4 13 = 3 := by
    rw [gl.preparePasses_eq 4 13 (by norm_num), ceil_quotient_six_of_le 13 (by norm_num),
      ceil_div_six_eq]
    decide
  have hq : Binary32.roundValue (((13 : ℕ) : ℚ) / 6) = 9087659 / 4194304 := by
    have h := Binary32.roundValue_eq (((13 : ℕ) : ℚ) / 6) 1 9087659 (by norm_num)
      (by norm_num) (by norm_num)
      (Binary32.roundHalfEven_eq_of_abs_lt _ _ (by rw [abs_lt]; constructor <;> norm_num))
    rw [h]
    norm_num
  have hs : gl.prepareRadiusByPasses 4 13 = .finite (12116879 / 16777216) := by
    rw [gl.prepareRadiusByPasses_eq 4 13 (by norm_num) (by norm_num) (by norm_num), hp3,
      Binary32.roundValue_natCast 13 (by norm_num),
      Binary32.roundValue_natCast 3 (by norm_num), hq]
    have h := Binary32.roundValue_eq (9087659 / 4194304 / ((3 : ℕ) : ℚ)) (-1) 12116879
      (by norm_num) (by norm_num) (by norm_num)
      (Binary32.roundHalfEven_eq_of_abs_lt _ _ (by rw [abs_lt]; constructor <;> norm_num))
    rw [h]
    norm_num
  have hstep : Binary32.div (gl.prepareRadiusByPasses 4 13) (Binary32.ofNat 1080)
      = .finite (2872149 / 4294967296) := by
    rw [hs, Binary32.ofNat_of_le 1080 (by norm_num)]
    unfold Binary32.div
    simp only
    rw [if_neg (by norm_num)]
    have h := Binary32.ofRat_eq (12116879 / 16777216 / ((1080 : ℕ) : ℚ)) (-11) 11488596
      (by norm_num) (by norm_num) (by norm_num)
      (Binary32.roundHalfEven_eq_of_abs_lt _ _ (by rw [abs_lt]; constructor <;> norm_num))
      (by norm_num)
    rw [h]
    norm_num
  have hoff : skia.imageOffset (skia.radiusByPasses 4 13) (1 / 4) 0
      = .finite (12116879 / 67108864) := by
    have hsk : skia.radiusByPasses 4 13 = .finite (12116879 / 16777216) := hs
    rw [hsk]
    unfold skia.imageOffset
    rw [if_pos rfl]
    have hmul : Binary32.mul (.finite (12116879 / 16777216)) (.finite (1 / 4))
        = Binary32.ofRat (12116879 / 16777216 * (1 / 4)) := rfl
    rw [hmul]
    have h := Binary32.ofRat_eq (12116879 / 16777216 * (1 / 4)) (-3) 12116879
      (by norm_num) (by norm_num) (by norm_num)
      (Binary32.roundHalfEven_eq_of_abs_lt _ _ (by rw [abs_lt]; constructor <;> norm_num))
      (by norm_num)
    rw [h]
    norm_num
  refine ⟨hp3, ?_, ?_, ?_, ?_⟩
  · unfold gl.prepare
    simp only [List.head?_cons, Option.map_some']
    rw [hstep]
  · unfold offsetMultiplier
    norm_num
  · obtain ⟨img, h1, h2⟩ := skia.kawasePasses_offsets 4 (1 / 4) 13 (by norm_num)
      (by norm_num) (by norm_num) (fun _ => true) (fun _ _ => rfl)
      (by rw [hp3]; norm_num)
    refine ⟨img, h1, ?_⟩
    rw [h2, hp3]
    have hl : List.range 3 = [0, 1, 2] := by decide
    rw [hl]
    simp only [List.map_cons, List.head?_cons]
    rw [hoff]
  · unfold offsetMultiplier
    norm_num

/-- The GLSL `mix` with the weight 1 is its second argument. -/
theorem glsl.mix_one {F : Type} [LinearOrderedField F] (x y : F) : glsl.mix x y 1 = y := by
  unfold glsl.mix
  ring

/-- C8: in `gl::BlurFilter::render`, for every `layers ≥ 1` and `0 ≤ currentLayer < layers`,
when the plain mix program is used the opacity uniform is exactly 1, so the output of the
mix fragment shader is the rgb of the blurred texture with alpha 1, whatever the
composition texture. -/
theorem C8_plain_mix_opaque (w : ℕ) (kMaxCrossFadeRadius : ℚ) (f : gl.BlurFilter)
    (layers : ℕ) (currentLayer : ℤ) (h1 : 1 ≤ layers) (hw : layers < 2 ^ w)
    (h0 : 0 ≤ currentLayer) (hc : currentLayer < (layers : ℤ))
    (hmix : (gl.render w kMaxCrossFadeRadius f layers currentLayer).program
      = gl.MixProgram.mMixProgram)
    {F : Type} [LinearOrderedField F] (uBlurTexture : Sampler F) (vUV : Vec2 F) :
    (gl.render w kMaxCrossFadeRadius f layers currentLayer).uBlurOpacity = .finite 1 ∧
    ∀ uCompositionTexture : Sampler F,
      gl.getMixFragShader uCompositionTexture uBlurTexture
        (((gl.render w kMaxCrossFadeRadius f layers currentLayer).uBlurOpacity.value : ℚ) : F)
        vUV
        = Vec4.ofRgb (uBlurTexture vUV).rgb 1 := by
  have hl : layers > 1 := by
    rw [gl.render_program w kMaxCrossFadeRadius f layers currentLayer h1 hw h0 hc] at hmix
    by_cases h : currentLayer = (layers : ℤ) - 1
    · rw [if_pos h] at hmix
      cases hmix
    · omega
  have hop : (gl.render w kMaxCrossFadeRadius f layers currentLayer).uBlurOpacity
      = .finite 1 := by
    rw [gl.render_uBlurOpacity]
    unfold gl.renderOpacity
    simp only [hl, or_true, if_true]
  refine ⟨hop, ?_⟩
  intro uCompositionTexture
  rw [hop]
  simp only [Binary32.value, gl.getMixFragShader, Vec3.zipWith, Vec4.rgb, Vec4.ofRgb,
    Rat.cast_one, glsl.mix_one]

/-- C8 for three layers and the layer index 0, with 64-bit `size_t`, on a texture that is
black everywhere. -/
theorem C8_plain_mix_opaque_witness :
    (gl.render 64 10 ⟨5, 1080, 1920, .mPingFbo⟩ 3 0).uBlurOpacity = .finite 1 ∧
    ∀ uCompositionTexture : Sampler ℚ,
      gl.getMixFragShader uCompositionTexture (fun _ => ⟨0, 0, 0, 1⟩)
        (((gl.render 64 10 ⟨5, 1080, 1920, .mPingFbo⟩ 3 0).uBlurOpacity.value : ℚ) : ℚ)
        ⟨0, 0⟩
        = Vec4.ofRgb (Vec4.rgb (⟨0, 0, 0, 1⟩ : Vec4 ℚ)) 1 :=
  C8_plain_mix_opaque 64 10 ⟨5, 1080, 1920, .mPingFbo⟩ 3 0 (by norm_num) (by norm_num)
    (by norm_num) (by norm_num)
    (by
      rw [gl.render_program 64 10 ⟨5, 1080, 1920, .mPingFbo⟩ 3 0 (by norm_num)
        (by norm_num) (by norm_num) (by norm_num)]
      norm_num)
    (fun _ => ⟨0, 0, 0, 1⟩) ⟨0, 0⟩

/-- C10: the constant `BLUR_SIGMA_SCALE`, by which `GaussianBlurFilter::generate` multiplies
`blurRadius * kInputScale` to obtain the sigma of its blur filter, is `0.1`; it is not
within `0.01` of `1 / sqrt(3)`: the two differ by more than `0.47`. -/
theorem C10_blur_sigma_scale (kInputScale : ℚ) (blurRadius : ℕ) :
    skia.GaussianBlurFilter.generate kInputScale blurRadius
      = .snapshot .input (some ⟨.kSrc, some (.Compose
          (.Blur ((blurRadius : ℚ) * kInputScale * skia.BLUR_SIGMA_SCALE)
            ((blurRadius : ℚ) * kInputScale * skia.BLUR_SIGMA_SCALE) .kMirror)
          (.Blur ((blurRadius : ℚ) * kInputScale * skia.GLASS_BLUR_SCALE)
            ((blurRadius : ℚ) * kInputScale * skia.GLASS_BLUR_SCALE) .kMirror))⟩) ∧
    skia.BLUR_SIGMA_SCALE = 1 / 10 ∧
    ¬ |((skia.BLUR_SIGMA_SCALE : ℚ) : ℝ) - 1 / Real.sqrt 3| < 0.01 ∧
    0.47 < |((skia.BLUR_SIGMA_SCALE : ℚ) : ℝ) - 1 / Real.sqrt 3| := by
  have hc : skia.BLUR_SIGMA_SCALE = 1 / 10 := by
    unfold skia.BLUR_SIGMA_SCALE
    norm_num
  have hs : Real.sqrt 3 < 7 / 4 := by
    rw [Real.sqrt_lt' (by norm_num)]
    norm_num
  have hs0 : 0 < Real.sqrt 3 := Real.sqrt_pos.mpr (by norm_num)
  have hinv : (4 : ℝ) / 7 < 1 / Real.sqrt 3 := by
    rw [div_lt_div_iff₀ (by norm_num) hs0]
    linarith
  have hfar : 0.47 < |((skia.BLUR_SIGMA_SCALE : ℚ) : ℝ) - 1 / Real.sqrt 3| := by
    rw [hc, abs_sub_comm]
    have h : (0.47 : ℝ) < 1 / Real.sqrt 3 - ((1 / 10 : ℚ) : ℝ) := by
      push_cast
      have e : (47 : ℝ) / 100 = 0.47 := by norm_num
      linarith
    exact lt_of_lt_of_le h (le_abs_self _)
  refine ⟨rfl, hc, ?_, hfar⟩
  intro h
  have : (0.47 : ℝ) < 0.01 := lt_trans hfar h
  norm_num at this

/-- A call of `setAsDrawTarget` that allocates its buffers and returns `NO_ERROR` leaves the
three frame buffers complete and has a valid blur program, when the statuses the allocation
reports are non-zero 31-bit values. -/
theorem gl.setAsDrawTarget_allocating (s : gl.DrawTargetState) (display : gl.PhysicalDisplay)
    (radius : ℕ) (alloc : gl.Allocation)
    (hgrow : s.mDisplayWidth < intToUInt32 display.width ∨
      s.mDisplayHeight < intToUInt32 display.height)
    (hc : 0 < alloc.composition ∧ alloc.composition < 2 ^ 31)
    (hi : 0 < alloc.ping ∧ alloc.ping < 2 ^ 31)
    (ho : 0 < alloc.pong ∧ alloc.pong < 2 ^ 31)
    (hok : (gl.setAsDrawTarget s display radius alloc).2 = gl.NO_ERROR) :
    (gl.setAsDrawTarget s display radius alloc).1.pingStatus = gl.GL_FRAMEBUFFER_COMPLETE ∧
    (gl.setAsDrawTarget s display radius alloc).1.pongStatus = gl.GL_FRAMEBUFFER_COMPLETE ∧
    (gl.setAsDrawTarget s display radius alloc).1.compositionStatus
      = gl.GL_FRAMEBUFFER_COMPLETE ∧
    (gl.setAsDrawTarget s display radius alloc).1.blurProgramValid = true := by
  have hne : ∀ n : ℕ, 0 < n → n < 2 ^ 31 → toInt32 n ≠ gl.NO_ERROR := by
    intro n h0 h31
    unfold toInt32 gl.NO_ERROR
    have hm : n % 2 ^ 32 = n := Nat.mod_eq_of_lt (by omega)
    rw [hm, if_pos h31]
    exact_mod_cast (Nat.pos_iff_ne_zero.mp h0)
  have hinv : toInt32 gl.GL_INVALID_OPERATION ≠ gl.NO_ERROR := by decide
  unfold gl.setAsDrawTarget at hok ⊢
  simp only [hgrow, if_true] at hok ⊢
  by_cases h1 : alloc.ping ≠ gl.GL_FRAMEBUFFER_COMPLETE
  · rw [if_pos h1] at hok
    exact absurd hok (hne _ hi.1 hi.2)
  · rw [if_neg h1] at hok ⊢
    by_cases h2 : alloc.pong ≠ gl.GL_FRAMEBUFFER_COMPLETE
    · rw [if_pos h2] at hok
      exact absurd hok (hne _ ho.1 ho.2)
    · rw [if_neg h2] at hok ⊢
      by_cases h3 : alloc.composition ≠ gl.GL_FRAMEBUFFER_COMPLETE
      · rw [if_pos h3] at hok
        exact absurd hok (hne _ hc.1 hc.2)
      · rw [if_neg h3] at hok ⊢
        by_cases h4 : ¬ s.blurProgramValid = true
        · rw [if_pos h4] at hok
          exact absurd hok hinv
        · rw [if_neg h4]
          exact ⟨not_not.mp h1, not_not.mp h2, not_not.mp h3, not_not.mp h4⟩

/-- C12: a call of `setAsDrawTarget` that has to allocate and finds the ping buffer
incomplete returns that buffer's status, an error; but it has stored the display size
already, so the next call with the same display allocates and checks nothing and returns
`NO_ERROR`, while the ping buffer is still incomplete. -/
theorem C12_error_then_no_error (s : gl.DrawTargetState) (display : gl.PhysicalDisplay)
    (radius radius2 : ℕ) (alloc alloc2 : gl.Allocation)
    (hgrow : s.mDisplayWidth < intToUInt32 display.width ∨
      s.mDisplayHeight < intToUInt32 display.height)
    (hping : alloc.ping ≠ gl.GL_FRAMEBUFFER_COMPLETE)
    (h0 : 0 < alloc.ping) (h31 : alloc.ping < 2 ^ 31) :
    (gl.setAsDrawTarget s display radius alloc).2 = (alloc.ping : ℤ) ∧
    (gl.setAsDrawTarget s display radius alloc).2 ≠ gl.NO_ERROR ∧
    (gl.setAsDrawTarget (gl.setAsDrawTarget s display radius alloc).1 display radius2
      alloc2).2 = gl.NO_ERROR ∧
    (gl.setAsDrawTarget (gl.setAsDrawTarget s display radius alloc).1 display radius2
      alloc2).1.pingStatus = alloc.ping ∧
    (gl.setAsDrawTarget (gl.setAsDrawTarget s display radius alloc).1 display radius2
      alloc2).1.pingStatus ≠ gl.GL_FRAMEBUFFER_COMPLETE := by
  have hfirst : gl.setAsDrawTarget s display radius alloc
      = ({ s with
            mRadius := radius, mDisplayX := display.left, mDisplayY := display.top
            mDisplayWidth := intToUInt32 display.width
            mDisplayHeight := intToUInt32 display.height
            compositionStatus := alloc.composition
            pingStatus := alloc.ping
            pongStatus := alloc.pong }, toInt32 alloc.ping) := by
    unfold gl.setAsDrawTarget
    simp only [hgrow, if_true]
    rw [if_pos hping]
  have hval : toInt32 alloc.ping = (alloc.ping : ℤ) := by
    unfold toInt32
    have hm : alloc.ping % 2 ^ 32 = alloc.ping := Nat.mod_eq_of_lt (by omega)
    rw [hm, if_pos h31]
  have hsecond : gl.setAsDrawTarget (gl.setAsDrawTarget s display radius alloc).1 display
      radius2 alloc2
      = ({ s with
            mRadius := radius2, mDisplayX := display.left, mDisplayY := display.top
            mDisplayWidth := intToUInt32 display.width
            mDisplayHeight := intToUInt32 display.height
            compositionStatus := alloc.composition
            pingStatus := alloc.ping
            pongStatus := alloc.pong
            compositionBound := true }, gl.NO_ERROR) := by
    rw [hfirst]
    unfold gl.setAsDrawTarget
    simp only [lt_irrefl, or_self, if_false]
  refine ⟨?_, ?_, ?_, ?_, ?_⟩
  · rw [hfirst]
    exact hval
  · rw [hfirst]
    simp only [hval, gl.NO_ERROR]
    exact_mod_cast (Nat.pos_iff_ne_zero.mp h0)
  · rw [hsecond]
  · rw [hsecond]
  · rw [hsecond]
    exact hping

/-- C12 on a filter that has allocated nothing yet, for a 1080 by 1920 display, when the
allocation leaves the ping buffer with the status `GL_FRAMEBUFFER_INCOMPLETE_ATTACHMENT`
(`0x8CD6`): the first call returns `0x8CD6`, the second call returns `NO_ERROR`; the
sequence of the two calls returns `[0x8CD6, 0]` and leaves the ping status `0x8CD6`. -/
theorem C12_error_then_no_error_witness :
    ((gl.setAsDrawTarget ⟨0, 0, 0, 0, 0, 0x8CDD, 0x8CDD, 0x8CDD, true, false⟩
      ⟨0, 0, 1080, 1920⟩ 12 ⟨0x8CD5, 0x8CD6, 0x8CD5⟩).2 = ((0x8CD6 : ℕ) : ℤ) ∧
    (gl.setAsDrawTarget ⟨0, 0, 0, 0, 0, 0x8CDD, 0x8CDD, 0x8CDD, true, false⟩
      ⟨0, 0, 1080, 1920⟩ 12 ⟨0x8CD5, 0x8CD6, 0x8CD5⟩).2 ≠ gl.NO_ERROR ∧
    (gl.setAsDrawTarget
      (gl.setAsDrawTarget ⟨0, 0, 0, 0, 0, 0x8CDD, 0x8CDD, 0x8CDD, true, false⟩
        ⟨0, 0, 1080, 1920⟩ 12 ⟨0x8CD5, 0x8CD6, 0x8CD5⟩).1
      ⟨0, 0, 1080, 1920⟩ 12 ⟨0x8CD5, 0x8CD5, 0x8CD5⟩).2 = gl.NO_ERROR ∧
    (gl.setAsDrawTarget
      (gl.setAsDrawTarget ⟨0, 0, 0, 0, 0, 0x8CDD, 0x8CDD, 0x8CDD, true, false⟩
        ⟨0, 0, 1080, 1920⟩ 12 ⟨0x8CD5, 0x8CD6, 0x8CD5⟩).1
      ⟨0, 0, 1080, 1920⟩ 12 ⟨0x8CD5, 0x8CD5, 0x8CD5⟩).1.pingStatus = 0x8CD6 ∧
    (gl.setAsDrawTarget
      (gl.setAsDrawTarget ⟨0, 0, 0, 0, 0, 0x8CDD, 0x8CDD, 0x8CDD, true, false⟩
        ⟨0, 0, 1080, 1920⟩ 12 ⟨0x8CD5, 0x8CD6, 0x8CD5⟩).1
      ⟨0, 0, 1080, 1920⟩ 12 ⟨0x8CD5, 0x8CD5, 0x8CD5⟩).1.pingStatus
        ≠ gl.GL_FRAMEBUFFER_COMPLETE) ∧
    gl.setAsDrawTargetCalls ⟨0, 0, 0, 0, 0, 0x8CDD, 0x8CDD, 0x8CDD, true, false⟩
        [(⟨0, 0, 1080, 1920⟩, 12, ⟨0x8CD5, 0x8CD6, 0x8CD5⟩),
          (⟨0, 0, 1080, 1920⟩, 12, ⟨0x8CD5, 0x8CD5, 0x8CD5⟩)]
      = (⟨12, 0, 0, 1080, 1920, 0x8CD5, 0x8CD6, 0x8CD5, true, true⟩, [0x8CD6, 0]) :=
  ⟨C12_error_then_no_error ⟨0, 0, 0, 0, 0, 0x8CDD, 0x8CDD, 0x8CDD, true, false⟩
    ⟨0, 0, 1080, 1920⟩ 12 12 ⟨0x8CD5, 0x8CD6, 0x8CD5⟩ ⟨0x8CD5, 0x8CD5, 0x8CD5⟩
    (by decide) (by decide) (by decide) (by decide), by decide⟩

/-- The passes of `generate` for the radius 12 with `kMaxPasses = 4` and
`kInputScale = 1 / 4`, when every image creation succeeds: two images, both made with the
offset `1 / 4`. -/
theorem skia.kawasePasses_twelve :
    skia.kawasePasses 4 (1 / 4) 12 (fun _ => true)
      = some (.makeImage (.makeImage .input (.finite (1 / 4))) (.finite (1 / 4))) := by
  have hp : gl.preparePasses 4 12 = 2 := by
    rw [gl.preparePasses_eq 4 12 (by norm_num), ceil_quotient_six_of_le 12 (by norm_num),
      ceil_div_six_eq]
    decide
  have hn : skia.numberOfPasses 4 12 = .finite ((2 : ℕ) : ℚ) := by
    rw [skia.numberOfPasses_eq, hp]
    exact Binary32.ofNat_of_le 2 (by norm_num)
  have hr : skia.radiusByPasses 4 12 = .finite 1 := by
    have h : skia.radiusByPasses 4 12 = gl.prepareRadiusByPasses 4 12 := rfl
    rw [h, gl.prepareRadiusByPasses_eq 4 12 (by norm_num) (by norm_num) (by norm_num), hp,
      Binary32.roundValue_natCast 12 (by norm_num), Binary32.roundValue_natCast 2 (by norm_num)]
    have e1 : ((12 : ℕ) : ℚ) / 6 = ((2 : ℕ) : ℚ) := by norm_num
    rw [e1, Binary32.roundValue_natCast 2 (by norm_num)]
    have e2 : ((2 : ℕ) : ℚ) / ((2 : ℕ) : ℚ) = ((1 : ℕ) : ℚ) := by norm_num
    rw [e2, Binary32.roundValue_natCast 1 (by norm_num)]
    norm_num
  have hquarter : Binary32.ofRat (1 / 4) = .finite (1 / 4) := by
    have h := Binary32.ofRat_eq (1 / 4) (-2) 8388608 (by norm_num) (by norm_num)
      (by norm_num)
      (Binary32.roundHalfEven_eq_of_abs_lt _ _ (by rw [abs_lt]; constructor <;> norm_num))
      (by norm_num)
    rw [h]
    norm_num
  have hfirst : Binary32.mul (.finite 1) (.finite (1 / 4)) = .finite (1 / 4) := by
    have h : Binary32.mul (.finite 1) (.finite (1 / 4)) = Binary32.ofRat (1 * (1 / 4)) := rfl
    rw [h, one_mul, hquarter]
  have hone : Binary32.mul (Binary32.ofNat 1) (.finite 1) = .finite 1 := by
    rw [Binary32.ofNat_of_le 1 (by norm_num)]
    have h : Binary32.mul (.finite ((1 : ℕ) : ℚ)) (.finite 1)
        = Binary32.ofRat (((1 : ℕ) : ℚ) * 1) := rfl
    rw [h, mul_one, ← Binary32.ofNat, Binary32.ofNat_of_le 1 (by norm_num)]
    norm_num
  unfold skia.kawasePasses
  simp only [if_true]
  rw [hn, skia.kawaseLoop_eq 2 (by norm_num) _ (2 ^ 31) 1 _ (by norm_num) (by norm_num), hr]
  have hl : List.range (2 - 1) = [0] := by decide
  rw [hl]
  simp only [List.foldl_cons, List.foldl_nil, skia.kawasePass, if_true, Nat.add_zero]
  rw [hone, hfirst]

/-- C13: when all intermediate images are created, `KawaseBlurFilter::generate` returns the
snapshot of a surface onto which the image of the last pass was drawn with no paint: the
paint configured just before (blend mode `kSrc`, Gaussian blur of sigma
`blurRadius * kInputScale * 0.5` in both directions with mirror tiling) is not given to
`drawImage`, so the returned image is never a snapshot drawn with that paint. -/
theorem C13_final_draw_without_paint (kMaxPasses : ℕ) (kInputScale : ℚ) (blurRadius : ℕ)
    (makeImageOk : ℕ → Bool) :
    skia.KawaseBlurFilter.generate kMaxPasses kInputScale blurRadius makeImageOk
      = (skia.kawasePasses kMaxPasses kInputScale blurRadius makeImageOk).map
          (fun tmpBlur => skia.SkImage.snapshot tmpBlur none) ∧
    (∀ tmpBlur, skia.kawasePasses kMaxPasses kInputScale blurRadius makeImageOk = some tmpBlur →
      skia.KawaseBlurFilter.generate kMaxPasses kInputScale blurRadius makeImageOk
        = some (.snapshot tmpBlur none)) ∧
    (∀ drawn, skia.KawaseBlurFilter.generate kMaxPasses kInputScale blurRadius makeImageOk
      ≠ some (.snapshot drawn (some (skia.kawasePaint kInputScale blurRadius)))) ∧
    skia.kawasePaint kInputScale blurRadius
      = ⟨.kSrc, some (.Blur ((blurRadius : ℚ) * kInputScale * 0.5)
          ((blurRadius : ℚ) * kInputScale * 0.5) .kMirror)⟩ := by
  refine ⟨?_, ?_, ?_, rfl⟩
  · unfold skia.KawaseBlurFilter.generate
    cases skia.kawasePasses kMaxPasses kInputScale blurRadius makeImageOk <;> rfl
  · intro tmpBlur h
    unfold skia.KawaseBlurFilter.generate
    rw [h]
  · intro drawn h
    unfold skia.KawaseBlurFilter.generate at h
    cases hp : skia.kawasePasses kMaxPasses kInputScale blurRadius makeImageOk with
    | none =>
      rw [hp] at h
      cases h
    | some tmpBlur =>
      rw [hp] at h
      simp only [Option.some.injEq, skia.SkImage.snapshot.injEq] at h
      exact absurd h.2 (by simp)

/-- C13 for the radius 12 with `kMaxPasses = 4` and `kInputScale = 1 / 4`, when every image
creation succeeds: the image returned is the second pass image drawn with no paint. -/
theorem C13_final_draw_without_paint_witness :
    skia.KawaseBlurFilter.generate 4 (1 / 4) 12 (fun _ => true)
      = some (.snapshot (.makeImage (.makeImage .input (.finite (1 / 4))) (.finite (1 / 4)))
          none) ∧
    skia.KawaseBlurFilter.generate 4 (1 / 4) 12 (fun _ => true)
      ≠ some (.snapshot (.makeImage (.makeImage .input (.finite (1 / 4))) (.finite (1 / 4)))
          (some (skia.kawasePaint (1 / 4) 12))) :=
  ⟨(C13_final_draw_without_paint 4 (1 / 4) 12 (fun _ => true)).2.1 _
      skia.kawasePasses_twelve,
    (C13_final_draw_without_paint 4 (1 / 4) 12 (fun _ => true)).2.2.1 _⟩

end renderengine

namespace vulkan

/-- C11: for every `id` with `0 ≤ id < 1024`, `VK_ANDROID_NATIVE_BUFFER_ENUM(type, id)` is
evaluated in 32-bit `int` arithmetic without overflow and gives
`-1073741824 + 1024 * 1024 + id`, whose bit pattern is `0xC0000000 + 0x100000 + id`; so
`VK_STRUCTURE_TYPE_NATIVE_BUFFER_ANDROID` is `-1072693248` (`0xC0100000`), and distinct ids
give distinct values. -/
theorem C11_native_buffer_enum (id : ℤ) (h0 : 0 ≤ id) (h1 : id < 1024) :
    renderengine.toInt32 0xc0000000 = -1073741824 ∧
    renderengine.checkedInt32 (VK_ANDROID_NATIVE_BUFFER_EXTENSION_NUMBER * -1024)
      = some (-(1024 * 1024)) ∧
    renderengine.checkedInt32 (renderengine.toInt32 0xc0000000 - -(1024 * 1024))
      = some (-1073741824 + 1024 * 1024) ∧
    VK_ANDROID_NATIVE_BUFFER_ENUM id = some (-1073741824 + 1024 * 1024 + id) ∧
    renderengine.intToUInt32 (-1073741824 + 1024 * 1024 + id)
      = 0xC0000000 + 0x100000 + Int.toNat id ∧
    VK_STRUCTURE_TYPE_NATIVE_BUFFER_ANDROID = some (-1072693248) ∧
    renderengine.intToUInt32 (-1072693248) = 0xC0100000 ∧
    (∀ id2 : ℤ, 0 ≤ id2 → id2 < 1024 →
      VK_ANDROID_NATIVE_BUFFER_ENUM id = VK_ANDROID_NATIVE_BUFFER_ENUM id2 → id = id2) := by
  have hc : renderengine.toInt32 0xc0000000 = -1073741824 := by decide
  have hp : renderengine.checkedInt32 (VK_ANDROID_NATIVE_BUFFER_EXTENSION_NUMBER * -1024)
      = some (-(1024 * 1024)) := by decide
  have hd : renderengine.checkedInt32 (renderengine.toInt32 0xc0000000 - -(1024 * 1024))
      = some (-1073741824 + 1024 * 1024) := by decide
  have henum : ∀ i : ℤ, 0 ≤ i → i < 1024 →
      VK_ANDROID_NATIVE_BUFFER_ENUM i = some (-1073741824 + 1024 * 1024 + i) := by
    intro i hi0 hi1
    unfold VK_ANDROID_NATIVE_BUFFER_ENUM
    rw [hp]
    simp only [hd]
    unfold renderengine.checkedInt32
    rw [if_pos (by constructor <;> omega)]
  refine ⟨hc, hp, hd, henum id h0 h1, ?_, by decide, by decide, ?_⟩
  · unfold renderengine.intToUInt32
    have hm : (-1073741824 + 1024 * 1024 + id) % 2 ^ 32
        = 3221225472 + 1048576 + id := by omega
    rw [hm]
    omega
  · intro id2 h20 h21 h
    rw [henum id h0 h1, henum id2 h20 h21] at h
    have := Option.some.inj h
    omega

/-- C11 for the id 5. -/
theorem C11_native_buffer_enum_witness :
    renderengine.toInt32 0xc0000000 = -1073741824 ∧
    renderengine.checkedInt32 (VK_ANDROID_NATIVE_BUFFER_EXTENSION_NUMBER * -1024)
      = some (-(1024 * 1024)) ∧
    renderengine.checkedInt32 (renderengine.toInt32 0xc0000000 - -(1024 * 1024))
      = some (-1073741824 + 1024 * 1024) ∧
    VK_ANDROID_NATIVE_BUFFER_ENUM 5 = some (-1073741824 + 1024 * 1024 + 5) ∧
    renderengine.intToUInt32 (-1073741824 + 1024 * 1024 + 5)
      = 0xC0000000 + 0x100000 + Int.toNat 5 ∧
    VK_STRUCTURE_TYPE_NATIVE_BUFFER_ANDROID = some (-1072693248) ∧
    renderengine.intToUInt32 (-1072693248) = 0xC0100000 ∧
    (∀ id2 : ℤ, 0 ≤ id2 → id2 < 1024 →
      VK_ANDROID_NATIVE_BUFFER_ENUM 5 = VK_ANDROID_NATIVE_BUFFER_ENUM id2 → 5 = id2) :=
  C11_native_buffer_enum 5 (by norm_num) (by norm_num)

end vulkan
